import Mathlib

/-!
# A trigram Markov model: the frequency table, weighted sampling and generation

A shallow embedding of `markovmodel/model.go`.

* A Go `string` is a Lean `String` (a sequence of Unicode code points).  Go compares strings
  byte by byte; on UTF-8 that is the lexicographic order of the code points, which is `strLe`.
  `strings.Title` is exact on ASCII; what it looks up in the `unicode` tables for code points
  above 0x7F is a parameter, `Unicode`.
* A Go `map[string]V` is an association list `GoMap V` read with `lookup` (first match) and written
  with `store` (overwrite in place, else append).  A map holds every key once: `WF`.
  Go iterates a map in no fixed order; both iterations of the source sort what they collect, so
  the order the list holds its entries in does not show (`getPrefix_congr`,
  `chooseAdjoiningWord_perm`).
* Go's `uint` and `int` are taken 64 bits wide, as on amd64 and arm64: `x++` on a count is
  `(x + 1) % uintSize`, and `numWords - 3` is `wrapInt (numWords - 3)`.  Lengths of slices and maps
  do not wrap.
* The `prng` closure may carry hidden state (a counter, a seed): it is a function from the state and
  the bound to the result and the next state, and the model carries the current state.
* A run-time panic (index out of range, division by zero) is `none`, and `Run.panic` in
  `Generate`; the `for` loop of `Generate` runs on fuel, one unit per iteration that does not
  `break`, and `Run.timeout` says that the fuel ran out before the loop ended.
-/

namespace markovmodel

/-! ## Machine integers -/

/-- The number of values of a Go `uint` (64 bits). -/
def uintSize : Nat := 18446744073709551616

/-- A mathematical integer reduced to the Go `int` (64 bits, two's complement) it wraps to. -/
def wrapInt (x : Int) : Int := (x + 9223372036854775808) % 18446744073709551616 - 9223372036854775808

/-! ## Strings -/

/-- Go's `a <= b` on strings, on the code points of the two strings. -/
def strLe : List Char → List Char → Bool
  | [], _ => true
  | _ :: _, [] => false
  | a :: as, b :: bs =>
    if a.toNat < b.toNat then true
    else if b.toNat < a.toNat then false
    else strLe as bs

/-- The order `sort.Strings` sorts by. -/
def StrLe (a b : String) : Prop := strLe a.data b.data = true

instance : DecidableRel StrLe := fun a b => inferInstanceAs (Decidable (strLe a.data b.data = true))

/-- Go's `sort.Strings`: the list in ascending order. -/
def sortStrings (l : List String) : List String := l.insertionSort StrLe

/-- Go's `strings.Split(s, " ")`: the pieces of `s` between single spaces, `n + 1` pieces for `n` spaces. -/
def split (s : String) : List String := (s.data.splitOn ' ').map String.mk

/-- Go's `strings.Join(elems, " ")`. -/
def join (elems : List String) : String := String.mk ([' '].intercalate (elems.map String.data))

/-- The tables of Go's `unicode` package, which `strings.Title` consults for code points above 0x7F. -/
structure Unicode where
  ToTitle : Char → Char
  IsLetter : Char → Bool
  IsDigit : Char → Bool
  IsSpace : Char → Bool

/-- Go's `strings.isSeparator`: ASCII letters, digits and the underscore are not separators, every
other ASCII character is; above ASCII, letters and digits are not, spaces are. -/
def isSeparator (U : Unicode) (r : Char) : Bool :=
  if r.toNat ≤ 0x7F then
    if 48 ≤ r.toNat ∧ r.toNat ≤ 57 then false
    else if 97 ≤ r.toNat ∧ r.toNat ≤ 122 then false
    else if 65 ≤ r.toNat ∧ r.toNat ≤ 90 then false
    else if r = '_' then false
    else true
  else if U.IsLetter r || U.IsDigit r then false
  else U.IsSpace r

/-- Go's `unicode.ToTitle`: on ASCII, `a`..`z` move down by `'a' - 'A'`, the rest stays. -/
def ToTitle (U : Unicode) (r : Char) : Char :=
  if r.toNat ≤ 0x7F then
    if 97 ≤ r.toNat ∧ r.toNat ≤ 122 then Char.ofNat (r.toNat - 32) else r
  else U.ToTitle r

/-- The mapping closure of `strings.Title`, with `prev` the code point seen before. -/
def titleFrom (U : Unicode) : Char → List Char → List Char
  | _, [] => []
  | prev, r :: rs => (if isSeparator U prev then ToTitle U r else r) :: titleFrom U r rs

/-- Go's `strings.Title`: every code point that follows a separator (or starts the string) is
mapped to title case. -/
def Title (U : Unicode) (s : String) : String := String.mk (titleFrom U ' ' s.data)

/-! ## Maps -/

/-- A Go `map[string]V`. -/
abbrev GoMap (V : Type) := List (String × V)

/-- The keys of a map, in the order its entries are held. -/
def keys {V : Type} (m : GoMap V) : List String := m.map Prod.fst

/-- A map holds each key once. -/
def WF {V : Type} (m : GoMap V) : Prop := (keys m).Nodup

instance {V : Type} (m : GoMap V) : Decidable (WF m) := inferInstanceAs (Decidable (keys m).Nodup)

/-- Go's `len(m)`. -/
def len {V : Type} (m : GoMap V) : Nat := m.length

/-- Go's `v, ok := m[k]`. -/
def lookup {V : Type} : GoMap V → String → Option V
  | [], _ => none
  | (k', v) :: rest, k => if k' = k then some v else lookup rest k

/-- Go's `m[k] = v`. -/
def store {V : Type} : GoMap V → String → V → GoMap V
  | [], k, v => [(k, v)]
  | (k', v') :: rest, k, v => if k' = k then (k, v) :: rest else (k', v') :: store rest k v

/-! ## The model -/

/-- Modelled from the spec: the declaration of `trigram.Trigram` is not among the sources; the spec
has it as an ordered triple of three words, and the tests build it with the fields `Word1`, `Word2`
and `Word3`. -/
structure Trigram where
  Word1 : String
  Word2 : String
  Word3 : String
deriving DecidableEq

/-- The `Model`: the frequency table `freqs`, the `prng` and the state the `prng` closure holds. -/
structure Model (σ : Type) where
  freqs : GoMap (GoMap Nat)
  prng : σ → Int → Int × σ
  state : σ

/-- A call `s.prng(max)`: the result, and the model with the closure's state advanced. -/
def Model.rand {σ : Type} (s : Model σ) (max : Int) : Int × Model σ :=
  ((s.prng s.state max).1, { s with state := (s.prng s.state max).2 })

/-- `New` creates a new Model. -/
def New {σ : Type} (prng : σ → Int → Int × σ) (state : σ) : Model σ :=
  { freqs := [], prng := prng, state := state }

/-- `getPrefixByNumericalIndex` takes an integer and returns a key of the frequency table. -/
def getPrefixByNumericalIndex {σ : Type} (s : Model σ) (i : Int) : Option String :=
  if len s.freqs = 0 then none
  else
    let i := Int.tmod i (len s.freqs)
    let ks := sortStrings (keys s.freqs)
    if i < 0 then none else ks[i.toNat]?

/-- The slice `choices` of `chooseAdjoiningWord` before it is sorted: every key `v` times. -/
def expand (options : GoMap Nat) : List String :=
  options.flatMap fun kv => List.replicate kv.2 kv.1

/-- `chooseAdjoiningWord` chooses a key from a map at random, the values being the weights. -/
def chooseAdjoiningWord {σ : Type} (s : Model σ) (options : GoMap Nat) :
    Option (String × Model σ) :=
  let choices := sortStrings (expand options)
  let r := s.rand choices.length
  if r.1 < 0 then none else (choices[r.1.toNat]?).map fun w => (w, r.2)

/-- `handleDeadEnd` ends the sentence and appends a restart or a sign-off. -/
def handleDeadEnd {σ : Type} (U : Unicode) (s : Model σ) (words : List String) (numWords : Int) :
    Option (List String × Model σ) :=
  match words.getLast? with
  | none => none
  | some last =>
    let words := words.dropLast ++ [last ++ "."]
    if (words.length : Int) ≤ wrapInt (numWords - 3) then
      let r := s.rand (len s.freqs)
      match getPrefixByNumericalIndex r.2 r.1 with
      | none => none
      | some p =>
        match split p with
        | [] => none
        | a :: rest => some (words ++ Title U a :: rest, r.2)
    else if (words.length : Int) = wrapInt (numWords - 2) then
      some (words ++ ["You", "heard"], s)
    else
      some (words ++ ["amen"], s)

/-- `Add` stores a new trigram into the model by updating the frequency table. -/
def Add {σ : Type} (s : Model σ) (t : Trigram) : Model σ :=
  let key := t.Word1 ++ " " ++ t.Word2
  match lookup s.freqs key with
  | none => { s with freqs := store s.freqs key [(t.Word3, 1)] }
  | some freqs =>
    match lookup freqs t.Word3 with
    | none => { s with freqs := store s.freqs key (store freqs t.Word3 1) }
    | some c => { s with freqs := store s.freqs key (store freqs t.Word3 ((c + 1) % uintSize)) }

/-- How a call ends: it returns, it panics, or the fuel of its loop runs out. -/
inductive Run (α : Type) where
  | done : α → Run α
  | panic : Run α
  | timeout : Run α
deriving DecidableEq

/-- The `for` loop of `Generate`; `fuel` bounds the iterations that do not `break`. -/
def generateLoop {σ : Type} (U : Unicode) (numWords : Int) :
    Nat → Model σ → List String → Run (List String × Model σ)
  | fuel, s, words =>
    if (words.length : Int) = numWords then Run.done (words, s)
    else
      match fuel with
      | 0 => Run.timeout
      | fuel + 1 =>
        if words.length < 2 then Run.panic
        else
          match lookup s.freqs (join (words.drop (words.length - 2))) with
          | none =>
            match handleDeadEnd U s words numWords with
            | none => Run.panic
            | some r => generateLoop U numWords fuel r.2 r.1
          | some freqs =>
            match chooseAdjoiningWord s freqs with
            | none => Run.panic
            | some r => generateLoop U numWords fuel r.2 (words ++ [r.1])

/-- `Generate` returns a novel text: the string and the error (`none` for `nil`), and the model
with the state of its `prng` advanced. -/
def Generate {σ : Type} (U : Unicode) (fuel : Nat) (s : Model σ) (numWords : Int) :
    Run ((String × Option String) × Model σ) :=
  if len s.freqs = 0 then Run.done (("", some "Model is empty"), s)
  else
    let r := s.rand (len s.freqs)
    match getPrefixByNumericalIndex r.2 r.1 with
    | none => Run.panic
    | some randPrefix =>
      let words := split randPrefix
      if numWords = 1 then
        match words with
        | [] => Run.panic
        | w :: _ => Run.done ((Title U w ++ ".", none), r.2)
      else
        match generateLoop U numWords fuel r.2 words with
        | Run.panic => Run.panic
        | Run.timeout => Run.timeout
        | Run.done (words, s) =>
          match words with
          | [] => Run.panic
          | w :: rest => Run.done ((join (Title U w :: rest) ++ ".", none), s)

/-- The table after the trigrams of `ts` have been added in order. -/
def addAll {σ : Type} (s : Model σ) (ts : List Trigram) : Model σ := ts.foldl Add s

/-- The key `Add` files a trigram under: `fmt.Sprintf("%s %s", t.Word1, t.Word2)`. -/
def keyOf (t : Trigram) : String := t.Word1 ++ " " ++ t.Word2

/-- The stored count of successor `w` under the key `p`, if the table has one. -/
def entry (t : GoMap (GoMap Nat)) (p w : String) : Option Nat :=
  (lookup t p).bind fun m => lookup m w

/-- The count of successor `w` under the key `p`, an absent key or successor counting as 0. -/
def count (t : GoMap (GoMap Nat)) (p w : String) : Nat := (entry t p w).getD 0

/-- Two tables hold the same keys, the same successors and the same counts. -/
def SameTable (a b : GoMap (GoMap Nat)) : Prop :=
  (∀ p, (lookup a p).isSome = (lookup b p).isSome) ∧ ∀ p w, entry a p w = entry b p w

/-- A `prng` that also records the bounds it is called with, oldest first. -/
def logged {σ : Type} (prng : σ → Int → Int × σ) : σ × List Int → Int → Int × (σ × List Int) :=
  fun st max => ((prng st.1 max).1, ((prng st.1 max).2, st.2 ++ [max]))

/-- How often the list adds successor `w` under the key `p`. -/
def occurrences (ts : List Trigram) (p w : String) : Nat :=
  ts.countP fun t => decide (keyOf t = p ∧ t.Word3 = w)

/-- A table in which the count of "c" after "a b" is the largest `uint`. -/
def fullCount : Model Unit :=
  { freqs := [("a b", [("c", 18446744073709551615)])], prng := fun _ _ => (0, ()), state := () }

/-- The table of the tests: the eight trigrams of "to be or not to be that is the question". -/
def testTrigrams : List Trigram :=
  [⟨"to", "be", "or"⟩, ⟨"be", "or", "not"⟩, ⟨"or", "not", "to"⟩, ⟨"not", "to", "be"⟩,
   ⟨"to", "be", "that"⟩, ⟨"be", "that", "is"⟩, ⟨"that", "is", "the"⟩, ⟨"is", "the", "question"⟩]

/-- The `mockPRNG` of the tests: a counter, returned modulo the bound and then incremented. -/
def mockPRNG : Nat → Int → Int × Nat := fun counter n => (Int.tmod counter n, counter + 1)

/-- The model of the tests: `New(mockPRNG())` with `testTrigrams` added. -/
def testModel : Model Nat := addAll (New mockPRNG 0) testTrigrams

/-- The sum of all counts of a successor map. -/
def total (options : GoMap Nat) : Nat := (options.map Prod.snd).sum

/-- The model `s` with a prng that returns `r` whatever the bound. -/
def withResult {σ : Type} (s : Model σ) (r : Int) : Model σ :=
  { s with prng := fun st _ => (r, st) }

/-- The model `s` with its prng recording its calls, `log` being the record so far. -/
def withLog {σ : Type} (s : Model σ) (log : List Int) : Model (σ × List Int) :=
  { freqs := s.freqs, prng := logged s.prng, state := (s.state, log) }

/-- The words of `n` successive calls of `chooseAdjoiningWord` on one successor map. -/
def draws {σ : Type} (options : GoMap Nat) : Nat → Model σ → List String
  | 0, _ => []
  | n + 1, s =>
    match chooseAdjoiningWord s options with
    | none => []
    | some r => r.1 :: draws options n r.2

/-- The model `s` with the cycling prng of the tests, its counter at `c`. -/
def withCounter {σ : Type} (s : Model σ) (c : Nat) : Model Nat :=
  { freqs := s.freqs, prng := mockPRNG, state := c }

/-- The string holds no space. -/
def noSpace (w : String) : Prop := ' ' ∉ w.data

instance (w : String) : Decidable (noSpace w) := inferInstanceAs (Decidable (' ' ∉ w.data))

/-- The string is a non-empty string of the letters `a`..`z`: what `trigram.Normalise` keeps. -/
def isWord (w : String) : Bool :=
  !w.data.isEmpty && w.data.all fun c => decide (97 ≤ c.toNat) && decide (c.toNat ≤ 122)

/-- The three words of the trigram are non-empty strings of the letters `a`..`z`. -/
def isWordTrigram (t : Trigram) : Bool := isWord t.Word1 && isWord t.Word2 && isWord t.Word3

/-- The string with its first letter upper-cased (`a`..`z` moved to `A`..`Z`). -/
def capitalise (w : String) : String :=
  match w.data with
  | [] => w
  | c :: cs => String.mk (Char.ofNat (c.toNat - 32) :: cs)

/-- The string ends with a period. -/
def endsWithPeriod (str : String) : Prop := str.data.getLast? = some '.'

instance (str : String) : Decidable (endsWithPeriod str) :=
  inferInstanceAs (Decidable (str.data.getLast? = some '.'))

/-- The prng returns a value in `[0, n)` whenever it is called with `n > 0`. -/
def InRange {σ : Type} (prng : σ → Int → Int × σ) : Prop :=
  ∀ st n, 0 < n → 0 ≤ (prng st n).1 ∧ (prng st n).1 < n

/-- Unicode tables that know nothing above ASCII: no letters, digits or spaces there, and no
title case. They do for text that is ASCII. -/
def asciiOnly : Unicode :=
  { ToTitle := fun r => r, IsLetter := fun _ => false, IsDigit := fun _ => false,
    IsSpace := fun _ => false }

/-- A table whose one key, "a b c", comes from a trigram whose first word holds a space. -/
def spacedModel : Model Nat := Add (New mockPRNG 0) ⟨"a b", "c", "d"⟩

/-- What a run returned: the string and the error, if the run returned at all. -/
def output {σ : Type} : Run ((String × Option String) × Model σ) → Option (String × Option String)
  | Run.done r => some r.1
  | _ => none

/-- What generation relies on in a table: it is not empty, every key is two non-empty a-z words
joined by a space, every successor is a non-empty a-z word, and the counts of every successor map
sum to at least 1. -/
def GoodTable (T : GoMap (GoMap Nat)) : Prop :=
  T ≠ [] ∧
  (∀ p ∈ keys T, ∃ w1 w2, p = w1 ++ " " ++ w2 ∧ isWord w1 = true ∧ isWord w2 = true) ∧
  (∀ p m, lookup T p = some m → ∀ w ∈ keys m, isWord w = true) ∧
  (∀ p m, lookup T p = some m → 1 ≤ total m)

/-- What the loop of `Generate` keeps true of its word sequence: at least two words and at most
`numWords`, no space in any word, and a first word of the letters `a`..`z`. -/
def LoopInv (numWords : Int) (words : List String) : Prop :=
  2 ≤ words.length ∧ (words.length : Int) ≤ numWords ∧ (∀ w ∈ words, noSpace w) ∧
  ∃ w0, words.head? = some w0 ∧ isWord w0 = true

/-- The model of the tests' prng after the trigram ("a", "a", "a") has been added 2^64 times. -/
def wrappedModel : Model Nat := addAll (New mockPRNG 0) (List.replicate uintSize ⟨"a", "a", "a"⟩)

/-- Every key of the table is two non-empty a-z words joined by a space. -/
def WordKeys (T : GoMap (GoMap Nat)) : Prop :=
  ∀ p ∈ keys T, ∃ w1 w2, p = w1 ++ " " ++ w2 ∧ isWord w1 = true ∧ isWord w2 = true

/-- One iteration of the loop of `Generate` that does not `break`, on the state of the loop (the
word sequence and the model): a panic is `none`. -/
def loopStep {σ : Type} (U : Unicode) (numWords : Int) (st : List String × Model σ) :
    Option (List String × Model σ) :=
  if st.1.length < 2 then none
  else
    match lookup st.2.freqs (join (st.1.drop (st.1.length - 2))) with
    | none => handleDeadEnd U st.2 st.1 numWords
    | some freqs => (chooseAdjoiningWord st.2 freqs).map fun r => (st.1 ++ [r.1], r.2)

/-- The state of the loop of `Generate` after `k` iterations, if the loop runs that many: it has
not run them if it has reached `len(words) == numWords` or panicked before. -/
def stateAfter {σ : Type} (U : Unicode) (numWords : Int) :
    Nat → List String × Model σ → Option (List String × Model σ)
  | 0, st => some st
  | k + 1, st =>
    if (st.1.length : Int) = numWords then none
    else (loopStep U numWords st).bind (stateAfter U numWords k)

/-- In this state an iteration of the loop calls `handleDeadEnd`: the slice of the last two words
exists and their key is not in the table. -/
def DeadEnd {σ : Type} (st : List String × Model σ) : Prop :=
  2 ≤ st.1.length ∧ lookup st.2.freqs (join (st.1.drop (st.1.length - 2))) = none

/-- The state in which `Generate` enters its loop: the words of the key the prng selects, and the
model with the prng advanced; `none` if selecting the key panics. -/
def loopStart {σ : Type} (s : Model σ) : Option (List String × Model σ) :=
  match getPrefixByNumericalIndex (s.rand (len s.freqs)).2 (s.rand (len s.freqs)).1 with
  | none => none
  | some randPrefix => some (split randPrefix, (s.rand (len s.freqs)).2)

/-- The code point is a space or one of the letters `a`..`z`. -/
def keyChar (c : Char) : Prop := c = ' ' ∨ (97 ≤ c.toNat ∧ c.toNat ≤ 122)

/-- The sum of the successor counts the table holds under the key `p`, 0 for an absent key: the
bound `chooseAdjoiningWord` passes to the prng for this key. -/
def keyTotal (T : GoMap (GoMap Nat)) (p : String) : Nat :=
  match lookup T p with
  | none => 0
  | some m => total m

/-- The sum of all counts in the frequency table. -/
def grandTotal (T : GoMap (GoMap Nat)) : Nat := (T.map fun kv => total kv.2).sum

/-! ## The tokenizer: `trigram/normalize.go` and `trigram/parser.go` -/

/-- Go's `unicode.ToLower`: on ASCII, `A`..`Z` move up by `'a' - 'A'` and the rest stays; above
0x7F it is the lower-case mapping of the `unicode` tables, the parameter `lower`. -/
def ToLower (lower : Char → Char) (r : Char) : Char :=
  if r.toNat ≤ 0x7F then
    if 65 ≤ r.toNat ∧ r.toNat ≤ 90 then Char.ofNat (r.toNat + 32) else r
  else lower r

/-- `Normalise` makes the string lower case (`strings.ToLower`) and removes every code point
outside `a`..`z` (`strings.Map` with a mapping that returns -1 for them). -/
def Normalise (lower : Char → Char) (s : String) : String :=
  String.mk ((s.data.map (ToLower lower)).filter fun r => !(decide (r.toNat < 97) || decide (r.toNat > 122)))

/-- `NormaliseSlice` normalises a slice of strings; elements that are normalised to empty strings
are discarded. -/
def NormaliseSlice (lower : Char → Char) (w : List String) : List String :=
  w.foldl (fun newWords x => if Normalise lower x ≠ "" then newWords ++ [Normalise lower x] else newWords) []

/-- The `for` loop of `trigramsFromSlice`, with `i` its counter and `trigrams` the slice built so
far; an index out of range is a panic, and `fuel` bounds the iterations. -/
def windowLoop (words : List String) : Nat → Nat → List Trigram → Run (List Trigram)
  | fuel, i, trigrams =>
    if (i : Int) < (words.length : Int) - 2 then
      match fuel with
      | 0 => Run.timeout
      | fuel + 1 =>
        match words[i]?, words[i + 1]?, words[i + 2]? with
        | some a, some b, some c => windowLoop words fuel (i + 1) (trigrams ++ [⟨a, b, c⟩])
        | _, _, _ => Run.panic
    else Run.done trigrams

/-- `trigramsFromSlice` takes a slice of strings, normalises that slice and returns a slice of
trigrams. -/
def trigramsFromSlice (lower : Char → Char) (fuel : Nat) (words : List String) :
    Run (List Trigram) :=
  windowLoop (NormaliseSlice lower words) fuel 0 []

/-- The white space of Go's `unicode.IsSpace`, which is also what `bufio.ScanWords` splits on. -/
def isSpace (r : Char) : Bool :=
  r.toNat ∈ [0x09, 0x0A, 0x0B, 0x0C, 0x0D, 0x20, 0x85, 0xA0, 0x1680, 0x2028, 0x2029, 0x202F,
    0x205F, 0x3000] || (decide (0x2000 ≤ r.toNat) && decide (r.toNat ≤ 0x200A))

/-- Go's `strings.TrimSpace`: the string without its leading and trailing white space. -/
def TrimSpace (s : String) : String :=
  String.mk ((s.data.dropWhile isSpace).reverse.dropWhile isSpace).reverse

/-- `Parse` collates a slice of words from a reader. The reader is seen through its scanner:
`scanned` holds the tokens `bufio.ScanWords` yields until `Scan` returns false (the maximal runs of
code points that are not white space), and `scanErr` is what `scanner.Err()` returns then. -/
def Parse (scanned : List String) (scanErr : Option String) : Except String (List String) :=
  let words := scanned.foldl (fun words text => words ++ [TrimSpace text]) []
  match scanErr with
  | some err => Except.error err
  | none =>
    if words.length < 3 then Except.error "input has less than 3 words"
    else Except.ok words

/-- `ParseFileToNormalisedTrigrams` parses all trigrams from a given file. The file is seen
through `os.Open` and the scanner: `file` is the error of `os.Open`, or the tokens and the final
error of the scanner. -/
def ParseFileToNormalisedTrigrams (lower : Char → Char) (fuel : Nat)
    (file : Except String (List String × Option String)) : Run (Except String (List Trigram)) :=
  match file with
  | Except.error err => Run.done (Except.error err)
  | Except.ok f =>
    match Parse f.1 f.2 with
    | Except.error err => Run.done (Except.error err)
    | Except.ok words =>
      match trigramsFromSlice lower fuel words with
      | Run.done trigrams => Run.done (Except.ok trigrams)
      | Run.panic => Run.panic
      | Run.timeout => Run.timeout

/-- The letters of an ASCII string, lower-cased: `a`..`z` are kept, `A`..`Z` are moved to
`a`..`z`, every other code point is left out. -/
def lowerLetters (s : String) : String :=
  String.mk (s.data.filterMap fun c =>
    if 97 ≤ c.toNat ∧ c.toNat ≤ 122 then some c
    else if 65 ≤ c.toNat ∧ c.toNat ≤ 90 then some (Char.ofNat (c.toNat + 32))
    else none)

/-- The input of `TestTrigramsFromSlice`. -/
def testWords : List String :=
  ["This", "is", "a", "test,", "I", "repeat!", "This", "is", "a", "test", "!!"]

/-! ## Maps: reading after writing -/

theorem lookup_store_self {V : Type} (m : GoMap V) (k : String) (v : V) :
    lookup (store m k v) k = some v := by
  induction m with
  | nil => simp [store, lookup]
  | cons kv rest ih =>
    obtain ⟨k', v'⟩ := kv
    by_cases h : k' = k
    · simp [store, lookup, h]
    · simp [store, lookup, h, ih]

theorem lookup_store_ne {V : Type} (m : GoMap V) {k k' : String} (h : k ≠ k') (v : V) :
    lookup (store m k v) k' = lookup m k' := by
  induction m with
  | nil => simp [store, lookup, h]
  | cons kv rest ih =>
    obtain ⟨k₀, v₀⟩ := kv
    by_cases h₀ : k₀ = k
    · subst h₀
      simp [store, lookup, h]
    · by_cases h₁ : k₀ = k'
      · subst h₁
        simp [store, lookup, h₀]
      · simp [store, lookup, h₀, h₁, ih]

theorem lookup_isSome_iff_mem_keys {V : Type} (m : GoMap V) (k : String) :
    (lookup m k).isSome = true ↔ k ∈ keys m := by
  induction m with
  | nil => simp [lookup, keys]
  | cons kv rest ih =>
    obtain ⟨k₀, v₀⟩ := kv
    by_cases h₀ : k₀ = k
    · simp [lookup, keys, h₀]
    · have h₁ : ¬ k = k₀ := fun h => h₀ h.symm
      simpa [lookup, keys, h₀, h₁] using ih

theorem lookup_eq_none_iff {V : Type} (m : GoMap V) (k : String) :
    lookup m k = none ↔ k ∉ keys m := by
  rw [← lookup_isSome_iff_mem_keys]
  cases lookup m k <;> simp

theorem keys_store {V : Type} (m : GoMap V) (k : String) (v : V) :
    keys (store m k v) = if k ∈ keys m then keys m else keys m ++ [k] := by
  induction m with
  | nil => simp [store, keys]
  | cons kv rest ih =>
    obtain ⟨k₀, v₀⟩ := kv
    by_cases h₀ : k₀ = k
    · simp [store, keys, h₀]
    · have h₁ : ¬ k = k₀ := fun h => h₀ h.symm
      have ih' := ih
      simp only [keys] at ih'
      by_cases hm : k ∈ List.map Prod.fst rest
      · simp [store, keys, h₀, h₁, hm, ih']
      · simp [store, keys, h₀, h₁, hm, ih']

theorem WF_store {V : Type} {m : GoMap V} (h : WF m) (k : String) (v : V) : WF (store m k v) := by
  unfold WF at *
  rw [keys_store]
  split
  · exact h
  · rename_i hk
    exact List.Nodup.append h (List.nodup_singleton k) (by simpa using hk)

/-! ## The order on strings and `sort.Strings` -/

theorem char_eq_of_toNat_eq {a b : Char} (h : a.toNat = b.toNat) : a = b := by
  apply Char.ext
  apply UInt32.ext
  exact h

theorem strLe_refl (a : List Char) : strLe a a = true := by
  induction a with
  | nil => rfl
  | cons c cs ih => simp [strLe, ih]

theorem strLe_total (a b : List Char) : strLe a b = true ∨ strLe b a = true := by
  induction a generalizing b with
  | nil => exact Or.inl rfl
  | cons c cs ih =>
    cases b with
    | nil => exact Or.inr rfl
    | cons d ds =>
      rcases Nat.lt_trichotomy c.toNat d.toNat with h | h | h
      · left; simp [strLe, h]
      · have h1 : ¬ c.toNat < d.toNat := by omega
        have h2 : ¬ d.toNat < c.toNat := by omega
        simpa [strLe, h1, h2] using ih ds
      · right; simp [strLe, h]

theorem strLe_trans {a b c : List Char} (hab : strLe a b = true) (hbc : strLe b c = true) :
    strLe a c = true := by
  induction a generalizing b c with
  | nil => rfl
  | cons x xs ih =>
    cases b with
    | nil => simp [strLe] at hab
    | cons y ys =>
      cases c with
      | nil => simp [strLe] at hbc
      | cons z zs =>
        simp only [strLe] at hab hbc ⊢
        by_cases hxy : x.toNat < y.toNat
        · by_cases hyz : y.toNat < z.toNat
          · have : x.toNat < z.toNat := by omega
            simp [this]
          · by_cases hzy : z.toNat < y.toNat
            · simp [hyz, hzy] at hbc
            · have : x.toNat < z.toNat := by omega
              simp [this]
        · by_cases hyx : y.toNat < x.toNat
          · simp [hxy, hyx] at hab
          · simp only [hxy, hyx, if_false] at hab
            by_cases hyz : y.toNat < z.toNat
            · have : x.toNat < z.toNat := by omega
              simp [this]
            · by_cases hzy : z.toNat < y.toNat
              · simp [hyz, hzy] at hbc
              · simp only [hyz, hzy, if_false] at hbc
                have h1 : ¬ x.toNat < z.toNat := by omega
                have h2 : ¬ z.toNat < x.toNat := by omega
                simp only [h1, h2, if_false]
                exact ih hab hbc

theorem strLe_antisymm {a b : List Char} (hab : strLe a b = true) (hba : strLe b a = true) :
    a = b := by
  induction a generalizing b with
  | nil =>
    cases b with
    | nil => rfl
    | cons d ds => simp [strLe] at hba
  | cons c cs ih =>
    cases b with
    | nil => simp [strLe] at hab
    | cons d ds =>
      simp only [strLe] at hab hba
      by_cases h1 : c.toNat < d.toNat
      · have h2 : ¬ d.toNat < c.toNat := by omega
        simp [h1, h2] at hba
      · by_cases h2 : d.toNat < c.toNat
        · simp [h1, h2] at hab
        · simp only [h1, h2, if_false] at hab hba
          have hcd : c = d := char_eq_of_toNat_eq (by omega)
          rw [hcd, ih hab hba]

instance : IsTotal String StrLe := ⟨fun a b => strLe_total a.data b.data⟩

instance : IsTrans String StrLe := ⟨fun _ _ _ hab hbc => strLe_trans hab hbc⟩

instance : IsAntisymm String StrLe :=
  ⟨fun _ _ hab hba => String.ext (strLe_antisymm hab hba)⟩

theorem sortStrings_perm (l : List String) : (sortStrings l).Perm l :=
  List.perm_insertionSort StrLe l

theorem sortStrings_sorted (l : List String) : (sortStrings l).Sorted StrLe :=
  List.sorted_insertionSort StrLe l

theorem length_sortStrings (l : List String) : (sortStrings l).length = l.length :=
  (sortStrings_perm l).length_eq

/-- A sorted rearrangement of a list is what `sort.Strings` makes of it. -/
theorem eq_sortStrings {l l' : List String} (hp : l'.Perm l) (hs : l'.Sorted StrLe) :
    l' = sortStrings l :=
  List.eq_of_perm_of_sorted (hp.trans (sortStrings_perm l).symm) hs (sortStrings_sorted l)

/-- The order in which a map hands out its entries does not show after sorting. -/
theorem sortStrings_congr {l l' : List String} (hp : l.Perm l') : sortStrings l = sortStrings l' :=
  eq_sortStrings ((sortStrings_perm l).trans hp) (sortStrings_sorted l)

/-! ## What `Add` does to the table -/

theorem one_mod_uintSize : 1 % uintSize = 1 := by decide

theorem Add_of_new_key {σ : Type} (s : Model σ) (t : Trigram) (h : lookup s.freqs (keyOf t) = none) :
    Add s t = { s with freqs := store s.freqs (keyOf t) [(t.Word3, 1)] } := by
  unfold keyOf at h
  simp only [Add, keyOf, h]

theorem Add_of_new_word {σ : Type} (s : Model σ) (t : Trigram) (m : GoMap Nat)
    (h : lookup s.freqs (keyOf t) = some m) (hw : lookup m t.Word3 = none) :
    Add s t = { s with freqs := store s.freqs (keyOf t) (store m t.Word3 1) } := by
  unfold keyOf at h
  simp only [Add, keyOf, h, hw]

theorem Add_of_old_word {σ : Type} (s : Model σ) (t : Trigram) (m : GoMap Nat) (c : Nat)
    (h : lookup s.freqs (keyOf t) = some m) (hw : lookup m t.Word3 = some c) :
    Add s t = { s with freqs := store s.freqs (keyOf t) (store m t.Word3 ((c + 1) % uintSize)) } := by
  unfold keyOf at h
  simp only [Add, keyOf, h, hw]

/-- The three cases of `Add`: the successor map the trigram's key holds afterwards. -/
theorem Add_cases {σ : Type} (s : Model σ) (t : Trigram) :
    ∃ m', Add s t = { s with freqs := store s.freqs (keyOf t) m' } ∧
      ((lookup s.freqs (keyOf t) = none ∧ m' = [(t.Word3, 1)]) ∨
       (∃ m, lookup s.freqs (keyOf t) = some m ∧ lookup m t.Word3 = none ∧ m' = store m t.Word3 1) ∨
       (∃ m c, lookup s.freqs (keyOf t) = some m ∧ lookup m t.Word3 = some c ∧
          m' = store m t.Word3 ((c + 1) % uintSize))) := by
  cases h : lookup s.freqs (keyOf t) with
  | none => exact ⟨_, Add_of_new_key s t h, Or.inl ⟨rfl, rfl⟩⟩
  | some m =>
    cases hw : lookup m t.Word3 with
    | none => exact ⟨_, Add_of_new_word s t m h hw, Or.inr (Or.inl ⟨m, rfl, hw, rfl⟩)⟩
    | some c => exact ⟨_, Add_of_old_word s t m c h hw, Or.inr (Or.inr ⟨m, c, rfl, hw, rfl⟩)⟩

theorem Add_prng {σ : Type} (s : Model σ) (t : Trigram) :
    (Add s t).prng = s.prng ∧ (Add s t).state = s.state := by
  obtain ⟨m', h, -⟩ := Add_cases s t
  rw [h]
  exact ⟨rfl, rfl⟩

theorem lookup_Add_ne {σ : Type} (s : Model σ) (t : Trigram) {p : String} (h : keyOf t ≠ p) :
    lookup (Add s t).freqs p = lookup s.freqs p := by
  obtain ⟨m', h', -⟩ := Add_cases s t
  rw [h']
  exact lookup_store_ne _ h _

theorem lookup_Add_self {σ : Type} (s : Model σ) (t : Trigram) :
    ∃ m', lookup (Add s t).freqs (keyOf t) = some m' ∧
      ∀ w, lookup m' w =
        if t.Word3 = w then some ((count s.freqs (keyOf t) w + 1) % uintSize)
        else entry s.freqs (keyOf t) w := by
  obtain ⟨m', h', hc⟩ := Add_cases s t
  refine ⟨m', by rw [h']; exact lookup_store_self _ _ _, fun w => ?_⟩
  unfold count entry
  rcases hc with ⟨hl, rfl⟩ | ⟨m, hl, hw, rfl⟩ | ⟨m, c, hl, hw, rfl⟩
  · by_cases e : t.Word3 = w
    · simp [hl, lookup, e, one_mod_uintSize]
    · simp [hl, lookup, e]
  · by_cases e : t.Word3 = w
    · subst e
      simp [hl, hw, lookup_store_self, one_mod_uintSize]
    · simp [hl, e, lookup_store_ne m e]
  · by_cases e : t.Word3 = w
    · subst e
      simp [hl, hw, lookup_store_self]
    · simp [hl, e, lookup_store_ne m e]

theorem isSome_lookup_Add {σ : Type} (s : Model σ) (t : Trigram) (p : String) :
    (lookup (Add s t).freqs p).isSome = (decide (keyOf t = p) || (lookup s.freqs p).isSome) := by
  by_cases h : keyOf t = p
  · subst h
    obtain ⟨m', hm, -⟩ := lookup_Add_self s t
    simp [hm]
  · simp [lookup_Add_ne s t h, h]

theorem entry_Add {σ : Type} (s : Model σ) (t : Trigram) (p w : String) :
    entry (Add s t).freqs p w =
      if keyOf t = p ∧ t.Word3 = w then some ((count s.freqs p w + 1) % uintSize)
      else entry s.freqs p w := by
  by_cases h : keyOf t = p
  · subst h
    obtain ⟨m', hm, hw⟩ := lookup_Add_self s t
    have : entry (Add s t).freqs (keyOf t) w = lookup m' w := by
      unfold entry; rw [hm]; rfl
    rw [this, hw w]
    simp
  · unfold entry
    simp [lookup_Add_ne s t h, h]

theorem addAll_cons {σ : Type} (s : Model σ) (t : Trigram) (ts : List Trigram) :
    addAll s (t :: ts) = addAll (Add s t) ts := rfl

theorem addAll_prng {σ : Type} (s : Model σ) (ts : List Trigram) :
    (addAll s ts).prng = s.prng ∧ (addAll s ts).state = s.state := by
  induction ts generalizing s with
  | nil => exact ⟨rfl, rfl⟩
  | cons t ts ih =>
    rw [addAll_cons]
    exact ⟨(ih _).1.trans (Add_prng s t).1, (ih _).2.trans (Add_prng s t).2⟩

theorem isSome_lookup_addAll {σ : Type} (s : Model σ) (ts : List Trigram) (p : String) :
    (lookup (addAll s ts).freqs p).isSome =
      ((lookup s.freqs p).isSome || ts.any fun t => decide (keyOf t = p)) := by
  induction ts generalizing s with
  | nil => simp [addAll]
  | cons t ts ih =>
    rw [addAll_cons, ih, isSome_lookup_Add]
    simp only [List.any_cons]
    cases decide (keyOf t = p) <;> cases (lookup s.freqs p).isSome <;> simp

theorem entry_addAll {σ : Type} (s : Model σ) (ts : List Trigram) (p w : String) :
    entry (addAll s ts).freqs p w =
      if occurrences ts p w = 0 then entry s.freqs p w
      else some ((count s.freqs p w + occurrences ts p w) % uintSize) := by
  induction ts generalizing s with
  | nil => simp [addAll, occurrences]
  | cons t ts ih =>
    rw [addAll_cons, ih]
    unfold occurrences
    by_cases h : keyOf t = p ∧ t.Word3 = w
    · have hc : List.countP (fun t => decide (keyOf t = p ∧ t.Word3 = w)) (t :: ts)
          = List.countP (fun t => decide (keyOf t = p ∧ t.Word3 = w)) ts + 1 := by
        rw [List.countP_cons_of_pos]; simpa using h
      rw [hc]
      have he : entry (Add s t).freqs p w = some ((count s.freqs p w + 1) % uintSize) := by
        rw [entry_Add, if_pos h]
      have hcount : count (Add s t).freqs p w = (count s.freqs p w + 1) % uintSize := by
        unfold count; rw [he]; rfl
      split
      · rename_i h0
        rw [h0, he]; simp
      · rw [hcount]
        simp only [Nat.add_eq_zero, one_ne_zero, and_false, if_false]
        congr 1
        rw [Nat.add_mod, Nat.mod_mod, ← Nat.add_mod]
        congr 1
        omega
    · have hc : List.countP (fun t => decide (keyOf t = p ∧ t.Word3 = w)) (t :: ts)
          = List.countP (fun t => decide (keyOf t = p ∧ t.Word3 = w)) ts := by
        rw [List.countP_cons_of_neg]; simpa using h
      rw [hc]
      have he : entry (Add s t).freqs p w = entry s.freqs p w := by
        rw [entry_Add, if_neg h]
      have hcount : count (Add s t).freqs p w = count s.freqs p w := by
        unfold count; rw [he]
      rw [he, hcount]

/-! ## Claims about `Add` and the empty model -/

/-- C2: on a model to which no trigram has been added, `Generate` returns, for every requested
word count (and whatever the fuel), the error "Model is empty" together with the empty string, and
it does not consult the prng: the state of the prng is what it was, and a prng that records its
calls has recorded none. -/
theorem Generate_empty_model {σ : Type} (U : Unicode) (fuel : Nat) (prng : σ → Int → Int × σ)
    (st : σ) (numWords : Int) :
    Generate U fuel (New prng st) numWords = Run.done (("", some "Model is empty"), New prng st) ∧
    Generate U fuel (New (logged prng) (st, [])) numWords =
      Run.done (("", some "Model is empty"), New (logged prng) (st, [])) :=
  ⟨rfl, rfl⟩

/-- C3, as stated, fails: when the stored count is the largest `uint`, 18446744073709551615,
`Add` leaves the count 0, not the previous count plus 1. -/
theorem Add_count_wraps :
    count fullCount.freqs "a b" "c" = 18446744073709551615 ∧
    count (Add fullCount ⟨"a", "b", "c"⟩).freqs "a b" "c" = 0 ∧
    count (Add fullCount ⟨"a", "b", "c"⟩).freqs "a b" "c" ≠ count fullCount.freqs "a b" "c" + 1 := by
  decide

/-- C3, amended: for every model state and every trigram (w1, w2, w3), after `Add` the table holds
for successor w3 under the key w1 + " " + w2 the previous count plus 1 reduced modulo 2^64 (an
absent key or successor counting as 0, so a first occurrence is stored as 1), which is the previous
count plus 1 unless that count was the largest `uint`; every other (key, successor) pair holds what
it held, every other key is present exactly if it was, and the prng is untouched. -/
theorem Add_increments_count {σ : Type} (s : Model σ) (w1 w2 w3 : String) :
    entry (Add s ⟨w1, w2, w3⟩).freqs (w1 ++ " " ++ w2) w3 =
      some ((count s.freqs (w1 ++ " " ++ w2) w3 + 1) % uintSize) ∧
    (count s.freqs (w1 ++ " " ++ w2) w3 + 1 < uintSize →
      count (Add s ⟨w1, w2, w3⟩).freqs (w1 ++ " " ++ w2) w3 =
        count s.freqs (w1 ++ " " ++ w2) w3 + 1) ∧
    (count s.freqs (w1 ++ " " ++ w2) w3 = 0 →
      entry (Add s ⟨w1, w2, w3⟩).freqs (w1 ++ " " ++ w2) w3 = some 1) ∧
    (∀ p w, ¬ (p = w1 ++ " " ++ w2 ∧ w = w3) →
      entry (Add s ⟨w1, w2, w3⟩).freqs p w = entry s.freqs p w) ∧
    (∀ p, p ≠ w1 ++ " " ++ w2 →
      (lookup (Add s ⟨w1, w2, w3⟩).freqs p).isSome = (lookup s.freqs p).isSome) ∧
    (Add s ⟨w1, w2, w3⟩).prng = s.prng ∧ (Add s ⟨w1, w2, w3⟩).state = s.state := by
  have hkey : keyOf ⟨w1, w2, w3⟩ = w1 ++ " " ++ w2 := rfl
  have h := entry_Add s ⟨w1, w2, w3⟩ (w1 ++ " " ++ w2) w3
  rw [if_pos ⟨hkey, rfl⟩] at h
  refine ⟨h, fun hlt => ?_, fun h0 => ?_, fun p w hne => ?_, fun p hne => ?_, Add_prng s _⟩
  · have hc : count (Add s ⟨w1, w2, w3⟩).freqs (w1 ++ " " ++ w2) w3 =
        (count s.freqs (w1 ++ " " ++ w2) w3 + 1) % uintSize := by
      unfold count at h ⊢
      rw [h]; rfl
    rw [hc, Nat.mod_eq_of_lt hlt]
  · rw [h, h0]; rfl
  · rw [entry_Add, if_neg]
    rintro ⟨h1, h2⟩
    exact hne ⟨h1.symm.trans hkey, h2.symm⟩
  · rw [isSome_lookup_Add]
    have : ¬ keyOf ⟨w1, w2, w3⟩ = p := fun e => hne (e.symm.trans hkey)
    simp [this]

/-- C4: for every starting model, every list of trigrams and every permutation of that list,
adding the trigrams in the one order and in the other yields the same frequency table: the same
keys are present, and every (key, successor) pair is stored with the same count or in neither. -/
theorem Add_order_irrelevant {σ : Type} (s : Model σ) (ts ts' : List Trigram)
    (h : List.Perm ts ts') : SameTable (addAll s ts).freqs (addAll s ts').freqs := by
  constructor
  · intro p
    rw [isSome_lookup_addAll, isSome_lookup_addAll]
    congr 1
    rw [Bool.eq_iff_iff]
    simp only [List.any_eq_true]
    exact ⟨fun ⟨t, ht, e⟩ => ⟨t, h.mem_iff.mp ht, e⟩, fun ⟨t, ht, e⟩ => ⟨t, h.mem_iff.mpr ht, e⟩⟩
  · intro p w
    rw [entry_addAll, entry_addAll]
    have : occurrences ts p w = occurrences ts' p w := h.countP_eq _
    rw [this]

/-- C4 at the test's trigrams: "to be or" added last instead of first gives the same table. -/
theorem Add_order_irrelevant_witness :
    List.Perm [(⟨"to", "be", "or"⟩ : Trigram), ⟨"be", "or", "not"⟩, ⟨"to", "be", "or"⟩]
      [⟨"be", "or", "not"⟩, ⟨"to", "be", "or"⟩, ⟨"to", "be", "or"⟩] ∧
    SameTable
      (addAll (New (fun (c : Nat) n => (Int.emod c n, c + 1)) 0)
        [⟨"to", "be", "or"⟩, ⟨"be", "or", "not"⟩, ⟨"to", "be", "or"⟩]).freqs
      (addAll (New (fun (c : Nat) n => (Int.emod c n, c + 1)) 0)
        [⟨"be", "or", "not"⟩, ⟨"to", "be", "or"⟩, ⟨"to", "be", "or"⟩]).freqs :=
  ⟨by decide, Add_order_irrelevant _ _ _ (by decide)⟩

/-! ## `getPrefixByNumericalIndex` -/

theorem tmod_cases (i : Int) (n : Nat) :
    (0 ≤ i ∧ Int.tmod i n = ((i.toNat % n : Nat) : Int)) ∨
    (i < 0 ∧ Int.tmod i n = -(((-i).toNat % n : Nat) : Int)) := by
  cases i with
  | ofNat m => left; exact ⟨Int.ofNat_nonneg m, by simp [Int.tmod]⟩
  | negSucc m => right; refine ⟨Int.negSucc_lt_zero m, ?_⟩; simp [Int.tmod]; rfl

theorem length_keys {V : Type} (m : GoMap V) : (keys m).length = len m := by
  simp [keys, len]

theorem length_sorted_keys {V : Type} (m : GoMap V) : (sortStrings (keys m)).length = len m := by
  rw [length_sortStrings, length_keys]

theorem len_pos {V : Type} {m : GoMap V} (h : m ≠ []) : 0 < len m := by
  cases m with
  | nil => exact absurd rfl h
  | cons a l => simp [len]

/-- With a non-negative index the call returns the key at position `i mod n` of the sorted keys. -/
theorem getPrefix_of_nonneg {σ : Type} (s : Model σ) (i : Int) (hne : s.freqs ≠ []) (hi : 0 ≤ i) :
    getPrefixByNumericalIndex s i = (sortStrings (keys s.freqs))[i.toNat % len s.freqs]? ∧
    i.toNat % len s.freqs < (sortStrings (keys s.freqs)).length := by
  have hpos := len_pos hne
  have hlt : i.toNat % len s.freqs < len s.freqs := Nat.mod_lt _ hpos
  refine ⟨?_, by rw [length_sorted_keys]; exact hlt⟩
  rcases tmod_cases i (len s.freqs) with ⟨-, h⟩ | ⟨h, -⟩
  · unfold getPrefixByNumericalIndex
    rw [if_neg (by omega)]
    simp only [h]
    rw [if_neg (by omega), Int.toNat_natCast]
  · omega

/-- With a negative index that the number of keys does not divide, the call panics. -/
theorem getPrefix_of_neg {σ : Type} (s : Model σ) (i : Int) (hi : i < 0)
    (hdvd : ¬ ((len s.freqs : Nat) : Int) ∣ i) : getPrefixByNumericalIndex s i = none := by
  unfold getPrefixByNumericalIndex
  split
  · rfl
  · rcases tmod_cases i (len s.freqs) with ⟨h, -⟩ | ⟨-, h⟩
    · omega
    · have h0 : Int.tmod i (len s.freqs) ≠ 0 := fun e => hdvd (Int.dvd_of_tmod_eq_zero e)
      simp only
      rw [if_pos (by omega)]

/-- With an index that the number of keys divides, the call returns the first of the sorted keys. -/
theorem getPrefix_of_dvd {σ : Type} (s : Model σ) (i : Int) (hne : s.freqs ≠ [])
    (hdvd : ((len s.freqs : Nat) : Int) ∣ i) :
    getPrefixByNumericalIndex s i = (sortStrings (keys s.freqs))[0]? := by
  have hpos := len_pos hne
  have h0 : Int.tmod i (len s.freqs) = 0 := Int.tmod_eq_zero_of_dvd hdvd
  unfold getPrefixByNumericalIndex
  rw [if_neg (by omega)]
  simp only [h0]
  rfl

/-- The call depends on the table only through its set of keys. -/
theorem getPrefix_congr {σ τ : Type} (a : Model σ) (b : Model τ) (i : Int)
    (h : (keys a.freqs).Perm (keys b.freqs)) :
    getPrefixByNumericalIndex a i = getPrefixByNumericalIndex b i := by
  have hl : len a.freqs = len b.freqs := by
    rw [← length_keys, ← length_keys]; exact h.length_eq
  unfold getPrefixByNumericalIndex
  rw [hl, sortStrings_congr h]

theorem WF_Add {σ : Type} (s : Model σ) (t : Trigram) (h : WF s.freqs) : WF (Add s t).freqs := by
  obtain ⟨m', e, -⟩ := Add_cases s t
  rw [e]
  exact WF_store h _ _

theorem WF_addAll {σ : Type} (s : Model σ) (ts : List Trigram) (h : WF s.freqs) :
    WF (addAll s ts).freqs := by
  induction ts generalizing s with
  | nil => exact h
  | cons t ts ih => exact ih _ (WF_Add s t h)

theorem mem_keys_addAll {σ : Type} (s : Model σ) (ts : List Trigram) (p : String) :
    p ∈ keys (addAll s ts).freqs ↔ p ∈ keys s.freqs ∨ ∃ t ∈ ts, keyOf t = p := by
  rw [← lookup_isSome_iff_mem_keys, isSome_lookup_addAll, Bool.or_eq_true,
    lookup_isSome_iff_mem_keys]
  simp

/-- Adding the same trigrams in another order gives the same keys, up to the order they are held in. -/
theorem keys_addAll_perm {σ : Type} (s : Model σ) (ts ts' : List Trigram) (hwf : WF s.freqs)
    (h : ts.Perm ts') : (keys (addAll s ts).freqs).Perm (keys (addAll s ts').freqs) := by
  rw [List.perm_ext_iff_of_nodup (WF_addAll s ts hwf) (WF_addAll s ts' hwf)]
  intro p
  rw [mem_keys_addAll, mem_keys_addAll]
  constructor
  · rintro (h1 | ⟨t, ht, e⟩)
    · exact Or.inl h1
    · exact Or.inr ⟨t, h.mem_iff.mp ht, e⟩
  · rintro (h1 | ⟨t, ht, e⟩)
    · exact Or.inl h1
    · exact Or.inr ⟨t, h.mem_iff.mpr ht, e⟩

/-- C7: for every non-empty frequency table with `n` distinct keys and every index `i ≥ 0`,
`getPrefixByNumericalIndex(i)` returns the key at position `i mod n` of the list `L` that holds
the table's keys in ascending order (`L` is a rearrangement of the keys and is sorted); the result
is a key present in the table; and if the table was built by adding the trigrams `ts` to a new
model, adding them in any other order `ts'` makes the call return the same key. -/
theorem getPrefixByNumericalIndex_sorted {σ : Type} (s : Model σ) (i : Int)
    (hne : s.freqs ≠ []) (hi : 0 ≤ i) :
    ∃ (L : List String) (k : String),
      L.Perm (keys s.freqs) ∧ L.Sorted StrLe ∧ L.length = len s.freqs ∧
      L[i.toNat % len s.freqs]? = some k ∧
      getPrefixByNumericalIndex s i = some k ∧
      k ∈ keys s.freqs ∧ (lookup s.freqs k).isSome = true ∧
      ∀ (prng : σ → Int → Int × σ) (st : σ) (ts ts' : List Trigram),
        (addAll (New prng st) ts).freqs = s.freqs → ts.Perm ts' →
        getPrefixByNumericalIndex (addAll (New prng st) ts') i = some k := by
  obtain ⟨hget, hlt⟩ := getPrefix_of_nonneg s i hne hi
  have hk : (sortStrings (keys s.freqs))[i.toNat % len s.freqs]? =
      some ((sortStrings (keys s.freqs))[i.toNat % len s.freqs]) := List.getElem?_eq_getElem hlt
  have hmem : (sortStrings (keys s.freqs))[i.toNat % len s.freqs] ∈ keys s.freqs :=
    (sortStrings_perm _).mem_iff.mp (List.getElem?_mem hk)
  refine ⟨sortStrings (keys s.freqs), _, sortStrings_perm _, sortStrings_sorted _,
    length_sorted_keys _, hk, hget.trans hk, hmem, (lookup_isSome_iff_mem_keys _ _).mpr hmem, ?_⟩
  intro prng st ts ts' hbuilt hperm
  have hp : (keys (addAll (New prng st) ts').freqs).Perm (keys s.freqs) := by
    rw [← hbuilt]
    exact keys_addAll_perm _ _ _ List.nodup_nil hperm.symm
  have e := getPrefix_congr (addAll (New prng st) ts') s i hp
  rw [e, hget, hk]

/-- C7 on the table of the tests, at index 10 of 7 keys. -/
theorem getPrefixByNumericalIndex_sorted_witness :
    ∃ (L : List String) (k : String),
      L.Perm (keys testModel.freqs) ∧ L.Sorted StrLe ∧ L.length = len testModel.freqs ∧
      L[(10 : Int).toNat % len testModel.freqs]? = some k ∧
      getPrefixByNumericalIndex testModel 10 = some k ∧
      k ∈ keys testModel.freqs ∧ (lookup testModel.freqs k).isSome = true ∧
      ∀ (prng : Nat → Int → Int × Nat) (st : Nat) (ts ts' : List Trigram),
        (addAll (New prng st) ts).freqs = testModel.freqs → ts.Perm ts' →
        getPrefixByNumericalIndex (addAll (New prng st) ts') 10 = some k :=
  getPrefixByNumericalIndex_sorted testModel 10 (by decide) (by decide)

/-- C8, as stated, fails: on the table of the tests (7 keys) the call with index -1 panics, while
the call with index -1 + 7 returns "to be". -/
theorem getPrefixByNumericalIndex_negative :
    len testModel.freqs = 7 ∧
    getPrefixByNumericalIndex testModel (-1) = none ∧
    getPrefixByNumericalIndex testModel (-1 + 7) = some "to be" := by
  decide

/-- C8, amended: for every non-empty frequency table with `n` distinct keys and every integer
index `i`, the calls with `i` and with `i + n` both return a key, and the same one, exactly when
`i` is non-negative or a multiple of `n`; in particular they do for every `i ≥ 0`. -/
theorem getPrefixByNumericalIndex_shift {σ : Type} (s : Model σ) (i : Int) (hne : s.freqs ≠ []) :
    ((∃ k, getPrefixByNumericalIndex s i = some k ∧
        getPrefixByNumericalIndex s (i + len s.freqs) = some k ∧ k ∈ keys s.freqs) ↔
      (0 ≤ i ∨ ((len s.freqs : Nat) : Int) ∣ i)) ∧
    (0 ≤ i → ∃ k, getPrefixByNumericalIndex s i = some k ∧
        getPrefixByNumericalIndex s (i + len s.freqs) = some k ∧ k ∈ keys s.freqs) := by
  have hpos := len_pos hne
  have hnonneg : 0 ≤ i → ∃ k, getPrefixByNumericalIndex s i = some k ∧
      getPrefixByNumericalIndex s (i + len s.freqs) = some k ∧ k ∈ keys s.freqs := by
    intro hi
    obtain ⟨hget, hlt⟩ := getPrefix_of_nonneg s i hne hi
    obtain ⟨hget', -⟩ := getPrefix_of_nonneg s (i + len s.freqs) hne (by omega)
    have hidx : (i + (len s.freqs : Nat)).toNat % len s.freqs = i.toNat % len s.freqs := by
      have : (i + (len s.freqs : Nat)).toNat = i.toNat + len s.freqs := by omega
      rw [this, Nat.add_mod_right]
    rw [hidx] at hget'
    have hk := List.getElem?_eq_getElem hlt
    exact ⟨_, hget.trans hk, hget'.trans hk,
      (sortStrings_perm _).mem_iff.mp (List.getElem?_mem hk)⟩
  refine ⟨⟨?_, ?_⟩, hnonneg⟩
  · rintro ⟨k, hk, -, -⟩
    by_contra hcon
    rw [not_or] at hcon
    rw [getPrefix_of_neg s i (by omega) hcon.2] at hk
    exact Option.noConfusion hk
  · rintro (hi | hdvd)
    · exact hnonneg hi
    · have hlt : 0 < (sortStrings (keys s.freqs)).length := by
        rw [length_sorted_keys]; exact hpos
      have hk := List.getElem?_eq_getElem hlt
      have hdvd' : ((len s.freqs : Nat) : Int) ∣ i + len s.freqs := Int.dvd_add hdvd (Int.dvd_refl _)
      exact ⟨_, (getPrefix_of_dvd s i hne hdvd).trans hk,
        (getPrefix_of_dvd s _ hne hdvd').trans hk,
        (sortStrings_perm _).mem_iff.mp (List.getElem?_mem hk)⟩

/-- C8, amended, on the table of the tests at index 3. -/
theorem getPrefixByNumericalIndex_shift_witness :
    ((∃ k, getPrefixByNumericalIndex testModel 3 = some k ∧
        getPrefixByNumericalIndex testModel (3 + len testModel.freqs) = some k ∧
        k ∈ keys testModel.freqs) ↔
      ((0 : Int) ≤ 3 ∨ ((len testModel.freqs : Nat) : Int) ∣ 3)) ∧
    ((0 : Int) ≤ 3 → ∃ k, getPrefixByNumericalIndex testModel 3 = some k ∧
        getPrefixByNumericalIndex testModel (3 + len testModel.freqs) = some k ∧
        k ∈ keys testModel.freqs) :=
  getPrefixByNumericalIndex_shift testModel 3 (by decide)

/-! ## `chooseAdjoiningWord` -/

theorem expand_cons (k : String) (v : Nat) (rest : GoMap Nat) :
    expand ((k, v) :: rest) = List.replicate v k ++ expand rest := by
  simp [expand]

theorem length_expand (options : GoMap Nat) : (expand options).length = total options := by
  induction options with
  | nil => rfl
  | cons kv rest ih =>
    obtain ⟨k, v⟩ := kv
    rw [expand_cons, List.length_append, List.length_replicate, ih]
    simp [total]

/-- The expansion holds every word as often as its count says. -/
theorem count_expand (options : GoMap Nat) (hwf : WF options) (w : String) :
    (expand options).count w = (lookup options w).getD 0 := by
  induction options with
  | nil => rfl
  | cons kv rest ih =>
    obtain ⟨k, v⟩ := kv
    have hnd : k ∉ keys rest ∧ WF rest := by
      simpa [WF, keys] using hwf
    rw [expand_cons, List.count_append, ih hnd.2, List.count_replicate]
    by_cases h : k = w
    · subst h
      have : lookup rest k = none := (lookup_eq_none_iff rest k).mpr hnd.1
      simp [lookup, this]
    · simp [lookup, h]

theorem countP_range_getElem? (L : List String) (w : String) :
    (List.range L.length).countP (fun r => decide (L[r]? = some w)) = L.count w := by
  induction L with
  | nil => rfl
  | cons a l ih =>
    rw [List.length_cons, List.range_succ_eq_map, List.countP_cons, List.countP_map,
      List.count_cons]
    have : ((fun r => decide ((a :: l)[r]? = some w)) ∘ Nat.succ) =
        fun r => decide (l[r]? = some w) := by
      funext r
      simp
    rw [this, ih]
    simp

/-- What `chooseAdjoiningWord` returns, with `r` the result of the one call of the prng. -/
theorem chooseAdjoiningWord_eq {σ : Type} (s : Model σ) (options : GoMap Nat) :
    chooseAdjoiningWord s options =
      if (s.rand (total options)).1 < 0 then none
      else ((sortStrings (expand options))[(s.rand (total options)).1.toNat]?).map
        fun w => (w, (s.rand (total options)).2) := by
  unfold chooseAdjoiningWord
  simp only [length_sortStrings, length_expand]

theorem chooseAdjoiningWord_withResult {σ : Type} (s : Model σ) (options : GoMap Nat) (r : Nat) :
    (chooseAdjoiningWord (withResult s r) options).map Prod.fst =
      (sortStrings (expand options))[r]? := by
  rw [chooseAdjoiningWord_eq]
  have h1 : ((withResult s r).rand (total options)).1 = (r : Int) := rfl
  rw [h1, if_neg (by omega), Int.toNat_natCast]
  cases (sortStrings (expand options))[r]? <;> rfl

/-- The order in which the successor map hands out its entries does not change the choice. -/
theorem chooseAdjoiningWord_perm {σ : Type} (s : Model σ) (options options' : GoMap Nat)
    (h : List.Perm options options') :
    chooseAdjoiningWord s options = chooseAdjoiningWord s options' := by
  have hp : (expand options).Perm (expand options') := List.Perm.flatMap_right _ h
  unfold chooseAdjoiningWord
  rw [sortStrings_congr hp]

theorem draws_withCounter {σ : Type} (s : Model σ) (options : GoMap Nat) (n c : Nat)
    (h : c + n ≤ total options) :
    draws options n (withCounter s c) = ((sortStrings (expand options)).drop c).take n := by
  induction n generalizing c with
  | zero => simp [draws]
  | succ n ih =>
    have hlen : (sortStrings (expand options)).length = total options := by
      rw [length_sortStrings, length_expand]
    have hc : c < (sortStrings (expand options)).length := by omega
    have hr1 : ((withCounter s c).rand (total options)).1 = (c : Int) := by
      show Int.tmod (c : Int) (total options : Int) = c
      rw [← Int.ofNat_tmod, Nat.mod_eq_of_lt (by omega)]
    have hr2 : ((withCounter s c).rand (total options)).2 = withCounter s (c + 1) := rfl
    have hch : chooseAdjoiningWord (withCounter s c) options =
        some ((sortStrings (expand options))[c], withCounter s (c + 1)) := by
      rw [chooseAdjoiningWord_eq, hr1, hr2, if_neg (by omega), Int.toNat_natCast,
        List.getElem?_eq_getElem hc]
      rfl
    rw [draws, hch]
    simp only
    rw [ih (c + 1) (by omega), List.drop_eq_getElem_cons hc, List.take_succ_cons]

/-- C5: for every successor map (each word held once) whose counts sum to `T`, and every word `w`:
of the `T` possible prng results `r` in `[0, T)`, exactly count(`w`) make `chooseAdjoiningWord`
return `w` (0 for a word not in the map); and with the prng of the tests, which cycles through
`0 .. T - 1`, `T` successive calls return the words in ascending order, each word exactly as
often as its count. -/
theorem chooseAdjoiningWord_proportional {σ : Type} (s : Model σ) (options : GoMap Nat)
    (hwf : WF options) (w : String) :
    (List.range (total options)).countP
        (fun (r : Nat) =>
          decide ((chooseAdjoiningWord (withResult s r) options).map Prod.fst = some w)) =
      (lookup options w).getD 0 ∧
    draws options (total options) (withCounter s 0) = sortStrings (expand options) ∧
    (draws options (total options) (withCounter s 0)).count w = (lookup options w).getD 0 := by
  have hlen : (sortStrings (expand options)).length = total options := by
    rw [length_sortStrings, length_expand]
  have hcount : (sortStrings (expand options)).count w = (lookup options w).getD 0 := by
    rw [(sortStrings_perm _).count_eq, count_expand options hwf]
  have hdraws : draws options (total options) (withCounter s 0) = sortStrings (expand options) := by
    rw [draws_withCounter s options _ 0 (by omega), List.drop_zero, ← hlen, List.take_length]
  refine ⟨?_, hdraws, by rw [hdraws, hcount]⟩
  have hpred : (fun r : Nat =>
      decide ((chooseAdjoiningWord (withResult s r) options).map Prod.fst = some w)) =
      fun r => decide ((sortStrings (expand options))[r]? = some w) := by
    funext r
    rw [chooseAdjoiningWord_withResult]
  rw [hpred, ← hlen, countP_range_getElem?, hcount]

/-- C5 on the map {"a": 1, "b": 3}: of the 4 indices, 1 returns "a" and 3 return "b". -/
theorem chooseAdjoiningWord_proportional_witness :
    ((List.range (total [("a", 1), ("b", 3)])).countP
        (fun (r : Nat) =>
          decide ((chooseAdjoiningWord (withResult testModel r) [("a", 1), ("b", 3)]).map
            Prod.fst = some "b")) =
      (lookup [("a", 1), ("b", 3)] "b").getD 0 ∧
    draws [("a", 1), ("b", 3)] (total [("a", 1), ("b", 3)]) (withCounter testModel 0) =
      sortStrings (expand [("a", 1), ("b", 3)]) ∧
    (draws [("a", 1), ("b", 3)] (total [("a", 1), ("b", 3)]) (withCounter testModel 0)).count "b" =
      (lookup [("a", 1), ("b", 3)] "b").getD 0) ∧
    (lookup [("a", 1), ("b", 3)] "b").getD 0 = 3 ∧
    (List.range 4).map (fun (r : Nat) =>
        (chooseAdjoiningWord (withResult testModel r) [("a", 1), ("b", 3)]).map Prod.fst) =
      [some "a", some "b", some "b", some "b"] :=
  ⟨chooseAdjoiningWord_proportional testModel [("a", 1), ("b", 3)] (by decide) "b",
    by decide, by decide⟩

/-- C6: for every successor map (each word held once), `chooseAdjoiningWord` calls the prng exactly
once, with the sum of all counts as the bound (a prng that records its calls has recorded that one
bound more), and returns the element at the position the prng returned of the list `L` that holds
each successor word as often as its count, in ascending order; it panics if that position is
outside `L`. -/
theorem chooseAdjoiningWord_once {σ : Type} (s : Model σ) (options : GoMap Nat)
    (hwf : WF options) (log : List Int) :
    ∃ L : List String,
      L.Sorted StrLe ∧ L.length = total options ∧ (∀ w, L.count w = (lookup options w).getD 0) ∧
      chooseAdjoiningWord s options =
        (if (s.prng s.state (total options)).1 < 0 then none
         else (L[(s.prng s.state (total options)).1.toNat]?).map
           fun w => (w, { s with state := (s.prng s.state (total options)).2 })) ∧
      (chooseAdjoiningWord (withLog s log) options).map (fun r => (r.1, r.2.state)) =
        (chooseAdjoiningWord s options).map
          (fun r => (r.1, (r.2.state, log ++ [(total options : Int)]))) := by
  refine ⟨sortStrings (expand options), sortStrings_sorted _, ?_, fun w => ?_, ?_, ?_⟩
  · rw [length_sortStrings, length_expand]
  · rw [(sortStrings_perm _).count_eq, count_expand options hwf]
  · rw [chooseAdjoiningWord_eq]
    rfl
  · rw [chooseAdjoiningWord_eq, chooseAdjoiningWord_eq]
    have h1 : ((withLog s log).rand (total options)).1 = (s.rand (total options)).1 := rfl
    rw [h1]
    split
    · rfl
    · cases (sortStrings (expand options))[(s.rand (total options)).1.toNat]? <;> rfl

/-- C6 on the map of the tests, {or: 1, not: 5, to: 3, be: 1}: the prng results 0..9 give
be, not (5 times), or, to (3 times). -/
theorem chooseAdjoiningWord_once_witness :
    (∃ L : List String,
      L.Sorted StrLe ∧ L.length = total [("or", 1), ("not", 5), ("to", 3), ("be", 1)] ∧
      (∀ w, L.count w = (lookup [("or", 1), ("not", 5), ("to", 3), ("be", 1)] w).getD 0) ∧
      chooseAdjoiningWord testModel [("or", 1), ("not", 5), ("to", 3), ("be", 1)] =
        (if (testModel.prng testModel.state
              (total [("or", 1), ("not", 5), ("to", 3), ("be", 1)])).1 < 0 then none
         else (L[(testModel.prng testModel.state
              (total [("or", 1), ("not", 5), ("to", 3), ("be", 1)])).1.toNat]?).map
           fun w => (w, { testModel with state := (testModel.prng testModel.state
              (total [("or", 1), ("not", 5), ("to", 3), ("be", 1)])).2 })) ∧
      (chooseAdjoiningWord (withLog testModel []) [("or", 1), ("not", 5), ("to", 3), ("be", 1)]).map
          (fun r => (r.1, r.2.state)) =
        (chooseAdjoiningWord testModel [("or", 1), ("not", 5), ("to", 3), ("be", 1)]).map
          (fun r => (r.1, (r.2.state,
            [] ++ [(total [("or", 1), ("not", 5), ("to", 3), ("be", 1)] : Int)])))) ∧
    (List.range 10).map (fun (r : Nat) =>
        (chooseAdjoiningWord (withResult testModel r)
          [("or", 1), ("not", 5), ("to", 3), ("be", 1)]).map Prod.fst) =
      [some "be", some "not", some "not", some "not", some "not", some "not", some "or",
        some "to", some "to", some "to"] :=
  ⟨chooseAdjoiningWord_once testModel [("or", 1), ("not", 5), ("to", 3), ("be", 1)] (by decide) [],
    by decide⟩

/-! ## Splitting, joining and capitalising -/

theorem splitOn_space_no_space {l : List Char} (h : ' ' ∉ l) : l.splitOn ' ' = [l] := by
  apply List.splitOnP_eq_single
  intro x hx hp
  have : x = ' ' := by simpa using hp
  exact h (this ▸ hx)

theorem split_pair {w1 w2 : String} (h1 : noSpace w1) (h2 : noSpace w2) :
    split (w1 ++ " " ++ w2) = [w1, w2] := by
  unfold split
  have hd : (w1 ++ " " ++ w2).data = w1.data ++ ' ' :: w2.data := by
    simp [String.data_append]
  rw [hd]
  have hfirst : (w1.data ++ ' ' :: w2.data).splitOn ' ' = w1.data :: w2.data.splitOn ' ' := by
    apply List.splitOnP_first
    · intro x hx hp
      have : x = ' ' := by simpa using hp
      exact h1 (this ▸ hx)
    · simp
  rw [hfirst, splitOn_space_no_space h2]
  rfl

theorem length_splitOnP_modifyHead (f : List Char → List Char) (L : List (List Char)) :
    (L.modifyHead f).length = L.length := by
  cases L <;> rfl

theorem length_splitOn_space (l : List Char) : (l.splitOn ' ').length = l.count ' ' + 1 := by
  induction l with
  | nil => rfl
  | cons c cs ih =>
    unfold List.splitOn at ih ⊢
    rw [List.splitOnP_cons]
    by_cases h : c = ' '
    · subst h
      simp [ih]
    · have hb : (c == ' ') = false := by simpa using h
      rw [hb]
      simp only [Bool.false_eq_true, if_false]
      rw [length_splitOnP_modifyHead, ih, List.count_cons_of_ne (fun e => h e.symm)]

theorem split_join {ws : List String} (h : ∀ w ∈ ws, noSpace w) (hne : ws ≠ []) :
    split (join ws) = ws := by
  unfold split join
  have : ([' '].intercalate (ws.map String.data)).splitOn ' ' = ws.map String.data := by
    apply List.splitOn_intercalate
    · intro l hl
      obtain ⟨w, hw, rfl⟩ := List.mem_map.mp hl
      exact h w hw
    · simpa using hne
  simp only [this, List.map_map]
  conv_rhs => rw [← List.map_id ws]
  rfl

/-- A period at the end of a string does not change the number of pieces of its split. -/
theorem length_split_join_period {ws : List String} (h : ∀ w ∈ ws, noSpace w) (hne : ws ≠ []) :
    (split (join ws ++ ".")).length = ws.length := by
  have h1 : (split (join ws ++ ".")).length = (join ws).data.count ' ' + 1 := by
    unfold split
    rw [List.length_map, length_splitOn_space, String.data_append]
    have : (".".data : List Char) = ['.'] := rfl
    rw [this, List.count_append]
    simp
  have h2 : (split (join ws)).length = (join ws).data.count ' ' + 1 := by
    unfold split
    rw [List.length_map, length_splitOn_space]
  rw [h1, ← h2, split_join h hne]

theorem endsWithPeriod_append (str : String) : endsWithPeriod (str ++ ".") := by
  unfold endsWithPeriod
  rw [String.data_append]
  have : (".".data : List Char) = ['.'] := rfl
  rw [this]
  simp

theorem noSpace_of_isWord {w : String} (h : isWord w = true) : noSpace w := by
  unfold isWord at h
  unfold noSpace
  intro hmem
  simp only [Bool.and_eq_true, List.all_eq_true, decide_eq_true_eq] at h
  have := h.2 ' ' hmem
  revert this
  decide

theorem noSpace_append_period {w : String} (h : noSpace w) : noSpace (w ++ ".") := by
  unfold noSpace at *
  rw [String.data_append]
  have : (".".data : List Char) = ['.'] := rfl
  rw [this]
  intro hmem
  rcases List.mem_append.mp hmem with h' | h'
  · exact h h'
  · revert h'
    decide

theorem isSeparator_space (U : Unicode) : isSeparator U ' ' = true := by
  unfold isSeparator
  rw [if_pos (by decide), if_neg (by decide), if_neg (by decide), if_neg (by decide),
    if_neg (by decide)]

theorem isSeparator_letter (U : Unicode) {c : Char} (h1 : 97 ≤ c.toNat) (h2 : c.toNat ≤ 122) :
    isSeparator U c = false := by
  unfold isSeparator
  rw [if_pos (by omega), if_neg (by omega), if_pos ⟨h1, h2⟩]

theorem titleFrom_letters (U : Unicode) (prev : Char) (cs : List Char)
    (hp : isSeparator U prev = false)
    (h : ∀ c ∈ cs, 97 ≤ c.toNat ∧ c.toNat ≤ 122) : titleFrom U prev cs = cs := by
  induction cs generalizing prev with
  | nil => rfl
  | cons c cs ih =>
    have hc := h c (List.mem_cons_self c cs)
    rw [titleFrom, hp, ih c (isSeparator_letter U hc.1 hc.2)
      (fun d hd => h d (List.mem_cons_of_mem c hd))]
    simp

/-- On a non-empty word of the letters `a`..`z`, `strings.Title` upper-cases the first letter. -/
theorem Title_of_isWord (U : Unicode) {w : String} (h : isWord w = true) :
    Title U w = capitalise w := by
  unfold isWord at h
  simp only [Bool.and_eq_true, List.all_eq_true, decide_eq_true_eq] at h
  unfold Title capitalise
  cases hw : w.data with
  | nil => rw [hw] at h; simp at h
  | cons c cs =>
    rw [hw] at h
    have hc := h.2 c (List.mem_cons_self c cs)
    simp only
    rw [titleFrom, isSeparator_space, if_pos rfl,
      titleFrom_letters U c cs (isSeparator_letter U hc.1 hc.2)
        (fun d hd => h.2 d (List.mem_cons_of_mem c hd))]
    unfold ToTitle
    rw [if_pos (by omega), if_pos hc]

theorem noSpace_capitalise {w : String} (h : isWord w = true) : noSpace (capitalise w) := by
  have hns := noSpace_of_isWord h
  unfold isWord at h
  simp only [Bool.and_eq_true, List.all_eq_true, decide_eq_true_eq] at h
  unfold noSpace capitalise at *
  cases hw : w.data with
  | nil => rw [hw] at h; simp at h
  | cons c cs =>
    rw [hw] at h hns
    have hc := h.2 c (List.mem_cons_self c cs)
    simp only
    intro hmem
    rcases List.mem_cons.mp hmem with h' | h'
    · have hlt : c.toNat - 32 < 256 := by omega
      have : (Char.ofNat (c.toNat - 32)).toNat = c.toNat - 32 := by
        have hv : (c.toNat - 32).isValidChar := Or.inl (by omega)
        rw [Char.ofNat, dif_pos hv]
        simp [Char.toNat, Char.ofNatAux, UInt32.toNat]
      rw [← h'] at this
      have h32 : (' ' : Char).toNat = 32 := rfl
      omega
    · exact hns (List.mem_cons_of_mem c h')

/-! ## `handleDeadEnd` -/

theorem wrapInt_of_int {x : Int} (h1 : -9223372036854775808 ≤ x) (h2 : x < 9223372036854775808) :
    wrapInt x = x := by
  unfold wrapInt
  omega

theorem split_ne_nil (p : String) : split p ≠ [] := by
  unfold split
  intro h
  exact List.splitOnP_ne_nil _ _ (List.map_eq_nil_iff.mp h)

theorem getPrefix_rand {σ : Type} (s : Model σ) (n i : Int) :
    getPrefixByNumericalIndex (s.rand n).2 i = getPrefixByNumericalIndex s i := rfl

/-- The three branches of `handleDeadEnd` on a non-empty word sequence shorter than the target. -/
theorem handleDeadEnd_eq {σ : Type} (U : Unicode) (s : Model σ) (words : List String)
    (numWords : Int) (hw : words ≠ []) (hN : (words.length : Int) < numWords)
    (hint : numWords < 9223372036854775808) :
    handleDeadEnd U s words numWords =
      if (words.length : Int) ≤ numWords - 3 then
        match getPrefixByNumericalIndex s (s.rand (len s.freqs)).1 with
        | none => none
        | some p =>
          match split p with
          | [] => none
          | a :: rest =>
            some (words.dropLast ++ [words.getLast hw ++ "."] ++ Title U a :: rest,
              (s.rand (len s.freqs)).2)
      else if (words.length : Int) = numWords - 2 then
        some (words.dropLast ++ [words.getLast hw ++ "."] ++ ["You", "heard"], s)
      else some (words.dropLast ++ [words.getLast hw ++ "."] ++ ["amen"], s) := by
  have hlen : (words.dropLast ++ [words.getLast hw ++ "."]).length = words.length := by
    have := List.length_pos.mpr hw
    rw [List.length_append, List.length_dropLast, List.length_singleton]
    omega
  have h3 : wrapInt (numWords - 3) = numWords - 3 := wrapInt_of_int (by omega) (by omega)
  have h2 : wrapInt (numWords - 2) = numWords - 2 := wrapInt_of_int (by omega) (by omega)
  unfold handleDeadEnd
  rw [List.getLast?_eq_getLast words hw]
  simp only [hlen, h3, h2, getPrefix_rand]

/-- C9, as stated, fails in its third case: when the prng returns a negative value the call
panics, and on a table whose key "a b c" holds two spaces the call appends three words. -/
theorem handleDeadEnd_restart_fails :
    (handleDeadEnd asciiOnly (withResult testModel (-1)) ["test", "test"] 10).isNone = true ∧
    (handleDeadEnd asciiOnly spacedModel ["test", "test"] 10).map Prod.fst =
      some ["test", "test.", "A", "b", "c"] := by
  decide

/-- C9, amended: for every non-empty word sequence of length `L`, every target `N > L` that is a
Go `int`, and every non-empty table, `handleDeadEnd` returns the sequence with a period appended
to its last word (the earlier words unchanged) followed by: exactly ["amen"] when `N - L = 1`;
exactly ["You", "heard"] when `N - L = 2`; and, when `N - L > 2` and the prng, called once with the
number of keys, returns a non-negative value, the pieces between the spaces of the key
`getPrefixByNumericalIndex` returns for it, the first piece passed through `strings.Title`. When
that key is `w1 + " " + w2` with no space in `w1` and `w2`, the pieces are the two words `w1` and
`w2`, and `strings.Title` upper-cases the first letter of `w1` when `w1` is made of `a`..`z`. -/
theorem handleDeadEnd_policy {σ : Type} (U : Unicode) (s : Model σ) (words : List String)
    (numWords : Int) (hw : words ≠ []) (hN : (words.length : Int) < numWords)
    (hint : numWords < 9223372036854775808) (hne : s.freqs ≠ []) :
    (numWords - words.length = 1 →
      handleDeadEnd U s words numWords =
        some (words.dropLast ++ [words.getLast hw ++ "."] ++ ["amen"], s)) ∧
    (numWords - words.length = 2 →
      handleDeadEnd U s words numWords =
        some (words.dropLast ++ [words.getLast hw ++ "."] ++ ["You", "heard"], s)) ∧
    (numWords - words.length > 2 → 0 ≤ (s.prng s.state (len s.freqs)).1 →
      ∃ p a rest,
        getPrefixByNumericalIndex s (s.prng s.state (len s.freqs)).1 = some p ∧
        p ∈ keys s.freqs ∧ split p = a :: rest ∧
        handleDeadEnd U s words numWords =
          some (words.dropLast ++ [words.getLast hw ++ "."] ++ Title U a :: rest,
            { s with state := (s.prng s.state (len s.freqs)).2 }) ∧
        ∀ w1 w2, p = w1 ++ " " ++ w2 → noSpace w1 → noSpace w2 →
          a = w1 ∧ rest = [w2] ∧ (isWord w1 = true → Title U a = capitalise w1)) := by
  have heq := handleDeadEnd_eq U s words numWords hw hN hint
  refine ⟨fun h1 => ?_, fun h2 => ?_, fun h3 hr => ?_⟩
  · rw [heq, if_neg (by omega), if_neg (by omega)]
  · rw [heq, if_neg (by omega), if_pos (by omega)]
  · obtain ⟨hget, hlt⟩ := getPrefix_of_nonneg s (s.prng s.state (len s.freqs)).1 hne hr
    have hk := List.getElem?_eq_getElem hlt
    have hmem := (sortStrings_perm _).mem_iff.mp (List.getElem?_mem hk)
    have hget' := hget.trans hk
    obtain ⟨a, rest, hsplit⟩ := List.exists_cons_of_ne_nil (split_ne_nil
      ((sortStrings (keys s.freqs))[(s.prng s.state (len s.freqs)).1.toNat % len s.freqs]))
    refine ⟨_, a, rest, hget', hmem, hsplit, ?_, ?_⟩
    · rw [heq, if_pos (by omega)]
      have : (s.rand (len s.freqs)).1 = (s.prng s.state (len s.freqs)).1 := rfl
      rw [this, hget']
      simp only [hsplit]
      rfl
    · intro w1 w2 hp h1 h2
      rw [hp, split_pair h1 h2] at hsplit
      have ha : a = w1 := (List.cons.inj hsplit).1.symm
      have hrest : rest = [w2] := (List.cons.inj hsplit).2.symm
      exact ⟨ha, hrest, fun hword => by rw [ha]; exact Title_of_isWord U hword⟩

/-- C9, amended, on the table and the three cases of the test: {"new prefix": {"word3": 1}} and
the words ["test", "test"] with 1, 2 and 8 words to go. -/
theorem handleDeadEnd_policy_witness :
    (handleDeadEnd asciiOnly (Add (New mockPRNG 0) ⟨"new", "prefix", "word3"⟩) ["test", "test"] 3).map
      Prod.fst = some ["test", "test.", "amen"] ∧
    (handleDeadEnd asciiOnly (Add (New mockPRNG 0) ⟨"new", "prefix", "word3"⟩) ["test", "test"] 4).map
      Prod.fst = some ["test", "test.", "You", "heard"] ∧
    (handleDeadEnd asciiOnly (Add (New mockPRNG 0) ⟨"new", "prefix", "word3"⟩) ["test", "test"] 10).map
      Prod.fst = some ["test", "test.", "New", "prefix"] := by
  refine ⟨?_, ?_, ?_⟩
  · rw [(handleDeadEnd_policy asciiOnly (Add (New mockPRNG 0) ⟨"new", "prefix", "word3"⟩)
      ["test", "test"] 3 (by decide) (by decide) (by decide) (by decide)).1 (by decide)]
    decide
  · rw [(handleDeadEnd_policy asciiOnly (Add (New mockPRNG 0) ⟨"new", "prefix", "word3"⟩)
      ["test", "test"] 4 (by decide) (by decide) (by decide) (by decide)).2.1 (by decide)]
    decide
  · obtain ⟨p, a, rest, hget, -, hsplit, h, -⟩ :=
      (handleDeadEnd_policy asciiOnly (Add (New mockPRNG 0) ⟨"new", "prefix", "word3"⟩)
        ["test", "test"] 10 (by decide) (by decide) (by decide) (by decide)).2.2
        (by decide) (by decide)
    have hp : getPrefixByNumericalIndex (Add (New mockPRNG 0) ⟨"new", "prefix", "word3"⟩)
        ((Add (New mockPRNG 0) ⟨"new", "prefix", "word3"⟩).prng
          (Add (New mockPRNG 0) ⟨"new", "prefix", "word3"⟩).state
          (len (Add (New mockPRNG 0) ⟨"new", "prefix", "word3"⟩).freqs)).1 = some "new prefix" := by
      decide
    rw [hp] at hget
    cases hget
    have hs : split "new prefix" = ["new", "prefix"] := by decide
    rw [hs] at hsplit
    cases hsplit
    rw [h]
    decide

/-! ## `Generate` -/

theorem len_ne_zero {V : Type} {m : GoMap V} (h : m ≠ []) : len m ≠ 0 :=
  Nat.pos_iff_ne_zero.mp (len_pos h)

/-- `Generate` once the table is known not to be empty. -/
theorem Generate_eq {σ : Type} (U : Unicode) (fuel : Nat) (s : Model σ) (numWords : Int)
    (hne : s.freqs ≠ []) :
    Generate U fuel s numWords =
      match getPrefixByNumericalIndex s (s.rand (len s.freqs)).1 with
      | none => Run.panic
      | some randPrefix =>
        if numWords = 1 then
          match split randPrefix with
          | [] => Run.panic
          | w :: _ => Run.done ((Title U w ++ ".", none), (s.rand (len s.freqs)).2)
        else
          match generateLoop U numWords fuel (s.rand (len s.freqs)).2 (split randPrefix) with
          | Run.panic => Run.panic
          | Run.timeout => Run.timeout
          | Run.done (words, s) =>
            match words with
            | [] => Run.panic
            | w :: rest => Run.done ((join (Title U w :: rest) ++ ".", none), s) := by
  unfold Generate
  rw [if_neg (len_ne_zero hne)]
  rfl

theorem rand_eq {σ : Type} (s : Model σ) (prng : σ → Int → Int × σ) (st : σ) (hp : s.prng = prng)
    (hs : s.state = st) (n : Int) :
    s.rand n = ((prng st n).1, { s with state := (prng st n).2 }) := by
  subst hp hs
  rfl

theorem rand_withLog {σ : Type} (s : Model σ) (prng : σ → Int → Int × σ) (st : σ)
    (hp : s.prng = prng) (hs : s.state = st) (log : List Int) (n : Int) :
    (withLog s log).rand n =
      ((prng st n).1, { withLog s log with state := ((prng st n).2, log ++ [n]) }) := by
  subst hp hs
  rfl

/-- The non-empty, in-range start of `Generate`: the index is that of a key, a key is the two
words of an added trigram, and it splits into these. -/
theorem first_key {σ : Type} (s : Model σ) (prng : σ → Int → Int × σ) (st : σ)
    (ts : List Trigram) (hts : ts ≠ []) (hwords : ∀ t ∈ ts, isWordTrigram t = true)
    (hfreqs : s.freqs = (addAll (New prng st) ts).freqs) (r : Int) (hr : 0 ≤ r) :
    ∃ t ∈ ts, getPrefixByNumericalIndex s r = some (t.Word1 ++ " " ++ t.Word2) ∧
      split (t.Word1 ++ " " ++ t.Word2) = [t.Word1, t.Word2] := by
  have hne : s.freqs ≠ [] := by
    obtain ⟨t, tl, rfl⟩ := List.exists_cons_of_ne_nil hts
    have hmem : keyOf t ∈ keys s.freqs := by
      rw [hfreqs, mem_keys_addAll]
      exact Or.inr ⟨t, List.mem_cons_self t tl, rfl⟩
    intro h
    rw [h] at hmem
    simp [keys] at hmem
  obtain ⟨hget, hlt⟩ := getPrefix_of_nonneg s r hne hr
  obtain ⟨k, hk⟩ : ∃ k, (sortStrings (keys s.freqs))[r.toNat % len s.freqs]? = some k :=
    ⟨_, List.getElem?_eq_getElem hlt⟩
  have hmem := (sortStrings_perm _).mem_iff.mp (List.getElem?_mem hk)
  rw [hfreqs, mem_keys_addAll] at hmem
  rcases hmem with hmem | ⟨t, ht, hkey⟩
  · simp [New, keys] at hmem
  · refine ⟨t, ht, ?_, ?_⟩
    · rw [hget, hk, ← hkey]
      rfl
    · have hw := hwords t ht
      unfold isWordTrigram at hw
      simp only [Bool.and_eq_true] at hw
      exact split_pair (noSpace_of_isWord hw.1.1) (noSpace_of_isWord hw.1.2)

theorem addAll_ne_nil {σ : Type} (s : Model σ) (ts : List Trigram) (hts : ts ≠ []) :
    (addAll s ts).freqs ≠ [] := by
  obtain ⟨t, tl, rfl⟩ := List.exists_cons_of_ne_nil hts
  have hmem : keyOf t ∈ keys (addAll s (t :: tl)).freqs := by
    rw [mem_keys_addAll]
    exact Or.inr ⟨t, List.mem_cons_self t tl, rfl⟩
  intro h
  rw [h] at hmem
  simp [keys] at hmem

/-- C10: for every non-empty model built from trigrams of non-empty a-z words, every in-range prng
and whatever the fuel, `Generate(1)` returns without error exactly one capitalised word followed by
a period: the first word of the key `getPrefixByNumericalIndex(prng(number of keys))`, which is the
first word of an added trigram, with its first letter upper-cased, then "."; the result holds no
space; and no successor is looked up: the prng is called exactly once, with the number of keys (a
prng that records its calls has recorded just that), and a model with the same keys and any other
successors returns the same string. -/
theorem Generate_one {σ : Type} (U : Unicode) (fuel : Nat) (prng : σ → Int → Int × σ) (st : σ)
    (ts : List Trigram) (hts : ts ≠ []) (hwords : ∀ t ∈ ts, isWordTrigram t = true)
    (hrange : InRange prng) :
    ∃ t ∈ ts,
      getPrefixByNumericalIndex (addAll (New prng st) ts)
        (prng st (len (addAll (New prng st) ts).freqs)).1 = some (t.Word1 ++ " " ++ t.Word2) ∧
      Generate U fuel (addAll (New prng st) ts) 1 =
        Run.done ((capitalise t.Word1 ++ ".", none),
          { addAll (New prng st) ts with
            state := (prng st (len (addAll (New prng st) ts).freqs)).2 }) ∧
      noSpace (capitalise t.Word1 ++ ".") ∧
      Generate U fuel (withLog (addAll (New prng st) ts) []) 1 =
        Run.done ((capitalise t.Word1 ++ ".", none),
          { withLog (addAll (New prng st) ts) [] with
            state := ((prng st (len (addAll (New prng st) ts).freqs)).2,
              [(len (addAll (New prng st) ts).freqs : Int)]) }) ∧
      ∀ s' : Model σ, keys s'.freqs = keys (addAll (New prng st) ts).freqs →
        s'.prng = prng → s'.state = st →
        Generate U fuel s' 1 =
          Run.done ((capitalise t.Word1 ++ ".", none),
            { s' with state := (prng st (len (addAll (New prng st) ts).freqs)).2 }) := by
  have hne := addAll_ne_nil (New prng st) ts hts
  have hpos : (0 : Int) < (len (addAll (New prng st) ts).freqs : Nat) := by
    have := len_pos hne
    omega
  have hprng := addAll_prng (New prng st) ts
  have hr := (hrange st _ hpos).1
  obtain ⟨t, ht, hget, hsplit⟩ := first_key (addAll (New prng st) ts) prng st ts hts hwords rfl _ hr
  have hw := hwords t ht
  unfold isWordTrigram at hw
  simp only [Bool.and_eq_true] at hw
  have hrand := rand_eq (addAll (New prng st) ts) prng st hprng.1 hprng.2
    (len (addAll (New prng st) ts).freqs)
  refine ⟨t, ht, hget, ?_, ?_, ?_, ?_⟩
  · rw [Generate_eq U fuel _ 1 hne, hrand]
    simp only [hget, if_true, hsplit, Title_of_isWord U hw.1.1]
  · exact noSpace_append_period (noSpace_capitalise hw.1.1)
  · have hne' : (withLog (addAll (New prng st) ts) []).freqs ≠ [] := hne
    have hl := rand_withLog (addAll (New prng st) ts) prng st hprng.1 hprng.2 []
      (len (addAll (New prng st) ts).freqs)
    have hlen' : len (withLog (addAll (New prng st) ts) []).freqs =
        len (addAll (New prng st) ts).freqs := rfl
    have hgetl : getPrefixByNumericalIndex (withLog (addAll (New prng st) ts) [])
        (prng st (len (addAll (New prng st) ts).freqs)).1 = some (t.Word1 ++ " " ++ t.Word2) := by
      rw [← hget]
      exact getPrefix_congr _ _ _ (List.Perm.refl _)
    rw [Generate_eq U fuel _ 1 hne', hlen', hl]
    simp only [hgetl, if_true, hsplit, Title_of_isWord U hw.1.1, List.nil_append]
  · intro s' hkeys hp hs
    have hlen : len s'.freqs = len (addAll (New prng st) ts).freqs := by
      rw [← length_keys, ← length_keys, hkeys]
    have hne' : s'.freqs ≠ [] := by
      intro h
      have := len_pos hne
      rw [← hlen, h] at this
      simp [len] at this
    have hs' := rand_eq s' prng st hp hs (len (addAll (New prng st) ts).freqs)
    have hgets : getPrefixByNumericalIndex s' (prng st (len (addAll (New prng st) ts).freqs)).1 =
        some (t.Word1 ++ " " ++ t.Word2) := by
      rw [← hget]
      exact getPrefix_congr _ _ _ (by rw [hkeys])
    rw [Generate_eq U fuel _ 1 hne', hlen, hs']
    simp only [hgets, if_true, hsplit, Title_of_isWord U hw.1.1]

theorem mockPRNG_inRange : InRange mockPRNG := by
  intro st n hn
  show 0 ≤ Int.tmod (st : Int) n ∧ Int.tmod (st : Int) n < n
  exact ⟨Int.tmod_nonneg n (Int.ofNat_nonneg st), Int.tmod_lt_of_pos _ hn⟩

/-- C10 on the model of the tests, whose prng returns 0 first: the first of the sorted keys is
"be or", and `Generate(1)` returns "Be." with no fuel at all. -/
theorem Generate_one_witness :
    testTrigrams ≠ [] ∧ (∀ t ∈ testTrigrams, isWordTrigram t = true) ∧ InRange mockPRNG ∧
    (∃ t ∈ testTrigrams,
      output (Generate asciiOnly 0 (addAll (New mockPRNG 0) testTrigrams) 1) =
        some (capitalise t.Word1 ++ ".", none)) ∧
    output (Generate asciiOnly 0 (addAll (New mockPRNG 0) testTrigrams) 1) = some ("Be.", none) := by
  refine ⟨by decide, by decide, mockPRNG_inRange, ?_, by decide⟩
  obtain ⟨t, ht, -, h, -⟩ :=
    Generate_one asciiOnly 0 mockPRNG 0 testTrigrams (by decide) (by decide) mockPRNG_inRange
  exact ⟨t, ht, by rw [h]; rfl⟩

/-! ## The loop of `Generate` -/

theorem generateLoop_of_eq {σ : Type} (U : Unicode) (numWords : Int) (fuel : Nat) (s : Model σ)
    (words : List String) (h : (words.length : Int) = numWords) :
    generateLoop U numWords fuel s words = Run.done (words, s) := by
  cases fuel <;> simp [generateLoop, h]

theorem generateLoop_zero {σ : Type} (U : Unicode) (numWords : Int) (s : Model σ)
    (words : List String) (h : (words.length : Int) ≠ numWords) :
    generateLoop U numWords 0 s words = Run.timeout := by
  simp [generateLoop, h]

theorem generateLoop_succ {σ : Type} (U : Unicode) (numWords : Int) (fuel : Nat) (s : Model σ)
    (words : List String) (h : (words.length : Int) ≠ numWords) :
    generateLoop U numWords (fuel + 1) s words =
      if words.length < 2 then Run.panic
      else
        match lookup s.freqs (join (words.drop (words.length - 2))) with
        | none =>
          match handleDeadEnd U s words numWords with
          | none => Run.panic
          | some r => generateLoop U numWords fuel r.2 r.1
        | some freqs =>
          match chooseAdjoiningWord s freqs with
          | none => Run.panic
          | some r => generateLoop U numWords fuel r.2 (words ++ [r.1]) := by
  rw [generateLoop, if_neg h]

/-- More fuel does not change what the loop returns. -/
theorem generateLoop_mono {σ : Type} (U : Unicode) (numWords : Int) (fuel : Nat) :
    ∀ (s : Model σ) (words : List String) (r : List String × Model σ),
      generateLoop U numWords fuel s words = Run.done r →
      ∀ k, generateLoop U numWords (fuel + k) s words = Run.done r := by
  induction fuel with
  | zero =>
    intro s words r h k
    by_cases he : (words.length : Int) = numWords
    · rw [generateLoop_of_eq U numWords _ s words he] at h ⊢
      exact h
    · rw [generateLoop_zero U numWords s words he] at h
      exact Run.noConfusion h
  | succ fuel ih =>
    intro s words r h k
    by_cases he : (words.length : Int) = numWords
    · rw [generateLoop_of_eq U numWords _ s words he] at h ⊢
      exact h
    · have hk : fuel + 1 + k = (fuel + k) + 1 := by omega
      rw [hk, generateLoop_succ U numWords _ s words he]
      rw [generateLoop_succ U numWords _ s words he] at h
      split at h
      · exact Run.noConfusion h
      · rename_i hlen
        rw [if_neg hlen]
        split at h
        · split at h
          · exact Run.noConfusion h
          · exact ih _ _ _ h k
        · split at h
          · exact Run.noConfusion h
          · exact ih _ _ _ h k

/-! ## Tables built by `Add` from words -/

theorem le_total_of_lookup {m : GoMap Nat} {w : String} {c : Nat} (h : lookup m w = some c) :
    c ≤ total m := by
  induction m with
  | nil => simp [lookup] at h
  | cons kv rest ih =>
    obtain ⟨k, v⟩ := kv
    have ht : total ((k, v) :: rest) = v + total rest := by simp [total]
    by_cases hk : k = w
    · simp [lookup, hk] at h
      omega
    · simp [lookup, hk] at h
      have := ih h
      omega

theorem mem_keys_of_mem_expand {m : GoMap Nat} {w : String} (h : w ∈ expand m) : w ∈ keys m := by
  induction m with
  | nil => simp [expand] at h
  | cons kv rest ih =>
    obtain ⟨k, v⟩ := kv
    rw [expand_cons, List.mem_append] at h
    rcases h with h | h
    · have := (List.mem_replicate.mp h).2
      simp [keys, this]
    · have := ih h
      simp only [keys, List.map_cons, List.mem_cons] at this ⊢
      exact Or.inr this

theorem entry_New_addAll {σ : Type} (prng : σ → Int → Int × σ) (st : σ) (ts : List Trigram)
    (p w : String) (hocc : occurrences ts p w < uintSize) :
    entry (addAll (New prng st) ts).freqs p w =
      if occurrences ts p w = 0 then none else some (occurrences ts p w) := by
  rw [entry_addAll]
  have h0 : entry (New prng st).freqs p w = none := rfl
  have hc : count (New prng st).freqs p w = 0 := rfl
  rw [h0, hc, Nat.zero_add, Nat.mod_eq_of_lt hocc]

theorem occurrences_pos_iff (ts : List Trigram) (p w : String) :
    occurrences ts p w ≠ 0 ↔ ∃ t ∈ ts, keyOf t = p ∧ t.Word3 = w := by
  unfold occurrences
  rw [← Nat.pos_iff_ne_zero, List.countP_pos_iff]
  simp

/-- A table built from a new model by adding trigrams of non-empty a-z words, no (key, successor)
pair 2^64 times or more, is one generation can rely on. -/
theorem goodTable_addAll {σ : Type} (prng : σ → Int → Int × σ) (st : σ) (ts : List Trigram)
    (hts : ts ≠ []) (hwords : ∀ t ∈ ts, isWordTrigram t = true)
    (hocc : ∀ p w, occurrences ts p w < uintSize) :
    GoodTable (addAll (New prng st) ts).freqs := by
  have hword : ∀ t ∈ ts, isWord t.Word1 = true ∧ isWord t.Word2 = true ∧ isWord t.Word3 = true := by
    intro t ht
    have hw := hwords t ht
    unfold isWordTrigram at hw
    simp only [Bool.and_eq_true] at hw
    exact ⟨hw.1.1, hw.1.2, hw.2⟩
  have hkeys : ∀ p, p ∈ keys (addAll (New prng st) ts).freqs ↔ ∃ t ∈ ts, keyOf t = p := by
    intro p
    rw [mem_keys_addAll]
    constructor
    · rintro (h | h)
      · simp [New, keys] at h
      · exact h
    · exact Or.inr
  refine ⟨addAll_ne_nil _ ts hts, ?_, ?_, ?_⟩
  · intro p hp
    obtain ⟨t, ht, rfl⟩ := (hkeys p).mp hp
    exact ⟨t.Word1, t.Word2, rfl, (hword t ht).1, (hword t ht).2.1⟩
  · intro p m hl w hw
    have hsome := (lookup_isSome_iff_mem_keys m w).mpr hw
    have he : entry (addAll (New prng st) ts).freqs p w = lookup m w := by
      unfold entry; rw [hl]; rfl
    rw [entry_New_addAll prng st ts p w (hocc p w)] at he
    have hne : occurrences ts p w ≠ 0 := by
      intro h0
      rw [if_pos h0] at he
      rw [← he] at hsome
      simp at hsome
    obtain ⟨t, ht, -, rfl⟩ := (occurrences_pos_iff ts p w).mp hne
    exact (hword t ht).2.2
  · intro p m hl
    have hp : p ∈ keys (addAll (New prng st) ts).freqs := by
      rw [← lookup_isSome_iff_mem_keys, hl]; rfl
    obtain ⟨t, ht, rfl⟩ := (hkeys p).mp hp
    have hne : occurrences ts (keyOf t) t.Word3 ≠ 0 :=
      (occurrences_pos_iff ts _ _).mpr ⟨t, ht, rfl, rfl⟩
    have he : entry (addAll (New prng st) ts).freqs (keyOf t) t.Word3 = lookup m t.Word3 := by
      unfold entry; rw [hl]; rfl
    rw [entry_New_addAll prng st ts _ _ (hocc _ _), if_neg hne] at he
    have := le_total_of_lookup he.symm
    omega

/-- On a successor map whose counts sum to at least 1, with an in-range prng,
`chooseAdjoiningWord` returns one of the map's words. -/
theorem chooseAdjoiningWord_returns {σ : Type} (s : Model σ) (m : GoMap Nat)
    (hrange : InRange s.prng) (hpos : 1 ≤ total m) :
    ∃ w s', chooseAdjoiningWord s m = some (w, s') ∧ w ∈ keys m ∧ s'.freqs = s.freqs ∧
      s'.prng = s.prng := by
  have hr := hrange s.state (total m) (by omega)
  have hr1 : (s.rand (total m)).1 = (s.prng s.state (total m)).1 := rfl
  have hlen : (sortStrings (expand m)).length = total m := by
    rw [length_sortStrings, length_expand]
  have hlt : (s.prng s.state (total m)).1.toNat < (sortStrings (expand m)).length := by
    rw [hlen]; omega
  have hk := List.getElem?_eq_getElem hlt
  refine ⟨(sortStrings (expand m))[(s.prng s.state (total m)).1.toNat], (s.rand (total m)).2,
    ?_, ?_, rfl, rfl⟩
  · rw [chooseAdjoiningWord_eq, hr1, if_neg (by omega), hk]
    rfl
  · exact mem_keys_of_mem_expand ((sortStrings_perm _).mem_iff.mp (List.getElem?_mem hk))

/-- In a good table an in-range index finds a key that splits into its two words. -/
theorem good_key {σ : Type} (s : Model σ) (hgood : GoodTable s.freqs) (r : Int) (hr : 0 ≤ r) :
    ∃ w1 w2, getPrefixByNumericalIndex s r = some (w1 ++ " " ++ w2) ∧
      split (w1 ++ " " ++ w2) = [w1, w2] ∧ isWord w1 = true ∧ isWord w2 = true := by
  obtain ⟨hget, hlt⟩ := getPrefix_of_nonneg s r hgood.1 hr
  obtain ⟨k, hk⟩ : ∃ k, (sortStrings (keys s.freqs))[r.toNat % len s.freqs]? = some k :=
    ⟨_, List.getElem?_eq_getElem hlt⟩
  have hmem := (sortStrings_perm _).mem_iff.mp (List.getElem?_mem hk)
  obtain ⟨w1, w2, rfl, h1, h2⟩ := hgood.2.1 k hmem
  exact ⟨w1, w2, hget.trans hk, split_pair (noSpace_of_isWord h1) (noSpace_of_isWord h2), h1, h2⟩

/-! ## The loop invariant -/

theorem loopInv_dead_end {numWords : Int} {words : List String} (hinv : LoopInv numWords words)
    (hw : words ≠ []) (app : List String) (happ : ∀ w ∈ app, noSpace w)
    (hlen : ((words.length + app.length : Nat) : Int) ≤ numWords) :
    LoopInv numWords (words.dropLast ++ [words.getLast hw ++ "."] ++ app) ∧
    (words.dropLast ++ [words.getLast hw ++ "."] ++ app).head? = words.head? ∧
    (words.dropLast ++ [words.getLast hw ++ "."] ++ app).length = words.length + app.length := by
  obtain ⟨h2, -, hns, w0, hhead, hw0⟩ := hinv
  have hl : (words.dropLast ++ [words.getLast hw ++ "."] ++ app).length =
      words.length + app.length := by
    simp only [List.length_append, List.length_dropLast, List.length_singleton]
    omega
  have hh : (words.dropLast ++ [words.getLast hw ++ "."] ++ app).head? = words.head? := by
    match words, h2 with
    | a :: b :: rest, _ => simp
  refine ⟨⟨by omega, by rw [hl]; exact hlen, ?_, w0, hh.trans hhead, hw0⟩, hh, hl⟩
  intro w hmem
  rcases List.mem_append.mp hmem with h | h
  · rcases List.mem_append.mp h with h' | h'
    · exact hns w (List.mem_of_mem_dropLast h')
    · rw [List.mem_singleton.mp h']
      exact noSpace_append_period (hns _ (List.getLast_mem hw))
  · exact happ w h

theorem loopInv_append {numWords : Int} {words : List String} (hinv : LoopInv numWords words)
    (w : String) (hw : noSpace w) (hlen : ((words.length + 1 : Nat) : Int) ≤ numWords) :
    LoopInv numWords (words ++ [w]) ∧ (words ++ [w]).head? = words.head? := by
  obtain ⟨h2, -, hns, w0, hhead, hw0⟩ := hinv
  have hh : (words ++ [w]).head? = words.head? := by
    match words, h2 with
    | a :: b :: rest, _ => simp
  refine ⟨⟨by simp; omega, by simpa using hlen, ?_, w0, hh.trans hhead, hw0⟩, hh⟩
  intro x hmem
  rcases List.mem_append.mp hmem with h | h
  · exact hns x h
  · rw [List.mem_singleton.mp h]
    exact hw

/-- A dead end inside the loop: `handleDeadEnd` returns, with one or two words more and never
more than `numWords`, and keeps the invariant. -/
theorem handleDeadEnd_step {σ : Type} (U : Unicode) (s : Model σ) (words : List String)
    (numWords : Int) (hgood : GoodTable s.freqs) (hrange : InRange s.prng)
    (hinv : LoopInv numWords words) (hlt : (words.length : Int) < numWords)
    (hint : numWords < 9223372036854775808) :
    ∃ words' s', handleDeadEnd U s words numWords = some (words', s') ∧
      LoopInv numWords words' ∧ words.length < words'.length ∧
      words'.length ≤ words.length + 2 ∧ words'.head? = words.head? ∧
      s'.freqs = s.freqs ∧ s'.prng = s.prng := by
  have hw : words ≠ [] := by
    intro h
    have := hinv.1
    rw [h] at this
    simp at this
  have heq := handleDeadEnd_eq U s words numWords hw hlt hint
  by_cases h3 : (words.length : Int) ≤ numWords - 3
  · have hpos : (0 : Int) < (len s.freqs : Nat) := by
      have := len_pos hgood.1
      omega
    have hr := (hrange s.state _ hpos).1
    obtain ⟨w1, w2, hget, hsplit, hw1, hw2⟩ := good_key s hgood _ hr
    have hr1 : (s.rand (len s.freqs)).1 = (s.prng s.state (len s.freqs)).1 := rfl
    have happ : ∀ w ∈ [Title U w1, w2], noSpace w := by
      intro w hmem
      rcases List.mem_cons.mp hmem with h | h
      · rw [h, Title_of_isWord U hw1]
        exact noSpace_capitalise hw1
      · rw [List.mem_singleton.mp h]
        exact noSpace_of_isWord hw2
    obtain ⟨hi, hh, hl⟩ := loopInv_dead_end hinv hw [Title U w1, w2] happ
      (by simp only [List.length_cons, List.length_nil]; omega)
    refine ⟨_, (s.rand (len s.freqs)).2, ?_, hi, ?_, ?_, hh, rfl, rfl⟩
    · rw [heq, if_pos h3, hr1, hget]
      simp only [hsplit]
    · rw [hl]; simp
    · rw [hl]; simp
  · by_cases h2 : (words.length : Int) = numWords - 2
    · have happ : ∀ w ∈ ["You", "heard"], noSpace w := by decide
      obtain ⟨hi, hh, hl⟩ := loopInv_dead_end hinv hw ["You", "heard"] happ
        (by simp only [List.length_cons, List.length_nil]; omega)
      refine ⟨_, s, ?_, hi, ?_, ?_, hh, rfl, rfl⟩
      · rw [heq, if_neg h3, if_pos h2]
      · rw [hl]; simp
      · rw [hl]; simp
    · have happ : ∀ w ∈ ["amen"], noSpace w := by decide
      obtain ⟨hi, hh, hl⟩ := loopInv_dead_end hinv hw ["amen"] happ
        (by simp only [List.length_cons, List.length_nil]; omega)
      refine ⟨_, s, ?_, hi, ?_, ?_, hh, rfl, rfl⟩
      · rw [heq, if_neg h3, if_neg h2]
      · rw [hl]; simp
      · rw [hl]; simp

/-- The loop of `Generate` on a good table with an in-range prng: with fuel for the words still
missing it returns, with exactly `numWords` words, none holding a space, the first unchanged. -/
theorem generateLoop_returns {σ : Type} (U : Unicode) (numWords : Int)
    (hint : numWords < 9223372036854775808) (fuel : Nat) :
    ∀ (s : Model σ) (words : List String), GoodTable s.freqs → InRange s.prng →
      LoopInv numWords words → numWords - words.length ≤ fuel →
      ∃ words' s', generateLoop U numWords fuel s words = Run.done (words', s') ∧
        (words'.length : Int) = numWords ∧ (∀ w ∈ words', noSpace w) ∧
        words'.head? = words.head? ∧ s'.freqs = s.freqs ∧ s'.prng = s.prng := by
  induction fuel with
  | zero =>
    intro s words _ _ hinv hfuel
    have he : (words.length : Int) = numWords := by
      have := hinv.2.1
      omega
    exact ⟨words, s, generateLoop_of_eq U numWords 0 s words he, he, hinv.2.2.1, rfl, rfl, rfl⟩
  | succ fuel ih =>
    intro s words hgood hrange hinv hfuel
    by_cases he : (words.length : Int) = numWords
    · exact ⟨words, s, generateLoop_of_eq U numWords _ s words he, he, hinv.2.2.1, rfl, rfl, rfl⟩
    · have hlt : (words.length : Int) < numWords := by
        have := hinv.2.1
        omega
      rw [generateLoop_succ U numWords fuel s words he, if_neg (by have := hinv.1; omega)]
      cases hl : lookup s.freqs (join (words.drop (words.length - 2))) with
      | none =>
        obtain ⟨words', s', hd, hi, hgt, -, hh, hf, hp⟩ :=
          handleDeadEnd_step U s words numWords hgood hrange hinv hlt hint
        simp only [hd]
        obtain ⟨w'', s'', hrun, hlen, hns, hh', hf', hp'⟩ :=
          ih s' words' (hf ▸ hgood) (hp ▸ hrange) hi (by omega)
        exact ⟨w'', s'', hrun, hlen, hns, hh'.trans hh, hf'.trans hf, hp'.trans hp⟩
      | some m =>
        obtain ⟨w, s', hc, hmem, hf, hp⟩ :=
          chooseAdjoiningWord_returns s m hrange (hgood.2.2.2 _ m hl)
        simp only [hc]
        have hword := hgood.2.2.1 _ m hl w hmem
        obtain ⟨hi, hh⟩ := loopInv_append hinv w (noSpace_of_isWord hword)
          (by push_cast; omega)
        obtain ⟨w'', s'', hrun, hlen, hns, hh', hf', hp'⟩ :=
          ih s' (words ++ [w]) (hf ▸ hgood) (hp ▸ hrange) hi
            (by simp only [List.length_append, List.length_singleton]; push_cast; omega)
        exact ⟨w'', s'', hrun, hlen, hns, hh'.trans hh, hf'.trans hf, hp'.trans hp⟩

/-! ## `Generate` returns the requested number of words -/

/-- `Generate` on a good table with an in-range prng, for a word count of at least 1: with fuel
for `numWords - 2` iterations it returns, without error, a string that ends with a period and that
splits on single spaces into exactly `numWords` pieces; more fuel returns the same. -/
theorem Generate_returns {σ : Type} (U : Unicode) (s : Model σ) (numWords : Int)
    (hgood : GoodTable s.freqs) (hrange : InRange s.prng) (h1 : 1 ≤ numWords)
    (hint : numWords < 9223372036854775808) :
    ∃ str s', (∀ fuel : Nat, numWords - 2 ≤ fuel →
        Generate U fuel s numWords = Run.done ((str, none), s')) ∧
      endsWithPeriod str ∧ ((split str).length : Int) = numWords ∧
      s'.freqs = s.freqs ∧ s'.prng = s.prng := by
  have hpos : (0 : Int) < (len s.freqs : Nat) := by
    have := len_pos hgood.1
    omega
  have hr := (hrange s.state _ hpos).1
  obtain ⟨w1, w2, hget, hsplit, hw1, hw2⟩ := good_key s hgood _ hr
  have hr1 : (s.rand (len s.freqs)).1 = (s.prng s.state (len s.freqs)).1 := rfl
  by_cases hone : numWords = 1
  · refine ⟨capitalise w1 ++ ".", (s.rand (len s.freqs)).2, fun fuel _ => ?_,
      endsWithPeriod_append _, ?_, rfl, rfl⟩
    · rw [Generate_eq U fuel s numWords hgood.1, hr1, hget]
      simp only [hone, if_true, hsplit, Title_of_isWord U hw1]
    · have hns := noSpace_append_period (noSpace_capitalise hw1)
      unfold split
      rw [splitOn_space_no_space hns, hone]
      rfl
  · have hinv : LoopInv numWords [w1, w2] :=
      ⟨by simp, by simp only [List.length_cons, List.length_nil]; omega,
        by
          intro w hmem
          rcases List.mem_cons.mp hmem with h | h
          · rw [h]; exact noSpace_of_isWord hw1
          · rw [List.mem_singleton.mp h]; exact noSpace_of_isWord hw2,
        w1, rfl, hw1⟩
    obtain ⟨words', s', hrun, hlen, hns, hh, hf, hp⟩ :=
      generateLoop_returns U numWords hint (numWords - 2).toNat (s.rand (len s.freqs)).2 [w1, w2]
        hgood hrange hinv (by simp only [List.length_cons, List.length_nil]; omega)
    obtain ⟨rest, rfl⟩ : ∃ rest, words' = w1 :: rest := by
      cases words' with
      | nil => simp at hh
      | cons a rest =>
        simp only [List.head?_cons, Option.some.injEq] at hh
        exact ⟨rest, by rw [hh]⟩
    have hns' : ∀ w ∈ capitalise w1 :: rest, noSpace w := by
      intro w hmem
      rcases List.mem_cons.mp hmem with h | h
      · rw [h]; exact noSpace_capitalise hw1
      · exact hns w (List.mem_cons_of_mem _ h)
    refine ⟨join (capitalise w1 :: rest) ++ ".", s', fun fuel hfuel => ?_,
      endsWithPeriod_append _, ?_, hf, hp⟩
    · obtain ⟨k, hk⟩ : ∃ k, fuel = (numWords - 2).toNat + k := ⟨fuel - (numWords - 2).toNat, by omega⟩
      have hrun' := generateLoop_mono U numWords _ _ _ _ hrun k
      rw [← hk] at hrun'
      rw [Generate_eq U fuel s numWords hgood.1, hr1, hget]
      simp only [hone, if_false, hsplit, hrun', Title_of_isWord U hw1]
    · rw [length_split_join_period hns' (by simp)]
      simpa using hlen

theorem model_eta {σ : Type} (s : Model σ) : s = ⟨s.freqs, s.prng, s.state⟩ := by
  cases s
  rfl

/-- After 2^64 additions of the same trigram its count is back at 0. -/
theorem wrappedModel_freqs : wrappedModel.freqs = [("a a", [("a", 0)])] := by
  have hM : uintSize = 18446744073709551615 + 1 := by decide
  have hstep : ∀ (n c : Nat) (s : Model Nat), c < uintSize →
      s.freqs = [("a a", [("a", c)])] →
      (addAll s (List.replicate n ⟨"a", "a", "a"⟩)).freqs = [("a a", [("a", (c + n) % uintSize)])] := by
    intro n
    induction n with
    | zero =>
      intro c s hc hs
      rw [Nat.add_zero, Nat.mod_eq_of_lt hc]
      exact hs
    | succ n ih =>
      intro c s hc hs
      rw [List.replicate_succ, addAll_cons]
      have hl : lookup s.freqs (keyOf ⟨"a", "a", "a"⟩) = some [("a", c)] := by
        rw [hs]; rfl
      have hadd := Add_of_old_word s ⟨"a", "a", "a"⟩ [("a", c)] c hl rfl
      have hfreqs : (Add s ⟨"a", "a", "a"⟩).freqs = [("a a", [("a", (c + 1) % uintSize)])] := by
        rw [hadd, hs]
        rfl
      rw [ih ((c + 1) % uintSize) _ (Nat.mod_lt _ (by decide)) hfreqs, Nat.mod_add_mod,
        Nat.add_assoc, Nat.add_comm 1 n]
  unfold wrappedModel
  rw [hM, List.replicate_succ, addAll_cons,
    hstep 18446744073709551615 1 _ (by decide) rfl]
  rfl

theorem wrappedModel_eq :
    wrappedModel = { freqs := [("a a", [("a", 0)])], prng := mockPRNG, state := 0 } := by
  have hp := addAll_prng (New mockPRNG 0) (List.replicate uintSize ⟨"a", "a", "a"⟩)
  have hprng : wrappedModel.prng = mockPRNG := hp.1
  have hstate : wrappedModel.state = 0 := hp.2
  calc wrappedModel = ⟨wrappedModel.freqs, wrappedModel.prng, wrappedModel.state⟩ :=
        model_eta wrappedModel
    _ = ⟨[("a a", [("a", 0)])], mockPRNG, 0⟩ := by rw [wrappedModel_freqs, hprng, hstate]

/-- C1, as stated, fails: after the trigram ("a", "a", "a") has been added 2^64 times to a new
model, its count has wrapped to 0, and `Generate(3)` with the in-range prng of the tests panics
in `chooseAdjoiningWord` (index out of range on an empty slice) instead of returning: with no
fuel at all the loop has not ended, with any fuel it panics. -/
theorem Generate_after_wrap :
    (∀ t ∈ List.replicate uintSize (⟨"a", "a", "a"⟩ : Trigram), isWordTrigram t = true) ∧
    InRange mockPRNG ∧
    wrappedModel.freqs = [("a a", [("a", 0)])] ∧
    Generate asciiOnly 1 wrappedModel 3 = Run.panic ∧
    ∀ fuel, output (Generate asciiOnly fuel wrappedModel 3) = none := by
  refine ⟨?_, mockPRNG_inRange, wrappedModel_freqs, ?_, ?_⟩
  · intro t ht
    rw [(List.mem_replicate.mp ht).2]
    decide
  · rw [wrappedModel_eq]
    rfl
  · intro fuel
    rw [wrappedModel_eq]
    cases fuel with
    | zero => rfl
    | succ n => rfl

/-- C1, amended: for every model made non-empty by `Add` calls on trigrams whose three words are
non-empty strings of the letters a-z, no (key, successor) pair added 2^64 times or more, every prng
that returns a value in `[0, n)` when called with `n > 0`, and every `N >= 1` that is a Go `int`,
`Generate(N)` returns (with fuel for `N - 2` iterations of its loop, and the same with more) no
error and a string that ends with a period and that, split on single spaces, has exactly `N`
words. -/
theorem Generate_word_count {σ : Type} (U : Unicode) (prng : σ → Int → Int × σ) (st : σ)
    (ts : List Trigram) (numWords : Int) (hts : ts ≠ [])
    (hwords : ∀ t ∈ ts, isWordTrigram t = true)
    (hocc : ∀ p w, occurrences ts p w < uintSize) (hrange : InRange prng)
    (h1 : 1 ≤ numWords) (hint : numWords < 9223372036854775808) :
    ∃ str s', (∀ fuel : Nat, numWords - 2 ≤ fuel →
        Generate U fuel (addAll (New prng st) ts) numWords = Run.done ((str, none), s')) ∧
      endsWithPeriod str ∧ ((split str).length : Int) = numWords := by
  have hgood := goodTable_addAll prng st ts hts hwords hocc
  have hrange' : InRange (addAll (New prng st) ts).prng := by
    rw [(addAll_prng (New prng st) ts).1]
    exact hrange
  obtain ⟨str, s', hrun, hend, hlen, -, -⟩ :=
    Generate_returns U (addAll (New prng st) ts) numWords hgood hrange' h1 hint
  exact ⟨str, s', hrun, hend, hlen⟩

/-- C1, amended, on the model of the tests with 10 words requested: the run returns
"Be or not to be or not to be or.". -/
theorem Generate_word_count_witness :
    (∃ str s', (∀ fuel : Nat, (10 : Int) - 2 ≤ fuel →
        Generate asciiOnly fuel (addAll (New mockPRNG 0) testTrigrams) 10 =
          Run.done ((str, none), s')) ∧
      endsWithPeriod str ∧ ((split str).length : Int) = 10) ∧
    output (Generate asciiOnly 8 (addAll (New mockPRNG 0) testTrigrams) 10) =
      some ("Be or not to be or not to be or.", none) ∧
    endsWithPeriod "Be or not to be or not to be or." ∧
    (split "Be or not to be or not to be or.").length = 10 :=
  ⟨Generate_word_count asciiOnly mockPRNG 0 testTrigrams 10 (by decide) (by decide)
      (fun _ _ => lt_of_le_of_lt (List.countP_le_length _) (by decide)) mockPRNG_inRange
      (by decide) (by decide),
    by decide, by decide, by decide⟩

/-! ## The loop of `Generate`, one iteration at a time -/

/-- The loop of `Generate` unfolds into its iterations. -/
theorem generateLoop_step {σ : Type} (U : Unicode) (numWords : Int) (fuel : Nat) (s : Model σ)
    (words : List String) :
    generateLoop U numWords (fuel + 1) s words =
      if (words.length : Int) = numWords then Run.done (words, s)
      else
        match loopStep U numWords (words, s) with
        | none => Run.panic
        | some st => generateLoop U numWords fuel st.2 st.1 := by
  by_cases he : (words.length : Int) = numWords
  · rw [generateLoop_of_eq U numWords _ s words he, if_pos he]
  · rw [generateLoop_succ U numWords fuel s words he, if_neg he]
    unfold loopStep
    simp only
    split
    · rfl
    · cases lookup s.freqs (join (List.drop (words.length - 2) words)) with
      | none => rfl
      | some m =>
        simp only
        cases chooseAdjoiningWord s m <;> rfl

/-- Running `k` iterations uses up `k` units of fuel. -/
theorem generateLoop_stateAfter {σ : Type} (U : Unicode) (numWords : Int) (k : Nat) :
    ∀ (st st' : List String × Model σ) (fuel : Nat),
      stateAfter U numWords k st = some st' →
      generateLoop U numWords (k + fuel) st.2 st.1 = generateLoop U numWords fuel st'.2 st'.1 := by
  induction k with
  | zero =>
    intro st st' fuel h
    simp only [stateAfter, Option.some.injEq] at h
    rw [← h, Nat.zero_add]
  | succ k ih =>
    intro st st' fuel h
    rw [stateAfter] at h
    split at h
    · exact Option.noConfusion h
    · rename_i hne
      have hk : k + 1 + fuel = (k + fuel) + 1 := by omega
      rw [hk, generateLoop_step, if_neg hne]
      cases hs : loopStep U numWords st with
      | none => rw [hs] at h; exact Option.noConfusion h
      | some st1 =>
        rw [hs] at h
        exact ih st1 st' fuel h

theorem stateAfter_add {σ : Type} (U : Unicode) (numWords : Int) (k : Nat) :
    ∀ (j : Nat) (st st' st'' : List String × Model σ),
      stateAfter U numWords k st = some st' → stateAfter U numWords j st' = some st'' →
      stateAfter U numWords (k + j) st = some st'' := by
  induction k with
  | zero =>
    intro j st st' st'' h h'
    simp only [stateAfter, Option.some.injEq] at h
    rw [Nat.zero_add, h]
    exact h'
  | succ k ih =>
    intro j st st' st'' h h'
    rw [stateAfter] at h
    split at h
    · exact Option.noConfusion h
    · rename_i hne
      have hk : k + 1 + j = (k + j) + 1 := by omega
      rw [hk, stateAfter, if_neg hne]
      cases hs : loopStep U numWords st with
      | none => rw [hs] at h; exact Option.noConfusion h
      | some st1 =>
        rw [hs] at h
        exact ih j st1 st' st'' h h'

theorem getPrefix_mem {σ : Type} (s : Model σ) (i : Int) (p : String)
    (h : getPrefixByNumericalIndex s i = some p) : p ∈ keys s.freqs := by
  unfold getPrefixByNumericalIndex at h
  split at h
  · exact Option.noConfusion h
  · simp only at h
    split at h
    · exact Option.noConfusion h
    · exact (sortStrings_perm _).mem_iff.mp (List.getElem?_mem h)

/-- Whatever `handleDeadEnd` returns is the word sequence with a period on its last word,
followed by the restart, by "You heard" or by "amen"; the table and the prng function are kept. -/
theorem handleDeadEnd_some {σ : Type} (U : Unicode) (s : Model σ) (words : List String)
    (numWords : Int) (r : List String × Model σ) (h : handleDeadEnd U s words numWords = some r) :
    ∃ (hw : words ≠ []) (app : List String),
      r.1 = words.dropLast ++ [words.getLast hw ++ "."] ++ app ∧
      r.2.freqs = s.freqs ∧ r.2.prng = s.prng ∧
      (((words.length : Int) ≤ wrapInt (numWords - 3) ∧
          ∃ p a rest, getPrefixByNumericalIndex s (s.rand (len s.freqs)).1 = some p ∧
            split p = a :: rest ∧ app = Title U a :: rest ∧ r.2 = (s.rand (len s.freqs)).2) ∨
        (¬ (words.length : Int) ≤ wrapInt (numWords - 3) ∧
          (words.length : Int) = wrapInt (numWords - 2) ∧ app = ["You", "heard"] ∧ r.2 = s) ∨
        (¬ (words.length : Int) ≤ wrapInt (numWords - 3) ∧
          ¬ (words.length : Int) = wrapInt (numWords - 2) ∧ app = ["amen"] ∧ r.2 = s)) := by
  have hw : words ≠ [] := by
    intro hnil
    rw [hnil] at h
    simp [handleDeadEnd] at h
  have hlen : (words.dropLast ++ [words.getLast hw ++ "."]).length = words.length := by
    have := List.length_pos.mpr hw
    rw [List.length_append, List.length_dropLast, List.length_singleton]
    omega
  unfold handleDeadEnd at h
  rw [List.getLast?_eq_getLast words hw] at h
  simp only [hlen, getPrefix_rand] at h
  refine ⟨hw, ?_⟩
  split at h
  · rename_i h3
    cases hg : getPrefixByNumericalIndex s (s.rand (len s.freqs)).1 with
    | none => rw [hg] at h; exact Option.noConfusion h
    | some p =>
      rw [hg] at h
      simp only at h
      cases hsp : split p with
      | nil => rw [hsp] at h; exact Option.noConfusion h
      | cons a rest =>
        rw [hsp] at h
        simp only [Option.some.injEq] at h
        refine ⟨Title U a :: rest, by rw [← h], by rw [← h]; rfl, by rw [← h]; rfl,
          Or.inl ⟨h3, p, a, rest, rfl, hsp, rfl, by rw [← h]⟩⟩
  · rename_i h3
    split at h
    · rename_i h2
      simp only [Option.some.injEq] at h
      exact ⟨["You", "heard"], by rw [← h], by rw [← h], by rw [← h],
        Or.inr (Or.inl ⟨h3, h2, rfl, by rw [← h]⟩)⟩
    · rename_i h2
      simp only [Option.some.injEq] at h
      exact ⟨["amen"], by rw [← h], by rw [← h], by rw [← h],
        Or.inr (Or.inr ⟨h3, h2, rfl, by rw [← h]⟩)⟩

theorem chooseAdjoiningWord_some {σ : Type} (s : Model σ) (m : GoMap Nat) (r : String × Model σ)
    (h : chooseAdjoiningWord s m = some r) : r.2.freqs = s.freqs ∧ r.2.prng = s.prng := by
  rw [chooseAdjoiningWord_eq] at h
  split at h
  · exact Option.noConfusion h
  · cases hk : (sortStrings (expand m))[(s.rand (total m)).1.toNat]? with
    | none => rw [hk] at h; exact Option.noConfusion h
    | some w =>
      rw [hk] at h
      simp only [Option.map_some', Option.some.injEq] at h
      rw [← h]
      exact ⟨rfl, rfl⟩

/-- What an iteration of the loop does to the state, whatever the table: the word sequence had two
words or more, it grows, its first word stays, and the table and the prng function are kept. -/
theorem loopStep_some {σ : Type} (U : Unicode) (numWords : Int) (st st' : List String × Model σ)
    (h : loopStep U numWords st = some st') :
    2 ≤ st.1.length ∧ st.1.length < st'.1.length ∧ st'.2.freqs = st.2.freqs ∧
      st'.2.prng = st.2.prng ∧ st'.1.head? = st.1.head? := by
  unfold loopStep at h
  split at h
  · exact Option.noConfusion h
  · rename_i h2
    have h2' : 2 ≤ st.1.length := by omega
    have hhead : ∀ (l app : List String), 2 ≤ l.length → (l ++ app).head? = l.head? := by
      intro l app hl
      match l, hl with
      | a :: b :: rest, _ => rfl
    split at h
    · obtain ⟨hw, app, hr, hf, hp, hforms⟩ := handleDeadEnd_some U st.2 st.1 numWords st' h
      have happ : 1 ≤ app.length := by
        rcases hforms with ⟨-, p, a, rest, -, -, rfl, -⟩ | ⟨-, -, rfl, -⟩ | ⟨-, -, rfl, -⟩ <;> simp
      have hlen : st'.1.length = st.1.length + app.length := by
        rw [hr]
        simp only [List.length_append, List.length_dropLast, List.length_singleton]
        omega
      refine ⟨h2', by omega, hf, hp, ?_⟩
      rw [hr, List.append_assoc]
      match hst : st.1, h2', hw with
      | a :: b :: rest, _, _ => simp
    · rename_i m hl
      cases hc : chooseAdjoiningWord st.2 m with
      | none => rw [hc] at h; exact Option.noConfusion h
      | some r =>
        rw [hc] at h
        simp only [Option.map_some', Option.some.injEq] at h
        obtain ⟨hf, hp⟩ := chooseAdjoiningWord_some st.2 m r hc
        rw [← h]
        exact ⟨h2', by simp, hf, hp, hhead st.1 [r.1] h2'⟩

/-- On a table whose keys are pairs of a-z words, for a target that is a Go `int` and not reached
yet, an iteration adds one or two words and does not pass the target. -/
theorem loopStep_bound {σ : Type} (U : Unicode) (numWords : Int) (st st' : List String × Model σ)
    (hkeys : WordKeys st.2.freqs) (hint : numWords < 9223372036854775808)
    (hlt : (st.1.length : Int) < numWords) (h : loopStep U numWords st = some st') :
    st'.1.length ≤ st.1.length + 2 ∧ (st'.1.length : Int) ≤ numWords := by
  have h2 := (loopStep_some U numWords st st' h).1
  unfold loopStep at h
  rw [if_neg (by omega)] at h
  split at h
  · obtain ⟨hw, app, hr, -, -, hforms⟩ := handleDeadEnd_some U st.2 st.1 numWords st' h
    have hlen : st'.1.length = st.1.length + app.length := by
      rw [hr]
      simp only [List.length_append, List.length_dropLast, List.length_singleton]
      omega
    have hw3 : wrapInt (numWords - 3) = numWords - 3 := wrapInt_of_int (by omega) (by omega)
    have hw2 : wrapInt (numWords - 2) = numWords - 2 := wrapInt_of_int (by omega) (by omega)
    rw [hw3, hw2] at hforms
    rcases hforms with ⟨h3, p, a, rest, hg, hsp, rfl, -⟩ | ⟨-, he, rfl, -⟩ | ⟨-, -, rfl, -⟩
    · obtain ⟨w1, w2, rfl, hw1, hw2'⟩ := hkeys p (getPrefix_mem _ _ _ hg)
      rw [split_pair (noSpace_of_isWord hw1) (noSpace_of_isWord hw2')] at hsp
      obtain ⟨-, rfl⟩ := List.cons.inj hsp
      simp only [List.length_cons, List.length_nil] at hlen
      omega
    · simp only [List.length_cons, List.length_nil] at hlen
      omega
    · simp only [List.length_cons, List.length_nil] at hlen
      omega
  · rename_i m hl
    cases hc : chooseAdjoiningWord st.2 m with
    | none => rw [hc] at h; exact Option.noConfusion h
    | some r =>
      rw [hc] at h
      simp only [Option.map_some', Option.some.injEq] at h
      rw [← h]
      simp only [List.length_append, List.length_singleton]
      omega

/-! ## Keys are made of `a`..`z` and one space -/

theorem isWord_chars {w : String} (h : isWord w = true) :
    w.data ≠ [] ∧ ∀ c ∈ w.data, 97 ≤ c.toNat ∧ c.toNat ≤ 122 := by
  unfold isWord at h
  simp only [Bool.and_eq_true, List.all_eq_true, decide_eq_true_eq, Bool.not_eq_true',
    List.isEmpty_eq_false] at h
  exact h

theorem keyChar_of_mem_key {T : GoMap (GoMap Nat)} (hkeys : WordKeys T) {p : String}
    (hp : p ∈ keys T) : ∀ c ∈ p.data, keyChar c := by
  obtain ⟨w1, w2, rfl, h1, h2⟩ := hkeys p hp
  intro c hc
  have hd : (w1 ++ " " ++ w2).data = w1.data ++ ' ' :: w2.data := by
    simp [String.data_append]
  rw [hd, List.mem_append, List.mem_cons] at hc
  rcases hc with hc | hc | hc
  · exact Or.inr ((isWord_chars h1).2 c hc)
  · exact Or.inl hc
  · exact Or.inr ((isWord_chars h2).2 c hc)

/-- A string that holds a code point other than a space and `a`..`z` is not a key. -/
theorem lookup_none_of_char {T : GoMap (GoMap Nat)} (hkeys : WordKeys T) {q : String} {c : Char}
    (hc : c ∈ q.data) (hbad : ¬ keyChar c) : lookup T q = none := by
  rw [lookup_eq_none_iff]
  intro hq
  exact hbad (keyChar_of_mem_key hkeys hq c hc)

theorem join_pair (a b : String) : (join [a, b]).data = a.data ++ ' ' :: b.data := by
  simp [join, List.intercalate]

theorem toNat_ofNat_sub {c : Char} (h1 : 97 ≤ c.toNat) (h2 : c.toNat ≤ 122) :
    (Char.ofNat (c.toNat - 32)).toNat = c.toNat - 32 := by
  have hv : (c.toNat - 32).isValidChar := Or.inl (by omega)
  rw [Char.ofNat, dif_pos hv]
  simp [Char.toNat, Char.ofNatAux, UInt32.toNat]

/-- A capitalised word starts with one of `A`..`Z`. -/
theorem capitalise_head {w : String} (h : isWord w = true) :
    ∃ c cs, (capitalise w).data = c :: cs ∧ 65 ≤ c.toNat ∧ c.toNat ≤ 90 := by
  obtain ⟨hne, hall⟩ := isWord_chars h
  unfold capitalise
  cases hw : w.data with
  | nil => exact absurd hw hne
  | cons c cs =>
    rw [hw] at hall
    have hc := hall c (List.mem_cons_self c cs)
    refine ⟨Char.ofNat (c.toNat - 32), cs, rfl, ?_, ?_⟩ <;>
      rw [toNat_ofNat_sub hc.1 hc.2] <;> omega

theorem not_keyChar_of_upper {c : Char} (h1 : 65 ≤ c.toNat) (h2 : c.toNat ≤ 90) : ¬ keyChar c := by
  rintro (h | h)
  · rw [h] at h1
    revert h1
    decide
  · omega

/-- After `handleDeadEnd`, the last two words do not make a key of a table of a-z words: the loop,
if it goes on, is at a dead end again. -/
theorem deadEnd_after_handleDeadEnd {σ : Type} (U : Unicode) (s : Model σ) (words : List String)
    (numWords : Int) (r : List String × Model σ) (hkeys : WordKeys s.freqs)
    (h : handleDeadEnd U s words numWords = some r) : DeadEnd r := by
  obtain ⟨hw, app, hr, hf, -, hforms⟩ := handleDeadEnd_some U s words numWords r h
  have hkeys' : WordKeys r.2.freqs := by rw [hf]; exact hkeys
  have hdl : words.dropLast.length + 1 = words.length := by
    have := List.length_pos.mpr hw
    rw [List.length_dropLast]
    omega
  have two : ∀ (x y : String) (c : Char), c ∈ x.data → ¬ keyChar c →
      r.1 = words.dropLast ++ [words.getLast hw ++ "."] ++ [x, y] → DeadEnd r := by
    intro x y c hc hbad hr'
    have hlen : r.1.length = (words.dropLast ++ [words.getLast hw ++ "."]).length + 2 := by
      rw [hr']; simp
    have hdrop : r.1.drop (r.1.length - 2) = [x, y] := by
      rw [hlen, Nat.add_sub_cancel, hr', List.drop_left]
    refine ⟨by omega, ?_⟩
    rw [hdrop]
    apply lookup_none_of_char hkeys' (c := c) _ hbad
    rw [join_pair]
    exact List.mem_append_left _ hc
  rcases hforms with ⟨-, p, a, rest, hg, hsp, rfl, -⟩ | ⟨-, -, rfl, -⟩ | ⟨-, -, rfl, -⟩
  · obtain ⟨w1, w2, rfl, hw1, hw2⟩ := hkeys p (getPrefix_mem _ _ _ hg)
    rw [split_pair (noSpace_of_isWord hw1) (noSpace_of_isWord hw2)] at hsp
    obtain ⟨rfl, rfl⟩ := List.cons.inj hsp
    obtain ⟨c, cs, hcap, hc1, hc2⟩ := capitalise_head hw1
    refine two _ _ c ?_ (not_keyChar_of_upper hc1 hc2) hr
    rw [Title_of_isWord U hw1, hcap]
    exact List.mem_cons_self c cs
  · exact two "You" "heard" 'Y' (by decide) (by unfold keyChar; decide) hr
  · have hlen : r.1.length = words.dropLast.length + 2 := by
      rw [hr]; simp
    have hdrop : r.1.drop (r.1.length - 2) = [words.getLast hw ++ ".", "amen"] := by
      rw [hlen, Nat.add_sub_cancel, hr, List.append_assoc, List.drop_left]
      rfl
    refine ⟨by omega, ?_⟩
    rw [hdrop]
    apply lookup_none_of_char hkeys' (c := '.') _ (by unfold keyChar; decide)
    rw [join_pair, String.data_append]
    apply List.mem_append_left
    apply List.mem_append_right
    decide

/-- Once at a dead end, always at a dead end: in a table of a-z words, the iteration after a call
of `handleDeadEnd` calls `handleDeadEnd` again. -/
theorem deadEnd_step {σ : Type} (U : Unicode) (numWords : Int) (st st' : List String × Model σ)
    (hkeys : WordKeys st.2.freqs) (hd : DeadEnd st) (h : loopStep U numWords st = some st') :
    DeadEnd st' ∧ handleDeadEnd U st.2 st.1 numWords = some st' := by
  have hstep : loopStep U numWords st = handleDeadEnd U st.2 st.1 numWords := by
    unfold loopStep
    rw [if_neg (by have := hd.1; omega), hd.2]
  rw [hstep] at h
  exact ⟨deadEnd_after_handleDeadEnd U st.2 st.1 numWords st' hkeys h, h⟩

/-! ## On a table of a-z words the `unicode` tables are never consulted -/

theorem handleDeadEnd_unicode {σ : Type} (U U' : Unicode) (s : Model σ) (words : List String)
    (numWords : Int) (hkeys : WordKeys s.freqs) :
    handleDeadEnd U s words numWords = handleDeadEnd U' s words numWords := by
  unfold handleDeadEnd
  cases words.getLast? with
  | none => rfl
  | some last =>
    simp only [getPrefix_rand]
    split
    · cases hg : getPrefixByNumericalIndex s (s.rand (len s.freqs)).1 with
      | none => rfl
      | some p =>
        obtain ⟨w1, w2, rfl, hw1, hw2⟩ := hkeys p (getPrefix_mem _ _ _ hg)
        simp only [split_pair (noSpace_of_isWord hw1) (noSpace_of_isWord hw2),
          Title_of_isWord U hw1, Title_of_isWord U' hw1]
    · rfl

theorem loopStep_unicode {σ : Type} (U U' : Unicode) (numWords : Int)
    (st : List String × Model σ) (hkeys : WordKeys st.2.freqs) :
    loopStep U numWords st = loopStep U' numWords st := by
  unfold loopStep
  rw [handleDeadEnd_unicode U U' st.2 st.1 numWords hkeys]

theorem generateLoop_unicode {σ : Type} (U U' : Unicode) (numWords : Int) (fuel : Nat) :
    ∀ (s : Model σ) (words : List String), WordKeys s.freqs →
      generateLoop U numWords fuel s words = generateLoop U' numWords fuel s words := by
  induction fuel with
  | zero =>
    intro s words _
    by_cases he : (words.length : Int) = numWords
    · rw [generateLoop_of_eq U numWords 0 s words he, generateLoop_of_eq U' numWords 0 s words he]
    · rw [generateLoop_zero U numWords s words he, generateLoop_zero U' numWords s words he]
  | succ fuel ih =>
    intro s words hkeys
    rw [generateLoop_step, generateLoop_step, loopStep_unicode U U' numWords (words, s) hkeys]
    split
    · rfl
    · cases hs : loopStep U' numWords (words, s) with
      | none => rfl
      | some st =>
        have hf := (loopStep_some U' numWords (words, s) st hs).2.2.1
        exact ih st.2 st.1 (by rw [hf]; exact hkeys)

/-- The loop keeps the first word of a sequence of two words or more. -/
theorem generateLoop_head {σ : Type} (U : Unicode) (numWords : Int) (fuel : Nat) :
    ∀ (s : Model σ) (words : List String) (r : List String × Model σ), 2 ≤ words.length →
      generateLoop U numWords fuel s words = Run.done r → r.1.head? = words.head? := by
  induction fuel with
  | zero =>
    intro s words r _ h
    by_cases he : (words.length : Int) = numWords
    · rw [generateLoop_of_eq U numWords 0 s words he] at h
      cases h
      rfl
    · rw [generateLoop_zero U numWords s words he] at h
      exact Run.noConfusion h
  | succ fuel ih =>
    intro s words r h2 h
    rw [generateLoop_step] at h
    split at h
    · cases h
      rfl
    · cases hs : loopStep U numWords (words, s) with
      | none => rw [hs] at h; exact Run.noConfusion h
      | some st =>
        rw [hs] at h
        obtain ⟨-, hlt, -, -, hh⟩ := loopStep_some U numWords (words, s) st hs
        exact (ih st.2 st.1 r (by simp only at hlt; omega) h).trans hh

/-- On a table whose keys are pairs of a-z words, `Generate` returns the same whatever the
`unicode` tables hold above ASCII. -/
theorem Generate_unicode {σ : Type} (U U' : Unicode) (fuel : Nat) (s : Model σ) (numWords : Int)
    (hkeys : WordKeys s.freqs) :
    Generate U fuel s numWords = Generate U' fuel s numWords := by
  by_cases hne : s.freqs = []
  · have h0 : len s.freqs = 0 := by rw [hne]; rfl
    unfold Generate
    rw [if_pos h0, if_pos h0]
  · rw [Generate_eq U fuel s numWords hne, Generate_eq U' fuel s numWords hne]
    cases hg : getPrefixByNumericalIndex s (s.rand (len s.freqs)).1 with
    | none => rfl
    | some p =>
      obtain ⟨w1, w2, rfl, hw1, hw2⟩ := hkeys p (getPrefix_mem _ _ _ hg)
      have hsp := split_pair (noSpace_of_isWord hw1) (noSpace_of_isWord hw2)
      simp only [hsp]
      split
      · rw [Title_of_isWord U hw1, Title_of_isWord U' hw1]
      · rw [generateLoop_unicode U U' numWords fuel (s.rand (len s.freqs)).2 [w1, w2] hkeys]
        cases hl : generateLoop U' numWords fuel (s.rand (len s.freqs)).2 [w1, w2] with
        | panic => rfl
        | timeout => rfl
        | done r =>
          have hh := generateLoop_head U' numWords fuel _ _ r (by simp) hl
          obtain ⟨words, s'⟩ := r
          cases words with
          | nil => rfl
          | cons w rest =>
            simp only [List.head?_cons, Option.some.injEq] at hh
            simp only [hh, Title_of_isWord U hw1, Title_of_isWord U' hw1]

theorem wordKeys_addAll {σ : Type} (prng : σ → Int → Int × σ) (st : σ) (ts : List Trigram)
    (hwords : ∀ t ∈ ts, isWordTrigram t = true) : WordKeys (addAll (New prng st) ts).freqs := by
  intro p hp
  rw [mem_keys_addAll] at hp
  rcases hp with hp | ⟨t, ht, rfl⟩
  · simp [New, keys] at hp
  · have hw := hwords t ht
    unfold isWordTrigram at hw
    simp only [Bool.and_eq_true] at hw
    exact ⟨t.Word1, t.Word2, rfl, hw.1.1, hw.1.2⟩

/-- More fuel does not change what `Generate` returns. -/
theorem Generate_mono {σ : Type} (U : Unicode) (fuel : Nat) (s : Model σ) (numWords : Int)
    (r : (String × Option String) × Model σ) (h : Generate U fuel s numWords = Run.done r)
    (k : Nat) : Generate U (fuel + k) s numWords = Run.done r := by
  by_cases hne : s.freqs = []
  · have h0 : len s.freqs = 0 := by rw [hne]; rfl
    unfold Generate at h ⊢
    rw [if_pos h0] at h ⊢
    exact h
  · rw [Generate_eq U _ s numWords hne] at h ⊢
    cases hg : getPrefixByNumericalIndex s (s.rand (len s.freqs)).1 with
    | none => rw [hg] at h; exact Run.noConfusion h
    | some p =>
      rw [hg] at h
      simp only at h ⊢
      by_cases h1 : numWords = 1
      · rw [if_pos h1] at h ⊢
        exact h
      · rw [if_neg h1] at h ⊢
        cases hl : generateLoop U numWords fuel (s.rand (len s.freqs)).2 (split p) with
        | panic => rw [hl] at h; exact Run.noConfusion h
        | timeout => rw [hl] at h; exact Run.noConfusion h
        | done r' =>
          rw [generateLoop_mono U numWords fuel _ _ r' hl k]
          rw [hl] at h
          exact h

/-! ## The runs of `TestGenerate` -/

theorem wordKeys_testModel (c : Nat) : WordKeys (withCounter testModel c).freqs :=
  wordKeys_addAll mockPRNG 0 testTrigrams (by decide)

/-- A run of the model of the tests from what it returns with the ASCII tables and some fuel: the
same comes out with any tables and any more fuel. -/
theorem testModel_run (U : Unicode) (c : Nat) (numWords : Int) (base fuel : Nat)
    (r : (String × Option String) × Model Nat) (hfuel : base ≤ fuel)
    (h : Generate asciiOnly base (withCounter testModel c) numWords = Run.done r) :
    Generate U fuel (withCounter testModel c) numWords = Run.done r := by
  obtain ⟨k, rfl⟩ : ∃ k, fuel = base + k := ⟨fuel - base, by omega⟩
  rw [Generate_unicode U asciiOnly _ _ _ (wordKeys_testModel c)]
  exact Generate_mono asciiOnly base _ numWords r h k

/-- C11: with the model trained by `Add` on the eight trigrams of "to be or not to be that is the
question" and the prng that returns its call counter modulo the bound, the counter starting at 0,
four successive `Generate` calls with `N` = 10, 9, 7, 8 (each with fuel for `N - 2` iterations or
more, and whatever the `unicode` tables) return without error exactly
"Be or not to be or not to be or.", "Is the question. Or not. That is. You heard.",
"To be or not to be or." and "That is the question. Be that. You heard."; each call starts with
the prng as the call before left it. -/
theorem Generate_test_runs (U : Unicode) (f1 f2 f3 f4 : Nat) (h1 : 8 ≤ f1) (h2 : 7 ≤ f2)
    (h3 : 5 ≤ f3) (h4 : 6 ≤ f4) :
    ∃ s1 s2 s3 s4 : Model Nat,
      Generate U f1 (addAll (New mockPRNG 0) testTrigrams) 10 =
        Run.done (("Be or not to be or not to be or.", none), s1) ∧
      Generate U f2 s1 9 =
        Run.done (("Is the question. Or not. That is. You heard.", none), s2) ∧
      Generate U f3 s2 7 = Run.done (("To be or not to be or.", none), s3) ∧
      Generate U f4 s3 8 =
        Run.done (("That is the question. Be that. You heard.", none), s4) :=
  ⟨withCounter testModel 9, withCounter testModel 13, withCounter testModel 19,
    withCounter testModel 23,
    testModel_run U 0 10 8 f1 _ h1 rfl, testModel_run U 9 9 7 f2 _ h2 rfl,
    testModel_run U 13 7 5 f3 _ h3 rfl, testModel_run U 19 8 6 f4 _ h4 rfl⟩

/-- C11 with the ASCII tables and exactly the fuel for `N - 2` iterations. -/
theorem Generate_test_runs_witness :
    ∃ s1 s2 s3 s4 : Model Nat,
      Generate asciiOnly 8 (addAll (New mockPRNG 0) testTrigrams) 10 =
        Run.done (("Be or not to be or not to be or.", none), s1) ∧
      Generate asciiOnly 7 s1 9 =
        Run.done (("Is the question. Or not. That is. You heard.", none), s2) ∧
      Generate asciiOnly 5 s2 7 = Run.done (("To be or not to be or.", none), s3) ∧
      Generate asciiOnly 6 s3 8 =
        Run.done (("That is the question. Be that. You heard.", none), s4) :=
  Generate_test_runs asciiOnly 8 7 5 6 (by decide) (by decide) (by decide) (by decide)

/-! ## Invariants of the table `Add` builds -/

theorem occurrences_replicate (n : Nat) (t : Trigram) :
    occurrences (List.replicate n t) (keyOf t) t.Word3 = n := by
  unfold occurrences
  rw [List.countP_replicate]
  simp

/-- C12, as stated, fails: after the trigram ("a", "a", "a") has been added 2^64 times to a new
model, the count stored for it has wrapped to 0. -/
theorem Add_count_zero_after_wrap :
    entry (addAll (New mockPRNG 0) (List.replicate uintSize ⟨"a", "a", "a"⟩)).freqs "a a" "a" =
      some 0 := by
  have hocc : occurrences (List.replicate uintSize ⟨"a", "a", "a"⟩) "a a" "a" = uintSize :=
    occurrences_replicate uintSize ⟨"a", "a", "a"⟩
  rw [entry_addAll, hocc, if_neg (by decide)]
  have hc : count (New mockPRNG 0).freqs "a a" "a" = 0 := rfl
  rw [hc, Nat.zero_add, Nat.mod_self]

/-- C12, amended: in every model reached from `New` by a sequence of `Add` calls, a key is present
if and only if at least one added trigram had that key (word1 + " " + word2); every key present
has a non-empty successor map; and every stored count is the number of times its (key, successor)
pair was added, which is at least 1, reduced modulo 2^64: so every stored count is at least 1
when no pair was added 2^64 times or more. -/
theorem Add_invariant {σ : Type} (prng : σ → Int → Int × σ) (st : σ) (ts : List Trigram) :
    (∀ p, (lookup (addAll (New prng st) ts).freqs p).isSome = true ↔
      ∃ t ∈ ts, t.Word1 ++ " " ++ t.Word2 = p) ∧
    (∀ p m, lookup (addAll (New prng st) ts).freqs p = some m → m ≠ []) ∧
    (∀ p w c, entry (addAll (New prng st) ts).freqs p w = some c →
      1 ≤ occurrences ts p w ∧ c = occurrences ts p w % uintSize) ∧
    ((∀ p w, occurrences ts p w < uintSize) →
      ∀ p w c, entry (addAll (New prng st) ts).freqs p w = some c → 1 ≤ c) := by
  have hentry : ∀ p w c, entry (addAll (New prng st) ts).freqs p w = some c →
      1 ≤ occurrences ts p w ∧ c = occurrences ts p w % uintSize := by
    intro p w c h
    rw [entry_addAll] at h
    have h0 : entry (New prng st).freqs p w = none := rfl
    have hc : count (New prng st).freqs p w = 0 := rfl
    rw [h0, hc, Nat.zero_add] at h
    split at h
    · exact Option.noConfusion h
    · rename_i hne
      simp only [Option.some.injEq] at h
      exact ⟨by omega, h.symm⟩
  have hpresent : ∀ p, (lookup (addAll (New prng st) ts).freqs p).isSome = true ↔
      ∃ t ∈ ts, t.Word1 ++ " " ++ t.Word2 = p := by
    intro p
    rw [lookup_isSome_iff_mem_keys, mem_keys_addAll]
    constructor
    · rintro (h | h)
      · simp [New, keys] at h
      · exact h
    · exact Or.inr
  refine ⟨hpresent, ?_, hentry, ?_⟩
  · intro p m hl hnil
    have hp : (lookup (addAll (New prng st) ts).freqs p).isSome = true := by rw [hl]; rfl
    obtain ⟨t, ht, hkey⟩ := (hpresent p).mp hp
    have hne : occurrences ts p t.Word3 ≠ 0 :=
      (occurrences_pos_iff ts p t.Word3).mpr ⟨t, ht, hkey, rfl⟩
    have he := entry_addAll (New prng st) ts p t.Word3
    rw [if_neg hne] at he
    unfold entry at he
    rw [hl, hnil] at he
    exact Option.noConfusion he
  · intro hocc p w c h
    obtain ⟨h1, hc⟩ := hentry p w c h
    rw [hc, Nat.mod_eq_of_lt (hocc p w)]
    exact h1

/-! ## Sums of counts -/

theorem total_cons (k : String) (v : Nat) (rest : GoMap Nat) :
    total ((k, v) :: rest) = v + total rest := by
  simp [total]

theorem total_store_none {m : GoMap Nat} {w : String} (h : lookup m w = none) (c : Nat) :
    total (store m w c) = total m + c := by
  induction m with
  | nil => simp [store, total]
  | cons kv rest ih =>
    obtain ⟨k, v⟩ := kv
    by_cases hk : k = w
    · simp [lookup, hk] at h
    · simp only [lookup, hk, if_false] at h
      simp only [store, hk, if_false]
      rw [total_cons, total_cons, ih h]
      omega

theorem total_store_some {m : GoMap Nat} {w : String} {c0 : Nat} (h : lookup m w = some c0)
    (c : Nat) : total (store m w c) + c0 = total m + c := by
  induction m with
  | nil => simp [lookup] at h
  | cons kv rest ih =>
    obtain ⟨k, v⟩ := kv
    by_cases hk : k = w
    · simp only [lookup, hk, if_true, Option.some.injEq] at h
      simp only [store, hk, if_true]
      rw [total_cons, total_cons, h]
      omega
    · simp only [lookup, hk, if_false] at h
      simp only [store, hk, if_false]
      rw [total_cons, total_cons]
      have := ih h
      omega

theorem grandTotal_cons (k : String) (m : GoMap Nat) (rest : GoMap (GoMap Nat)) :
    grandTotal ((k, m) :: rest) = total m + grandTotal rest := by
  simp [grandTotal]

/-- Writing a successor map under a key changes the sum of all counts by what the map adds to
what the key held before. -/
theorem grandTotal_store (T : GoMap (GoMap Nat)) (p : String) (m' : GoMap Nat) :
    grandTotal (store T p m') + keyTotal T p = grandTotal T + total m' := by
  induction T with
  | nil => simp [store, grandTotal, keyTotal, lookup]
  | cons kv rest ih =>
    obtain ⟨k, m⟩ := kv
    by_cases hk : k = p
    · simp only [store, hk, if_true, keyTotal, lookup]
      rw [grandTotal_cons, grandTotal_cons]
      omega
    · have hkt : keyTotal ((k, m) :: rest) p = keyTotal rest p := by
        simp only [keyTotal, lookup, hk, if_false]
      simp only [store, hk, if_false]
      rw [grandTotal_cons, grandTotal_cons, hkt]
      omega

theorem keyTotal_store_self (T : GoMap (GoMap Nat)) (p : String) (m' : GoMap Nat) :
    keyTotal (store T p m') p = total m' := by
  unfold keyTotal
  rw [lookup_store_self]

theorem keyTotal_store_ne (T : GoMap (GoMap Nat)) {p q : String} (h : p ≠ q) (m' : GoMap Nat) :
    keyTotal (store T p m') q = keyTotal T q := by
  unfold keyTotal
  rw [lookup_store_ne T h]

/-- One `Add` whose count does not wrap adds 1 to the sum under its key. -/
theorem Add_total {σ : Type} (s : Model σ) (t : Trigram)
    (hno : count s.freqs (keyOf t) t.Word3 + 1 < uintSize) :
    ∃ m', (Add s t).freqs = store s.freqs (keyOf t) m' ∧
      total m' = keyTotal s.freqs (keyOf t) + 1 := by
  obtain ⟨m', h, hc⟩ := Add_cases s t
  refine ⟨m', by rw [h], ?_⟩
  unfold count entry at hno
  unfold keyTotal
  rcases hc with ⟨hl, rfl⟩ | ⟨m, hl, hw, rfl⟩ | ⟨m, c, hl, hw, rfl⟩
  · rw [hl]
    simp [total]
  · rw [hl, total_store_none hw]
  · rw [hl] at hno ⊢
    have hno' : c + 1 < uintSize := by
      have e : ((some m).bind fun m => lookup m t.Word3).getD 0 = c := by
        show (lookup m t.Word3).getD 0 = c
        rw [hw]; rfl
      rw [e] at hno
      exact hno
    have := total_store_some hw ((c + 1) % uintSize)
    rw [Nat.mod_eq_of_lt hno'] at this
    show total (store m t.Word3 ((c + 1) % uintSize)) = total m + 1
    rw [Nat.mod_eq_of_lt hno']
    omega

theorem keyTotal_Add {σ : Type} (s : Model σ) (t : Trigram)
    (hno : count s.freqs (keyOf t) t.Word3 + 1 < uintSize) (p : String) :
    keyTotal (Add s t).freqs p = keyTotal s.freqs p + if keyOf t = p then 1 else 0 := by
  obtain ⟨m', h, ht⟩ := Add_total s t hno
  rw [h]
  by_cases hk : keyOf t = p
  · subst hk
    rw [keyTotal_store_self, ht, if_pos rfl]
  · rw [keyTotal_store_ne _ hk, if_neg hk, Nat.add_zero]

theorem grandTotal_Add {σ : Type} (s : Model σ) (t : Trigram)
    (hno : count s.freqs (keyOf t) t.Word3 + 1 < uintSize) :
    grandTotal (Add s t).freqs = grandTotal s.freqs + 1 := by
  obtain ⟨m', h, ht⟩ := Add_total s t hno
  have := grandTotal_store s.freqs (keyOf t) m'
  rw [h]
  omega

theorem count_Add_le {σ : Type} (s : Model σ) (t : Trigram) (p w : String) :
    count (Add s t).freqs p w ≤
      count s.freqs p w + if keyOf t = p ∧ t.Word3 = w then 1 else 0 := by
  unfold count
  rw [entry_Add]
  split
  · exact Nat.mod_le _ _
  · exact Nat.le_refl _

theorem occurrences_cons (t : Trigram) (ts : List Trigram) (p w : String) :
    occurrences (t :: ts) p w =
      occurrences ts p w + if keyOf t = p ∧ t.Word3 = w then 1 else 0 := by
  unfold occurrences
  rw [List.countP_cons]
  simp

/-- While no count wraps, the sums of counts follow the number of trigrams added. -/
theorem totals_addAll {σ : Type} (ts : List Trigram) :
    ∀ s : Model σ, (∀ p w, count s.freqs p w + occurrences ts p w < uintSize) →
      grandTotal (addAll s ts).freqs = grandTotal s.freqs + ts.length ∧
      ∀ p, keyTotal (addAll s ts).freqs p =
        keyTotal s.freqs p + ts.countP fun t => decide (keyOf t = p) := by
  induction ts with
  | nil =>
    intro s _
    exact ⟨rfl, fun _ => rfl⟩
  | cons t ts ih =>
    intro s h
    have hno : count s.freqs (keyOf t) t.Word3 + 1 < uintSize := by
      have := h (keyOf t) t.Word3
      rw [occurrences_cons, if_pos ⟨rfl, rfl⟩] at this
      omega
    have h' : ∀ p w, count (Add s t).freqs p w + occurrences ts p w < uintSize := by
      intro p w
      have h1 := h p w
      rw [occurrences_cons] at h1
      have h2 := count_Add_le s t p w
      omega
    obtain ⟨hg, hk⟩ := ih (Add s t) h'
    rw [addAll_cons]
    refine ⟨?_, fun p => ?_⟩
    · rw [hg, grandTotal_Add s t hno, List.length_cons]
      omega
    · rw [hk, keyTotal_Add s t hno, List.countP_cons]
      by_cases hkey : keyOf t = p
      · simp only [hkey, if_true, decide_True]
        omega
      · simp only [hkey, if_false, decide_False]
        simp

/-- C20: for every list of trigrams added by `Add` to a new model, the counts taken as unbounded
naturals (no (key, successor) pair is added 2^64 times or more, so that no `uint` count wraps): the
sum of all counts in the frequency table equals the number of `Add` calls; for every key the sum
of its successor counts equals the number of added trigrams with that key; and this sum is the
bound `chooseAdjoiningWord` passes to the prng when it is given the successor map of the key. -/
theorem Add_count_sums {σ : Type} (prng : σ → Int → Int × σ) (st : σ) (ts : List Trigram)
    (hocc : ∀ p w, occurrences ts p w < uintSize) :
    grandTotal (addAll (New prng st) ts).freqs = ts.length ∧
    (∀ p, keyTotal (addAll (New prng st) ts).freqs p =
      ts.countP fun t => decide (t.Word1 ++ " " ++ t.Word2 = p)) ∧
    (∀ p m, lookup (addAll (New prng st) ts).freqs p = some m →
      total m = (ts.countP fun t => decide (t.Word1 ++ " " ++ t.Word2 = p)) ∧
      ∀ (s : Model σ) (log : List Int) (r : String × Model (σ × List Int)),
        chooseAdjoiningWord (withLog s log) m = some r →
        r.2.state.2 =
          log ++ [((ts.countP fun t => decide (t.Word1 ++ " " ++ t.Word2 = p) : Nat) : Int)]) := by
  have h0 : ∀ p w, count (New prng st).freqs p w + occurrences ts p w < uintSize := by
    intro p w
    have hc : count (New prng st).freqs p w = 0 := rfl
    rw [hc, Nat.zero_add]
    exact hocc p w
  obtain ⟨hg, hk⟩ := totals_addAll ts (New prng st) h0
  have hg0 : grandTotal (New prng st).freqs = 0 := rfl
  have hk0 : ∀ p, keyTotal (New prng st).freqs p = 0 := fun _ => rfl
  have hkey : ∀ p, keyTotal (addAll (New prng st) ts).freqs p =
      ts.countP fun t => decide (t.Word1 ++ " " ++ t.Word2 = p) := by
    intro p
    rw [hk p, hk0, Nat.zero_add]
    rfl
  refine ⟨by rw [hg, hg0, Nat.zero_add], hkey, fun p m hl => ?_⟩
  have ht : total m = ts.countP fun t => decide (t.Word1 ++ " " ++ t.Word2 = p) := by
    rw [← hkey p]
    unfold keyTotal
    rw [hl]
  refine ⟨ht, fun s log r hr => ?_⟩
  rw [chooseAdjoiningWord_eq] at hr
  split at hr
  · exact Option.noConfusion hr
  · cases hx : (sortStrings (expand m))[((withLog s log).rand (total m)).1.toNat]? with
    | none => rw [hx] at hr; exact Option.noConfusion hr
    | some w =>
      rw [hx] at hr
      simp only [Option.map_some', Option.some.injEq] at hr
      rw [← hr, ← ht]
      rfl

/-- C20 on the table of the tests: 8 trigrams, 2 of them under the key "to be". -/
theorem Add_count_sums_witness :
    (grandTotal (addAll (New mockPRNG 0) testTrigrams).freqs = testTrigrams.length ∧
    (∀ p, keyTotal (addAll (New mockPRNG 0) testTrigrams).freqs p =
      testTrigrams.countP fun t => decide (t.Word1 ++ " " ++ t.Word2 = p)) ∧
    (∀ p m, lookup (addAll (New mockPRNG 0) testTrigrams).freqs p = some m →
      total m = (testTrigrams.countP fun t => decide (t.Word1 ++ " " ++ t.Word2 = p)) ∧
      ∀ (s : Model Nat) (log : List Int) (r : String × Model (Nat × List Int)),
        chooseAdjoiningWord (withLog s log) m = some r →
        r.2.state.2 =
          log ++ [((testTrigrams.countP fun t =>
            decide (t.Word1 ++ " " ++ t.Word2 = p) : Nat) : Int)])) ∧
    grandTotal testModel.freqs = 8 ∧ keyTotal testModel.freqs "to be" = 2 :=
  ⟨Add_count_sums mockPRNG 0 testTrigrams
      (fun _ _ => lt_of_le_of_lt (List.countP_le_length _) (by decide)),
    by decide, by decide⟩

/-! ## The tokenizer -/

theorem toNat_ofNat_small {n : Nat} (h : n < 55296) : (Char.ofNat n).toNat = n := by
  have hv : n.isValidChar := Or.inl h
  rw [Char.ofNat, dif_pos hv]
  simp [Char.toNat, Char.ofNatAux, UInt32.toNat]

theorem foldl_normalise (lower : Char → Char) (w : List String) :
    ∀ acc : List String,
      w.foldl (fun newWords x =>
          if Normalise lower x ≠ "" then newWords ++ [Normalise lower x] else newWords) acc =
        acc ++ (w.map (Normalise lower)).filter fun x => decide (x ≠ "") := by
  induction w with
  | nil => intro acc; simp
  | cons x xs ih =>
    intro acc
    rw [List.foldl_cons, ih, List.map_cons]
    by_cases h : Normalise lower x = ""
    · simp [h]
    · simp [h]

theorem NormaliseSlice_eq (lower : Char → Char) (w : List String) :
    NormaliseSlice lower w = (w.map (Normalise lower)).filter fun x => decide (x ≠ "") := by
  unfold NormaliseSlice
  rw [foldl_normalise]
  rfl

theorem Normalise_chars (lower : Char → Char) (s : String) :
    ∀ c ∈ (Normalise lower s).data, 97 ≤ c.toNat ∧ c.toNat ≤ 122 := by
  intro c hc
  unfold Normalise at hc
  have := (List.mem_filter.mp hc).2
  simp only [Bool.not_eq_true', Bool.or_eq_false_iff, decide_eq_false_iff_not] at this
  omega

theorem isWord_Normalise (lower : Char → Char) (s : String) (h : Normalise lower s ≠ "") :
    isWord (Normalise lower s) = true := by
  unfold isWord
  simp only [Bool.and_eq_true, List.all_eq_true, decide_eq_true_eq, Bool.not_eq_true',
    List.isEmpty_eq_false]
  refine ⟨fun hnil => h (String.ext hnil), Normalise_chars lower s⟩

theorem normalise_ascii (lower : Char → Char) (l : List Char) (h : ∀ c ∈ l, c.toNat ≤ 0x7F) :
    ((l.map (ToLower lower)).filter fun r => !(decide (r.toNat < 97) || decide (r.toNat > 122))) =
      l.filterMap fun c =>
        if 97 ≤ c.toNat ∧ c.toNat ≤ 122 then some c
        else if 65 ≤ c.toNat ∧ c.toNat ≤ 90 then some (Char.ofNat (c.toNat + 32))
        else none := by
  induction l with
  | nil => rfl
  | cons c cs ih =>
    have hc := h c (List.mem_cons_self c cs)
    have ih' := ih fun d hd => h d (List.mem_cons_of_mem c hd)
    rw [List.map_cons, List.filterMap_cons]
    by_cases hlow : 97 ≤ c.toNat ∧ c.toNat ≤ 122
    · have hl : ToLower lower c = c := by
        unfold ToLower
        rw [if_pos hc, if_neg (by omega)]
      rw [hl, List.filter_cons_of_pos (by simp; omega), if_pos hlow, ih']
    · by_cases hup : 65 ≤ c.toNat ∧ c.toNat ≤ 90
      · have hl : ToLower lower c = Char.ofNat (c.toNat + 32) := by
          unfold ToLower
          rw [if_pos hc, if_pos hup]
        have hn : (Char.ofNat (c.toNat + 32)).toNat = c.toNat + 32 :=
          toNat_ofNat_small (by omega)
        rw [hl, List.filter_cons_of_pos (by simp; omega), if_neg hlow, if_pos hup, ih']
      · have hl : ToLower lower c = c := by
          unfold ToLower
          rw [if_pos hc, if_neg hup]
        rw [hl, List.filter_cons_of_neg (by simp; omega), if_neg hlow, if_neg hup, ih']

/-- C15: for every list of raw tokens, `NormaliseSlice` returns, in the original order, exactly
the non-empty results of applying `Normalise` to each token; every returned token is non-empty and
consists only of the characters `a`..`z` (as does every result of `Normalise`, if not empty); and
for an ASCII token `Normalise` yields its letters lower-cased, every digit, punctuation mark and
other character removed. -/
theorem NormaliseSlice_spec (lower : Char → Char) (w : List String) :
    NormaliseSlice lower w = (w.map (Normalise lower)).filter (fun x => decide (x ≠ "")) ∧
    (∀ x ∈ NormaliseSlice lower w, isWord x = true) ∧
    (∀ s : String, ∀ c ∈ (Normalise lower s).data, 97 ≤ c.toNat ∧ c.toNat ≤ 122) ∧
    (∀ s : String, (∀ c ∈ s.data, c.toNat ≤ 0x7F) → Normalise lower s = lowerLetters s) := by
  refine ⟨NormaliseSlice_eq lower w, fun x hx => ?_, Normalise_chars lower, fun s hs => ?_⟩
  · rw [NormaliseSlice_eq, List.mem_filter, List.mem_map] at hx
    obtain ⟨⟨s, -, rfl⟩, hne⟩ := hx
    exact isWord_Normalise lower s (by simpa using hne)
  · unfold Normalise lowerLetters
    rw [normalise_ascii lower s.data hs]

theorem foldl_trim (scanned : List String) :
    ∀ acc : List String,
      scanned.foldl (fun words text => words ++ [TrimSpace text]) acc =
        acc ++ scanned.map TrimSpace := by
  induction scanned with
  | nil => intro acc; simp
  | cons x xs ih => intro acc; rw [List.foldl_cons, ih]; simp

theorem Parse_eq (scanned : List String) :
    Parse scanned none =
      if scanned.length < 3 then Except.error "input has less than 3 words"
      else Except.ok (scanned.map TrimSpace) := by
  unfold Parse
  simp only [foldl_trim, List.nil_append, List.length_map]

theorem Parse_err (scanned : List String) (err : String) :
    Parse scanned (some err) = Except.error err := rfl

theorem windowLoop_spec (words : List String) :
    ∀ (fuel i : Nat) (acc : List Trigram), words.length - 2 - i ≤ fuel →
      ∃ ts, windowLoop words fuel i acc = Run.done ts ∧
        ts.length = acc.length + (words.length - 2 - i) ∧
        (∀ j, j < acc.length → ts[j]? = acc[j]?) ∧
        ∀ j, i ≤ j → j + 2 < words.length →
          ∃ a b c, words[j]? = some a ∧ words[j + 1]? = some b ∧ words[j + 2]? = some c ∧
            ts[acc.length + (j - i)]? = some ⟨a, b, c⟩ := by
  intro fuel
  induction fuel with
  | zero =>
    intro i acc hf
    have hc : ¬ ((i : Int) < (words.length : Int) - 2) := by omega
    refine ⟨acc, ?_, by omega, fun _ _ => rfl, fun j h1 h2 => by omega⟩
    unfold windowLoop
    rw [if_neg hc]
  | succ fuel ih =>
    intro i acc hf
    by_cases hc : (i : Int) < (words.length : Int) - 2
    · have h0 : i < words.length := by omega
      have h1 : i + 1 < words.length := by omega
      have h2 : i + 2 < words.length := by omega
      obtain ⟨ts, hrun, hlen, hacc, hwin⟩ :=
        ih (i + 1) (acc ++ [⟨words[i], words[i + 1], words[i + 2]⟩]) (by omega)
      refine ⟨ts, ?_, ?_, ?_, ?_⟩
      · rw [windowLoop, if_pos hc]
        simp only [List.getElem?_eq_getElem h0, List.getElem?_eq_getElem h1,
          List.getElem?_eq_getElem h2]
        exact hrun
      · rw [hlen, List.length_append, List.length_singleton]; omega
      · intro j hj
        rw [hacc j (by rw [List.length_append]; omega), List.getElem?_append_left hj]
      · intro j hij hj
        rcases Nat.eq_or_lt_of_le hij with rfl | hlt
        · refine ⟨words[i], words[i + 1], words[i + 2], List.getElem?_eq_getElem h0,
            List.getElem?_eq_getElem h1, List.getElem?_eq_getElem h2, ?_⟩
          rw [Nat.sub_self, Nat.add_zero, hacc acc.length (by simp)]
          simp
        · obtain ⟨a, b, c, ha, hb, hc', hts⟩ := hwin j hlt hj
          refine ⟨a, b, c, ha, hb, hc', ?_⟩
          rw [List.length_append, List.length_singleton] at hts
          have : acc.length + (j - i) = acc.length + 1 + (j - (i + 1)) := by omega
          rw [this]
          exact hts
    · refine ⟨acc, ?_, by omega, fun _ _ => rfl, fun j h1 h2 => by omega⟩
      rw [windowLoop, if_neg hc]

theorem trigramsFromSlice_returns (lower : Char → Char) (words : List String) (fuel : Nat)
    (hfuel : (NormaliseSlice lower words).length - 2 ≤ fuel) :
    ∃ ts, trigramsFromSlice lower fuel words = Run.done ts ∧
      ts.length = (NormaliseSlice lower words).length - 2 ∧
      ∀ i, i + 2 < (NormaliseSlice lower words).length →
        ∃ a b c, (NormaliseSlice lower words)[i]? = some a ∧
          (NormaliseSlice lower words)[i + 1]? = some b ∧
          (NormaliseSlice lower words)[i + 2]? = some c ∧ ts[i]? = some ⟨a, b, c⟩ := by
  obtain ⟨ts, hrun, hlen, -, hwin⟩ :=
    windowLoop_spec (NormaliseSlice lower words) fuel 0 [] (by omega)
  refine ⟨ts, hrun, by simpa using hlen, fun i hi => ?_⟩
  obtain ⟨a, b, c, ha, hb, hc, hts⟩ := hwin i (Nat.zero_le i) hi
  exact ⟨a, b, c, ha, hb, hc, by simpa using hts⟩

/-- C14: for the normalised word sequence `w` of length `n` (the non-empty normalised tokens of
the input, in order), `trigramsFromSlice` returns, with `n - 2` loop iterations available, exactly
`n - 2` trigrams (none, and no failure, when `n < 3`), the `i`-th of which is
`(w[i], w[i+1], w[i+2])`: every window of three consecutive words, in order, duplicates
included. -/
theorem trigramsFromSlice_windows (lower : Char → Char) (words : List String) (fuel : Nat)
    (hfuel : (NormaliseSlice lower words).length - 2 ≤ fuel) :
    ∃ ts, trigramsFromSlice lower fuel words = Run.done ts ∧
      ts.length = (NormaliseSlice lower words).length - 2 ∧
      ((NormaliseSlice lower words).length < 3 → ts = []) ∧
      ∀ i, i + 2 < (NormaliseSlice lower words).length →
        ∃ a b c, (NormaliseSlice lower words)[i]? = some a ∧
          (NormaliseSlice lower words)[i + 1]? = some b ∧
          (NormaliseSlice lower words)[i + 2]? = some c ∧ ts[i]? = some ⟨a, b, c⟩ := by
  obtain ⟨ts, hrun, hlen, hwin⟩ := trigramsFromSlice_returns lower words fuel hfuel
  refine ⟨ts, hrun, hlen, fun hn => ?_, hwin⟩
  apply List.eq_nil_of_length_eq_zero
  omega

/-- Witness for C14 on the word list of the repository's test: eleven raw tokens, ten normalised
words, eight trigrams. -/
theorem trigramsFromSlice_windows_witness :
    (NormaliseSlice id testWords).length - 2 ≤ 8 ∧
    ∃ ts, trigramsFromSlice id 8 testWords = Run.done ts ∧
      ts.length = (NormaliseSlice id testWords).length - 2 ∧
      ((NormaliseSlice id testWords).length < 3 → ts = []) ∧
      ∀ i, i + 2 < (NormaliseSlice id testWords).length →
        ∃ a b c, (NormaliseSlice id testWords)[i]? = some a ∧
          (NormaliseSlice id testWords)[i + 1]? = some b ∧
          (NormaliseSlice id testWords)[i + 2]? = some c ∧ ts[i]? = some ⟨a, b, c⟩ :=
  ⟨by decide, trigramsFromSlice_windows id testWords 8 (by decide)⟩

/-- C13, a defect of the code: `Parse` makes its check `len(words) < 3` on the scanned words,
before `NormaliseSlice` has run. For a file with the three tokens `1`, `2`, `3`, of which no token
remains after normalisation, and for a file with the tokens `a`, `b`, `3`, of which two remain,
the pipeline returns success with an empty trigram sequence and no error, where the claim requires
a failure; for a file with the two tokens `1`, `2` the same check does fail with the error "input
has less than 3 words". -/
theorem ParseFileToNormalisedTrigrams_no_error :
    ParseFileToNormalisedTrigrams id 0 (Except.ok (["1", "2", "3"], none)) =
        Run.done (Except.ok []) ∧
      NormaliseSlice id (["1", "2", "3"].map TrimSpace) = [] ∧
      ParseFileToNormalisedTrigrams id 0 (Except.ok (["a", "b", "3"], none)) =
        Run.done (Except.ok []) ∧
      NormaliseSlice id (["a", "b", "3"].map TrimSpace) = ["a", "b"] ∧
      ParseFileToNormalisedTrigrams id 0 (Except.ok (["1", "2"], none)) =
        Run.done (Except.error "input has less than 3 words") :=
  ⟨rfl, by decide, rfl, by decide, rfl⟩

/-- What the pipeline of the code does on every input: a failure to open the file and a scanner
error are passed on; the error "input has less than 3 words" is returned exactly when the scanner
yields fewer than three words, counted before normalisation; with three or more scanned words the
call returns `n - 2` trigrams and no error, `n` the number of tokens left after normalisation, so
none at all when fewer than three tokens remain. -/
theorem ParseFileToNormalisedTrigrams_cases (lower : Char → Char) (scanned : List String) :
    (∀ fuel err, ParseFileToNormalisedTrigrams lower fuel (Except.error err) =
        Run.done (Except.error err)) ∧
    (∀ fuel err, ParseFileToNormalisedTrigrams lower fuel (Except.ok (scanned, some err)) =
        Run.done (Except.error err)) ∧
    (scanned.length < 3 → ∀ fuel,
      ParseFileToNormalisedTrigrams lower fuel (Except.ok (scanned, none)) =
        Run.done (Except.error "input has less than 3 words")) ∧
    (3 ≤ scanned.length → ∀ fuel,
      (NormaliseSlice lower (scanned.map TrimSpace)).length - 2 ≤ fuel →
      ∃ ts, ParseFileToNormalisedTrigrams lower fuel (Except.ok (scanned, none)) =
          Run.done (Except.ok ts) ∧
        ts.length = (NormaliseSlice lower (scanned.map TrimSpace)).length - 2 ∧
        (ts = [] ↔ (NormaliseSlice lower (scanned.map TrimSpace)).length < 3)) := by
  refine ⟨fun _ _ => rfl, fun _ _ => rfl, fun h fuel => ?_, fun h fuel hfuel => ?_⟩
  · unfold ParseFileToNormalisedTrigrams
    simp only [Parse_eq, if_pos h]
  · obtain ⟨ts, hrun, hlen, -⟩ :=
      trigramsFromSlice_returns lower (scanned.map TrimSpace) fuel hfuel
    refine ⟨ts, ?_, hlen, ?_⟩
    · unfold ParseFileToNormalisedTrigrams
      simp only [Parse_eq, if_neg (Nat.not_lt.mpr h), hrun]
    · constructor
      · intro hnil
        rw [hnil, List.length_nil] at hlen
        omega
      · intro hn
        apply List.eq_nil_of_length_eq_zero
        omega

/-! ## The states of the loop of `Generate` -/

/-- On a table of a-z words the loop starts from the two words of a key. -/
theorem loopStart_some {σ : Type} (s : Model σ) (st0 : List String × Model σ)
    (hkeys : WordKeys s.freqs) (h : loopStart s = some st0) :
    ∃ w1 w2, st0 = ([w1, w2], (s.rand (len s.freqs)).2) ∧ isWord w1 = true ∧ isWord w2 = true ∧
      w1 ++ " " ++ w2 ∈ keys s.freqs := by
  unfold loopStart at h
  rw [getPrefix_rand] at h
  cases hg : getPrefixByNumericalIndex s (s.rand (len s.freqs)).1 with
  | none => rw [hg] at h; exact Option.noConfusion h
  | some p =>
    rw [hg] at h
    have hp := getPrefix_mem _ _ _ hg
    obtain ⟨w1, w2, rfl, hw1, hw2⟩ := hkeys p hp
    simp only [Option.some.injEq] at h
    rw [split_pair (noSpace_of_isWord hw1) (noSpace_of_isWord hw2)] at h
    exact ⟨w1, w2, h.symm, hw1, hw2, hp⟩

/-- In a good table, with an in-range prng, the loop has a start. -/
theorem loopStart_good {σ : Type} (s : Model σ) (hgood : GoodTable s.freqs)
    (hrange : InRange s.prng) :
    ∃ w1 w2, loopStart s = some ([w1, w2], (s.rand (len s.freqs)).2) ∧ isWord w1 = true ∧
      isWord w2 = true := by
  have hpos : (0 : Int) < (len s.freqs : Nat) := by
    have := len_pos hgood.1
    omega
  have hr := (hrange s.state _ hpos).1
  obtain ⟨w1, w2, hget, hsplit, hw1, hw2⟩ := good_key s hgood _ hr
  have hr1 : (s.rand (len s.freqs)).1 = (s.prng s.state (len s.freqs)).1 := rfl
  refine ⟨w1, w2, ?_, hw1, hw2⟩
  unfold loopStart
  rw [getPrefix_rand, hr1, hget]
  simp only [hsplit]

/-- `Generate` for a word count other than 1, on a table that is not empty: the loop runs from
`loopStart`. -/
theorem Generate_loopStart {σ : Type} (U : Unicode) (fuel : Nat) (s : Model σ) (numWords : Int)
    (hne : s.freqs ≠ []) (h1 : numWords ≠ 1) :
    Generate U fuel s numWords =
      match loopStart s with
      | none => Run.panic
      | some st0 =>
        match generateLoop U numWords fuel st0.2 st0.1 with
        | Run.panic => Run.panic
        | Run.timeout => Run.timeout
        | Run.done (words, s) =>
          match words with
          | [] => Run.panic
          | w :: rest => Run.done ((join (Title U w :: rest) ++ ".", none), s) := by
  rw [Generate_eq U fuel s numWords hne]
  unfold loopStart
  rw [getPrefix_rand]
  cases getPrefixByNumericalIndex s (s.rand (len s.freqs)).1 with
  | none => rfl
  | some p => simp only [if_neg h1]

/-- What one iteration keeps, `k` iterations keep. -/
theorem stateAfter_induct {σ : Type} (U : Unicode) (numWords : Int)
    (P : List String × Model σ → Prop)
    (hstep : ∀ st st', P st → (st.1.length : Int) ≠ numWords →
      loopStep U numWords st = some st' → P st') (k : Nat) :
    ∀ st stk, P st → stateAfter U numWords k st = some stk → P stk := by
  induction k with
  | zero =>
    intro st stk hP h
    simp only [stateAfter, Option.some.injEq] at h
    rw [← h]
    exact hP
  | succ k ih =>
    intro st stk hP h
    rw [stateAfter] at h
    split at h
    · exact Option.noConfusion h
    · rename_i hne
      cases hs : loopStep U numWords st with
      | none => rw [hs] at h; exact Option.noConfusion h
      | some st1 =>
        rw [hs] at h
        exact ih st1 stk (hstep st st1 hP hne hs) h

/-- After `k` iterations the word sequence is at least `k` words longer; the table and the prng
are the same. -/
theorem stateAfter_length {σ : Type} (U : Unicode) (numWords : Int) (k : Nat) :
    ∀ st stk : List String × Model σ, stateAfter U numWords k st = some stk →
      st.1.length + k ≤ stk.1.length ∧ stk.2.freqs = st.2.freqs ∧ stk.2.prng = st.2.prng := by
  induction k with
  | zero =>
    intro st stk h
    simp only [stateAfter, Option.some.injEq] at h
    rw [← h]
    exact ⟨Nat.le_refl _, rfl, rfl⟩
  | succ k ih =>
    intro st stk h
    rw [stateAfter] at h
    split at h
    · exact Option.noConfusion h
    · cases hs : loopStep U numWords st with
      | none => rw [hs] at h; exact Option.noConfusion h
      | some st1 =>
        rw [hs] at h
        obtain ⟨-, hgrow, hf, hp, -⟩ := loopStep_some U numWords st st1 hs
        obtain ⟨hl, hf', hp'⟩ := ih st1 stk h
        exact ⟨by omega, hf'.trans hf, hp'.trans hp⟩

/-- In a table of a-z words, for a word count that is a Go `int`, the loop never takes the word
sequence past the word count. -/
theorem stateAfter_le {σ : Type} (U : Unicode) (numWords : Int)
    (hint : numWords < 9223372036854775808) (k : Nat) (st stk : List String × Model σ)
    (hkeys : WordKeys st.2.freqs) (h2 : 2 ≤ st.1.length) (hle : (st.1.length : Int) ≤ numWords)
    (h : stateAfter U numWords k st = some stk) :
    WordKeys stk.2.freqs ∧ 2 ≤ stk.1.length ∧ (stk.1.length : Int) ≤ numWords := by
  refine stateAfter_induct U numWords
    (fun st => WordKeys st.2.freqs ∧ 2 ≤ st.1.length ∧ (st.1.length : Int) ≤ numWords)
    ?_ k st stk ⟨hkeys, h2, hle⟩ h
  intro st st' hP hne hs
  obtain ⟨hk, h2', hle'⟩ := hP
  obtain ⟨-, hgrow, hf, -, -⟩ := loopStep_some U numWords st st' hs
  have hb := loopStep_bound U numWords st st' hk hint (by omega) hs
  exact ⟨by rw [hf]; exact hk, by omega, hb.2⟩

/-- An iteration of the loop on a good table with an in-range prng, on a word sequence shorter
than the word count: it completes, with one or two words more and never more than `numWords`. -/
theorem loopStep_good {σ : Type} (U : Unicode) (numWords : Int)
    (hint : numWords < 9223372036854775808) (st : List String × Model σ)
    (hgood : GoodTable st.2.freqs) (hrange : InRange st.2.prng) (hinv : LoopInv numWords st.1)
    (hlt : (st.1.length : Int) < numWords) :
    ∃ st', loopStep U numWords st = some st' ∧ GoodTable st'.2.freqs ∧ InRange st'.2.prng ∧
      LoopInv numWords st'.1 ∧ st.1.length < st'.1.length ∧ st'.1.length ≤ st.1.length + 2 := by
  unfold loopStep
  rw [if_neg (by have := hinv.1; omega)]
  cases hl : lookup st.2.freqs (join (st.1.drop (st.1.length - 2))) with
  | none =>
    obtain ⟨words', s', hd, hi, hgt, hle, -, hf, hp⟩ :=
      handleDeadEnd_step U st.2 st.1 numWords hgood hrange hinv hlt hint
    exact ⟨(words', s'), hd, hf ▸ hgood, hp ▸ hrange, hi, hgt, hle⟩
  | some m =>
    obtain ⟨w, s', hc, hmem, hf, hp⟩ :=
      chooseAdjoiningWord_returns st.2 m hrange (hgood.2.2.2 _ m hl)
    have hword := hgood.2.2.1 _ m hl w hmem
    obtain ⟨hi, -⟩ := loopInv_append hinv w (noSpace_of_isWord hword) (by push_cast; omega)
    refine ⟨(st.1 ++ [w], s'), ?_, hf ▸ hgood, hp ▸ hrange, hi, ?_, ?_⟩
    · simp only [hc, Option.map_some']
    · simp
    · simp

/-- Whatever the word count, `handleDeadEnd` returns on a good table with an in-range prng. -/
theorem handleDeadEnd_total {σ : Type} (U : Unicode) (s : Model σ) (words : List String)
    (numWords : Int) (hgood : GoodTable s.freqs) (hrange : InRange s.prng) (hw : words ≠ []) :
    ∃ r, handleDeadEnd U s words numWords = some r := by
  have hpos : (0 : Int) < (len s.freqs : Nat) := by
    have := len_pos hgood.1
    omega
  have hr := (hrange s.state _ hpos).1
  obtain ⟨w1, w2, hget, hsplit, -, -⟩ := good_key s hgood _ hr
  have hr1 : (s.rand (len s.freqs)).1 = (s.prng s.state (len s.freqs)).1 := rfl
  unfold handleDeadEnd
  rw [List.getLast?_eq_getLast words hw]
  simp only [getPrefix_rand, hr1, hget, hsplit]
  split
  · exact ⟨_, rfl⟩
  · split
    · exact ⟨_, rfl⟩
    · exact ⟨_, rfl⟩

/-- Whatever the word count, an iteration of the loop completes on a good table with an in-range
prng. -/
theorem loopStep_total {σ : Type} (U : Unicode) (numWords : Int) (st : List String × Model σ)
    (hgood : GoodTable st.2.freqs) (hrange : InRange st.2.prng) (h2 : 2 ≤ st.1.length) :
    ∃ st', loopStep U numWords st = some st' := by
  unfold loopStep
  rw [if_neg (by omega)]
  cases hl : lookup st.2.freqs (join (st.1.drop (st.1.length - 2))) with
  | none =>
    exact handleDeadEnd_total U st.2 st.1 numWords hgood hrange
      (by intro h; rw [h] at h2; simp at h2)
  | some m =>
    obtain ⟨w, s', hc, -, -, -⟩ :=
      chooseAdjoiningWord_returns st.2 m hrange (hgood.2.2.2 _ m hl)
    exact ⟨(st.1 ++ [w], s'), by simp only [hc, Option.map_some']⟩

/-- A loop whose word sequence is longer than the word count does not return. -/
theorem generateLoop_not_done {σ : Type} (U : Unicode) (numWords : Int) (fuel : Nat) :
    ∀ (s : Model σ) (words : List String), numWords < (words.length : Int) →
      ∀ r, generateLoop U numWords fuel s words ≠ Run.done r := by
  induction fuel with
  | zero =>
    intro s words hlt r
    rw [generateLoop_zero U numWords s words (by omega)]
    exact fun h => Run.noConfusion h
  | succ fuel ih =>
    intro s words hlt r
    rw [generateLoop_step, if_neg (by omega)]
    cases hs : loopStep U numWords (words, s) with
    | none => exact fun h => Run.noConfusion h
    | some st' =>
      have hgrow := (loopStep_some U numWords (words, s) st' hs).2.1
      exact ih st'.2 st'.1 (by simp only at hgrow; omega) r

/-- A loop whose word sequence is longer than the word count runs for ever on a good table with an
in-range prng: whatever the fuel, it runs out. -/
theorem generateLoop_timeout {σ : Type} (U : Unicode) (numWords : Int) (fuel : Nat) :
    ∀ (s : Model σ) (words : List String), GoodTable s.freqs → InRange s.prng →
      2 ≤ words.length → numWords < (words.length : Int) →
      generateLoop U numWords fuel s words = Run.timeout := by
  induction fuel with
  | zero =>
    intro s words _ _ _ hlt
    exact generateLoop_zero U numWords s words (by omega)
  | succ fuel ih =>
    intro s words hgood hrange h2 hlt
    rw [generateLoop_step, if_neg (by omega)]
    obtain ⟨st', hs⟩ := loopStep_total U numWords (words, s) hgood hrange h2
    obtain ⟨-, hgrow, hf, hp, -⟩ := loopStep_some U numWords (words, s) st' hs
    simp only at hgrow hf hp
    rw [hs]
    exact ih st'.2 st'.1 (hf ▸ hgood) (hp ▸ hrange) (by omega) (by omega)

/-! ## Termination of `Generate` -/

/-- C16, as stated, fails: after the trigram ("a", "a", "a") has been added 2^64 times to a new
model, its count has wrapped to 0; `Generate(3)` with the in-range prng of the tests enters its
loop with the words "a", "a", and the first iteration does not add a word: it panics in
`chooseAdjoiningWord`, so the loop never reaches the length 3. -/
theorem loopStep_after_wrap :
    (∀ t ∈ List.replicate uintSize (⟨"a", "a", "a"⟩ : Trigram), isWordTrigram t = true) ∧
    InRange mockPRNG ∧ wrappedModel.freqs ≠ [] ∧
    loopStart wrappedModel = some (["a", "a"], withCounter wrappedModel 1) ∧
    loopStep asciiOnly 3 (["a", "a"], withCounter wrappedModel 1) = none ∧
    ∀ fuel, generateLoop asciiOnly 3 (fuel + 1) (withCounter wrappedModel 1) ["a", "a"] =
      Run.panic := by
  refine ⟨?_, mockPRNG_inRange, ?_, ?_, ?_, ?_⟩
  · intro t ht
    rw [(List.mem_replicate.mp ht).2]
    decide
  · rw [wrappedModel_freqs]
    exact List.cons_ne_nil _ _
  · rw [wrappedModel_eq]
    rfl
  · rw [wrappedModel_eq]
    rfl
  · intro fuel
    rw [wrappedModel_eq]
    rfl

/-- C16, amended: for every model made non-empty by `Add` calls on trigrams of non-empty a-z
words, no (key, successor) pair added 2^64 times or more, every in-range prng and every `N >= 1`
that is a Go `int`, `Generate(N)` terminates: it returns with fuel for `N - 2` iterations. For
`N` other than 1 its loop starts from two words and returns a sequence of exactly `N` words; a
state reached after `k` iterations has `k <= N - 2` and at most `N` words, and while the length is
not `N` the next iteration completes and adds 1 or 2 words without exceeding `N`. -/
theorem Generate_terminates {σ : Type} (U : Unicode) (prng : σ → Int → Int × σ) (st : σ)
    (ts : List Trigram) (numWords : Int) (hts : ts ≠ [])
    (hwords : ∀ t ∈ ts, isWordTrigram t = true)
    (hocc : ∀ p w, occurrences ts p w < uintSize) (hrange : InRange prng)
    (h1 : 1 ≤ numWords) (hint : numWords < 9223372036854775808) :
    (∃ r, ∀ fuel : Nat, numWords - 2 ≤ fuel →
        Generate U fuel (addAll (New prng st) ts) numWords = Run.done r) ∧
    (numWords ≠ 1 →
      ∃ st0, loopStart (addAll (New prng st) ts) = some st0 ∧ st0.1.length = 2 ∧
        (∃ r, (r.1.length : Int) = numWords ∧ ∀ fuel : Nat, numWords - 2 ≤ fuel →
            generateLoop U numWords fuel st0.2 st0.1 = Run.done r) ∧
        ∀ k stk, stateAfter U numWords k st0 = some stk →
          (k : Int) ≤ numWords - 2 ∧ (stk.1.length : Int) ≤ numWords ∧
          ((stk.1.length : Int) ≠ numWords →
            ∃ st', loopStep U numWords stk = some st' ∧
              (st'.1.length = stk.1.length + 1 ∨ st'.1.length = stk.1.length + 2) ∧
              (st'.1.length : Int) ≤ numWords)) := by
  have hgood := goodTable_addAll prng st ts hts hwords hocc
  have hrange' : InRange (addAll (New prng st) ts).prng := by
    rw [(addAll_prng (New prng st) ts).1]
    exact hrange
  refine ⟨?_, fun hne1 => ?_⟩
  · obtain ⟨str, s', hrun, -⟩ :=
      Generate_returns U (addAll (New prng st) ts) numWords hgood hrange' h1 hint
    exact ⟨((str, none), s'), hrun⟩
  · obtain ⟨w1, w2, hstart, hw1, hw2⟩ := loopStart_good (addAll (New prng st) ts) hgood hrange'
    have hinv : LoopInv numWords [w1, w2] :=
      ⟨by simp, by simp only [List.length_cons, List.length_nil]; omega,
        by
          intro w hmem
          rcases List.mem_cons.mp hmem with h | h
          · rw [h]; exact noSpace_of_isWord hw1
          · rw [List.mem_singleton.mp h]; exact noSpace_of_isWord hw2,
        w1, rfl, hw1⟩
    refine ⟨_, hstart, rfl, ?_, ?_⟩
    · obtain ⟨words', s', hrun, hlen, -⟩ :=
        generateLoop_returns U numWords hint (numWords - 2).toNat
          ((addAll (New prng st) ts).rand (len (addAll (New prng st) ts).freqs)).2 [w1, w2]
          hgood hrange' hinv (by simp only [List.length_cons, List.length_nil]; omega)
      refine ⟨(words', s'), hlen, fun fuel hfuel => ?_⟩
      obtain ⟨j, hj⟩ : ∃ j, fuel = (numWords - 2).toNat + j :=
        ⟨fuel - (numWords - 2).toNat, by omega⟩
      rw [hj]
      exact generateLoop_mono U numWords _ _ _ _ hrun j
    · intro k stk hk
      have hP := stateAfter_induct U numWords
        (fun st => GoodTable st.2.freqs ∧ InRange st.2.prng ∧ LoopInv numWords st.1)
        (by
          intro st st' hP hne hs
          obtain ⟨hg, hr, hi⟩ := hP
          obtain ⟨st'', hs', hg', hr', hi', -⟩ :=
            loopStep_good U numWords hint st hg hr hi (by have := hi.2.1; omega)
          rw [hs] at hs'
          cases hs'
          exact ⟨hg', hr', hi'⟩)
        k _ stk ⟨hgood, hrange', hinv⟩ hk
      obtain ⟨hg, hr, hi⟩ := hP
      have hlen := (stateAfter_length U numWords k _ stk hk).1
      simp only [List.length_cons, List.length_nil] at hlen
      have hle := hi.2.1
      refine ⟨by omega, hle, fun hne => ?_⟩
      obtain ⟨st', hs, -, -, hi', hlt, hle2⟩ :=
        loopStep_good U numWords hint stk hg hr hi (by omega)
      exact ⟨st', hs, by omega, hi'.2.1⟩

/-- C16, amended, on the model of the tests with 10 words requested. -/
theorem Generate_terminates_witness :
    (∃ r, ∀ fuel : Nat, (10 : Int) - 2 ≤ fuel →
        Generate asciiOnly fuel (addAll (New mockPRNG 0) testTrigrams) 10 = Run.done r) ∧
    ((10 : Int) ≠ 1 →
      ∃ st0, loopStart (addAll (New mockPRNG 0) testTrigrams) = some st0 ∧ st0.1.length = 2 ∧
        (∃ r, (r.1.length : Int) = 10 ∧ ∀ fuel : Nat, (10 : Int) - 2 ≤ fuel →
            generateLoop asciiOnly 10 fuel st0.2 st0.1 = Run.done r) ∧
        ∀ k stk, stateAfter asciiOnly 10 k st0 = some stk →
          (k : Int) ≤ 10 - 2 ∧ (stk.1.length : Int) ≤ 10 ∧
          ((stk.1.length : Int) ≠ 10 →
            ∃ st', loopStep asciiOnly 10 stk = some st' ∧
              (st'.1.length = stk.1.length + 1 ∨ st'.1.length = stk.1.length + 2) ∧
              (st'.1.length : Int) ≤ 10)) :=
  Generate_terminates asciiOnly mockPRNG 0 testTrigrams 10 (by decide) (by decide)
    (fun _ _ => lt_of_le_of_lt (List.countP_le_length _) (by decide)) mockPRNG_inRange
    (by decide) (by decide)

/-! ## Dead ends inside the loop -/

theorem rand_freqs {σ : Type} (s : Model σ) (n : Int) : (s.rand n).2.freqs = s.freqs := rfl

/-- A capitalised word followed by any word is not a key of a table of a-z words. -/
theorem lookup_capitalised {T : GoMap (GoMap Nat)} (hkeys : WordKeys T) {w1 : String}
    (hw1 : isWord w1 = true) (w2 : String) : lookup T (join [capitalise w1, w2]) = none := by
  obtain ⟨c, cs, hcap, hc1, hc2⟩ := capitalise_head hw1
  apply lookup_none_of_char hkeys (c := c) _ (not_keyChar_of_upper hc1 hc2)
  rw [join_pair, hcap]
  exact List.mem_append_left _ (List.mem_cons_self c cs)

/-- C17: within `Generate(N)` for `N >= 2` (a Go `int`) on a model built by `Add` from trigrams of
non-empty a-z words, every state the loop reaches from its start has between 2 and `N` words; so
whenever the body of the loop runs (the length is not `N`) and the last two words are not a key,
which is when the iteration is the call of `handleDeadEnd`, the length `L` of the word sequence
satisfies `2 <= L < N`: at least one word remains. -/
theorem handleDeadEnd_words_remaining {σ : Type} (U : Unicode) (prng : σ → Int → Int × σ) (st : σ)
    (ts : List Trigram) (numWords : Int) (hwords : ∀ t ∈ ts, isWordTrigram t = true)
    (h2 : 2 ≤ numWords) (hint : numWords < 9223372036854775808) :
    ∀ st0, loopStart (addAll (New prng st) ts) = some st0 →
      ∀ k stk, stateAfter U numWords k st0 = some stk →
        (∀ fuel, generateLoop U numWords (k + fuel) st0.2 st0.1 =
          generateLoop U numWords fuel stk.2 stk.1) ∧
        2 ≤ stk.1.length ∧ (stk.1.length : Int) ≤ numWords ∧
        ((stk.1.length : Int) ≠ numWords → DeadEnd stk →
          loopStep U numWords stk = handleDeadEnd U stk.2 stk.1 numWords ∧
          2 ≤ stk.1.length ∧ (stk.1.length : Int) < numWords ∧
          1 ≤ numWords - (stk.1.length : Int)) := by
  intro st0 h0 k stk hk
  have hkeys := wordKeys_addAll prng st ts hwords
  obtain ⟨w1, w2, rfl, -, -, -⟩ := loopStart_some _ st0 hkeys h0
  obtain ⟨-, hl2, hle⟩ := stateAfter_le U numWords hint k _ stk
    (by rw [rand_freqs]; exact hkeys) (by simp)
    (by simp only [List.length_cons, List.length_nil]; omega) hk
  refine ⟨fun fuel => generateLoop_stateAfter U numWords k _ stk fuel hk, hl2, hle,
    fun hne hd => ⟨?_, hl2, by omega, by omega⟩⟩
  unfold loopStep
  rw [if_neg (by omega), hd.2]

/-- C17 on the second run of the repository's test (9 words requested, the counter of the prng at
9): the loop starts from "is the", and after one iteration it is at a dead end with 3 words. -/
theorem handleDeadEnd_words_remaining_witness :
    (∀ st0, loopStart (addAll (New mockPRNG 9) testTrigrams) = some st0 →
      ∀ k stk, stateAfter asciiOnly 9 k st0 = some stk →
        (∀ fuel, generateLoop asciiOnly 9 (k + fuel) st0.2 st0.1 =
          generateLoop asciiOnly 9 fuel stk.2 stk.1) ∧
        2 ≤ stk.1.length ∧ (stk.1.length : Int) ≤ 9 ∧
        ((stk.1.length : Int) ≠ 9 → DeadEnd stk →
          loopStep asciiOnly 9 stk = handleDeadEnd asciiOnly stk.2 stk.1 9 ∧
          2 ≤ stk.1.length ∧ (stk.1.length : Int) < 9 ∧
          1 ≤ 9 - (stk.1.length : Int))) ∧
    loopStart (addAll (New mockPRNG 9) testTrigrams) =
      some (["is", "the"], withCounter testModel 10) ∧
    stateAfter asciiOnly 9 1 (["is", "the"], withCounter testModel 10) =
      some (["is", "the", "question"], withCounter testModel 11) ∧
    DeadEnd (["is", "the", "question"], withCounter testModel 11) :=
  ⟨handleDeadEnd_words_remaining asciiOnly mockPRNG 9 testTrigrams 9 (by decide) (by decide)
      (by decide),
    rfl, rfl, ⟨by decide, rfl⟩⟩

/-- C18: for every model built by `Add` from trigrams of non-empty a-z words, once the loop of a
`Generate` run is at a dead end, every state it reaches later is a dead end too, so no successor
is sampled again: each later iteration is the call of `handleDeadEnd`, which ends the last word
with a period and appends "You", "heard", or "amen", or the two words of a key with the first
capitalised; a capitalised word and a second word joined by a space are not a key of the table,
and the state after the call is again a dead end. -/
theorem deadEnd_persists {σ : Type} (U : Unicode) (prng : σ → Int → Int × σ) (st : σ)
    (ts : List Trigram) (numWords : Int) (hwords : ∀ t ∈ ts, isWordTrigram t = true) :
    ∀ st0, loopStart (addAll (New prng st) ts) = some st0 →
      ∀ k stk, stateAfter U numWords k st0 = some stk → DeadEnd stk →
        ∀ j stj, stateAfter U numWords j stk = some stj →
          DeadEnd stj ∧
          ∀ st', loopStep U numWords stj = some st' →
            handleDeadEnd U stj.2 stj.1 numWords = some st' ∧ DeadEnd st' ∧
            ∃ (hw : stj.1 ≠ []) (app : List String),
              st'.1 = stj.1.dropLast ++ [stj.1.getLast hw ++ "."] ++ app ∧
              (app = ["You", "heard"] ∨ app = ["amen"] ∨
                ∃ w1 w2, w1 ++ " " ++ w2 ∈ keys stj.2.freqs ∧ isWord w1 = true ∧
                  isWord w2 = true ∧ app = [capitalise w1, w2] ∧
                  lookup stj.2.freqs (join [capitalise w1, w2]) = none) := by
  intro st0 h0 k stk hk hd j stj hj
  have hkeys := wordKeys_addAll prng st ts hwords
  obtain ⟨w1, w2, rfl, -, -, -⟩ := loopStart_some _ st0 hkeys h0
  have hkeysk : WordKeys stk.2.freqs := by
    rw [(stateAfter_length U numWords k _ stk hk).2.1, rand_freqs]
    exact hkeys
  have hP := stateAfter_induct U numWords
    (fun st => WordKeys st.2.freqs ∧ DeadEnd st)
    (by
      intro st st' hP _ hs
      refine ⟨?_, (deadEnd_step U numWords st st' hP.1 hP.2 hs).1⟩
      rw [(loopStep_some U numWords st st' hs).2.2.1]
      exact hP.1)
    j stk stj ⟨hkeysk, hd⟩ hj
  obtain ⟨hkeysj, hdj⟩ := hP
  refine ⟨hdj, fun st' hs => ?_⟩
  obtain ⟨hd', hh⟩ := deadEnd_step U numWords stj st' hkeysj hdj hs
  refine ⟨hh, hd', ?_⟩
  obtain ⟨hw, app, hr, -, -, hforms⟩ := handleDeadEnd_some U stj.2 stj.1 numWords st' hh
  refine ⟨hw, app, hr, ?_⟩
  rcases hforms with ⟨-, p, a, rest, hg, hsp, happ, -⟩ | ⟨-, -, happ, -⟩ | ⟨-, -, happ, -⟩
  · have hp := getPrefix_mem _ _ _ hg
    obtain ⟨v1, v2, rfl, hv1, hv2⟩ := hkeysj p hp
    rw [split_pair (noSpace_of_isWord hv1) (noSpace_of_isWord hv2)] at hsp
    obtain ⟨rfl, rfl⟩ := List.cons.inj hsp
    rw [Title_of_isWord U hv1] at happ
    exact Or.inr (Or.inr ⟨v1, v2, hp, hv1, hv2, happ, lookup_capitalised hkeysj hv1 v2⟩)
  · exact Or.inl happ
  · exact Or.inr (Or.inl happ)

/-- C18 on the second run of the repository's test (9 words requested, the counter of the prng at
9): the loop is at a dead end after "is the question", and the next iteration is the call of
`handleDeadEnd` that restarts with "Or not". -/
theorem deadEnd_persists_witness :
    (∀ st0, loopStart (addAll (New mockPRNG 9) testTrigrams) = some st0 →
      ∀ k stk, stateAfter asciiOnly 9 k st0 = some stk → DeadEnd stk →
        ∀ j stj, stateAfter asciiOnly 9 j stk = some stj →
          DeadEnd stj ∧
          ∀ st', loopStep asciiOnly 9 stj = some st' →
            handleDeadEnd asciiOnly stj.2 stj.1 9 = some st' ∧ DeadEnd st' ∧
            ∃ (hw : stj.1 ≠ []) (app : List String),
              st'.1 = stj.1.dropLast ++ [stj.1.getLast hw ++ "."] ++ app ∧
              (app = ["You", "heard"] ∨ app = ["amen"] ∨
                ∃ w1 w2, w1 ++ " " ++ w2 ∈ keys stj.2.freqs ∧ isWord w1 = true ∧
                  isWord w2 = true ∧ app = [capitalise w1, w2] ∧
                  lookup stj.2.freqs (join [capitalise w1, w2]) = none)) ∧
    (∀ t ∈ testTrigrams, isWordTrigram t = true) ∧
    loopStart (addAll (New mockPRNG 9) testTrigrams) =
      some (["is", "the"], withCounter testModel 10) ∧
    stateAfter asciiOnly 9 1 (["is", "the"], withCounter testModel 10) =
      some (["is", "the", "question"], withCounter testModel 11) ∧
    DeadEnd (["is", "the", "question"], withCounter testModel 11) ∧
    loopStep asciiOnly 9 (["is", "the", "question"], withCounter testModel 11) =
      some (["is", "the", "question.", "Or", "not"], withCounter testModel 12) :=
  ⟨deadEnd_persists asciiOnly mockPRNG 9 testTrigrams 9 (by decide), by decide, rfl, rfl,
    ⟨by decide, rfl⟩, rfl⟩

/-! ## A word count of 0 or less -/

/-- C19: for every model made non-empty by `Add` calls on trigrams of non-empty a-z words, every
in-range prng and every `N <= 0`, `Generate(N)` never returns, whatever the fuel: the loop starts
with 2 words, after `k` iterations the word sequence has at least `2 + k` words, and its length is
never `N`. When no (key, successor) pair was added 2^64 times or more no iteration panics either:
the loop runs any number of iterations and the fuel always runs out. -/
theorem Generate_never_returns {σ : Type} (U : Unicode) (prng : σ → Int → Int × σ) (st : σ)
    (ts : List Trigram) (numWords : Int) (hts : ts ≠ [])
    (hwords : ∀ t ∈ ts, isWordTrigram t = true) (hrange : InRange prng) (h0 : numWords ≤ 0) :
    (∀ fuel r, Generate U fuel (addAll (New prng st) ts) numWords ≠ Run.done r) ∧
    (∀ st0, loopStart (addAll (New prng st) ts) = some st0 → st0.1.length = 2 ∧
      ∀ k stk, stateAfter U numWords k st0 = some stk →
        2 + k ≤ stk.1.length ∧ (stk.1.length : Int) ≠ numWords) ∧
    ((∀ p w, occurrences ts p w < uintSize) →
      (∀ fuel, Generate U fuel (addAll (New prng st) ts) numWords = Run.timeout) ∧
      ∃ st0, loopStart (addAll (New prng st) ts) = some st0 ∧
        ∀ k, ∃ stk, stateAfter U numWords k st0 = some stk) := by
  have hkeys := wordKeys_addAll prng st ts hwords
  have hne := addAll_ne_nil (New prng st) ts hts
  have hne1 : numWords ≠ 1 := by omega
  refine ⟨fun fuel r => ?_, fun st0 hst0 => ?_, fun hocc => ?_⟩
  · rw [Generate_loopStart U fuel _ numWords hne hne1]
    cases hs : loopStart (addAll (New prng st) ts) with
    | none => exact fun h => Run.noConfusion h
    | some st0 =>
      obtain ⟨w1, w2, rfl, -, -, -⟩ := loopStart_some _ st0 hkeys hs
      have hnd := generateLoop_not_done U numWords fuel
        ((addAll (New prng st) ts).rand (len (addAll (New prng st) ts).freqs)).2 [w1, w2]
        (by simp only [List.length_cons, List.length_nil]; omega)
      simp only
      cases hg : generateLoop U numWords fuel
        ((addAll (New prng st) ts).rand (len (addAll (New prng st) ts).freqs)).2 [w1, w2] with
      | panic => exact fun h => Run.noConfusion h
      | timeout => exact fun h => Run.noConfusion h
      | done r' => exact absurd hg (hnd r')
  · obtain ⟨w1, w2, rfl, -, -, -⟩ := loopStart_some _ st0 hkeys hst0
    refine ⟨rfl, fun k stk hk => ?_⟩
    have hlen := (stateAfter_length U numWords k _ stk hk).1
    simp only [List.length_cons, List.length_nil] at hlen
    exact ⟨by omega, by omega⟩
  · have hgood := goodTable_addAll prng st ts hts hwords hocc
    have hrange' : InRange (addAll (New prng st) ts).prng := by
      rw [(addAll_prng (New prng st) ts).1]
      exact hrange
    obtain ⟨w1, w2, hstart, -, -⟩ := loopStart_good (addAll (New prng st) ts) hgood hrange'
    refine ⟨fun fuel => ?_, _, hstart, fun k => ?_⟩
    · rw [Generate_loopStart U fuel _ numWords hne hne1, hstart]
      simp only
      rw [generateLoop_timeout U numWords fuel
        ((addAll (New prng st) ts).rand (len (addAll (New prng st) ts).freqs)).2 [w1, w2]
        hgood hrange' (by simp) (by simp only [List.length_cons, List.length_nil]; omega)]
    · induction k with
      | zero => exact ⟨_, rfl⟩
      | succ k ih =>
        obtain ⟨stk, hk⟩ := ih
        obtain ⟨hlen, hf, hp⟩ := stateAfter_length U numWords k _ stk hk
        simp only [List.length_cons, List.length_nil] at hlen
        obtain ⟨st', hs⟩ := loopStep_total U numWords stk (hf ▸ hgood) (hp ▸ hrange')
          (by omega)
        refine ⟨st', stateAfter_add U numWords k 1 _ stk st' hk ?_⟩
        rw [stateAfter, if_neg (by omega), hs]
        rfl

/-- C19 on the model of the tests with 0 words requested. -/
theorem Generate_never_returns_witness :
    (∀ fuel r, Generate asciiOnly fuel (addAll (New mockPRNG 0) testTrigrams) 0 ≠ Run.done r) ∧
    (∀ st0, loopStart (addAll (New mockPRNG 0) testTrigrams) = some st0 → st0.1.length = 2 ∧
      ∀ k stk, stateAfter asciiOnly 0 k st0 = some stk →
        2 + k ≤ stk.1.length ∧ (stk.1.length : Int) ≠ 0) ∧
    ((∀ p w, occurrences testTrigrams p w < uintSize) →
      (∀ fuel, Generate asciiOnly fuel (addAll (New mockPRNG 0) testTrigrams) 0 = Run.timeout) ∧
      ∃ st0, loopStart (addAll (New mockPRNG 0) testTrigrams) = some st0 ∧
        ∀ k, ∃ stk, stateAfter asciiOnly 0 k st0 = some stk) :=
  Generate_never_returns asciiOnly mockPRNG 0 testTrigrams 0 (by decide) (by decide)
    mockPRNG_inRange (by decide)

end markovmodel
